import Mathlib

/-!
# audio_out: channel remixing and the Winmm output backend

A shallow embedding of `src/audio_io/format_conversion/remix.cpp` and of the
sequential parts of `src/audio_io/outputs/windows/winmm_output.cpp`.

* A `float*` is a `Buffer R`: a map from offsets to samples.  In the remix
  engine samples live in an arbitrary semiring `R` (exact arithmetic stands in
  for `float`).
* A `float**` is a `Planar R`: one buffer per channel.
* Every function that writes through an output pointer takes the memory behind
  that pointer as its last argument and returns the memory after the call.
* `int` counts (frames, channels) are natural numbers, taken small enough that
  no `int` product overflows; `unsigned int` arithmetic wraps modulo `2^32`
  where the code multiplies or increments.
* Input and output pointers address disjoint memory.
* The platform (`waveOutOpen`, `waveOutGetNumDevs`, `waveOutGetDevCaps`, buffer
  completion) is a parameter: an arbitrary verdict or answer per call.
* The mixing thread and the platform act on the header ring through a step
  relation.
* In the remix engine a sample is an element of a semiring; in the backend
  (`createDevice`, `winmm_mixer`) a `float` is an IEEE 754 binary32 value with
  round-to-nearest, ties-to-even arithmetic.
-/

set_option autoImplicit false

namespace audio_out

/-! ## Memory model -/

/-- Memory reached through a `float*`: offset to sample. -/
abbrev Buffer (R : Type) := Nat → R

/-- Memory reached through a `float**`: channel to buffer. -/
abbrev Planar (R : Type) := Nat → Buffer R

/-- The assignment `b[i] = v`. -/
def Buffer.write {R : Type} (b : Buffer R) (i : Nat) (v : R) : Buffer R :=
  fun k => if k = i then v else b k

/-- The assignment `bs[ch][i] = v`. -/
def Planar.write {R : Type} (bs : Planar R) (ch i : Nat) (v : R) : Planar R :=
  fun c => if c = ch then (bs c).write i v else bs c

/-- Replace the whole buffer behind `bs[ch]`. -/
def Planar.setChannel {R : Type} (bs : Planar R) (ch : Nat) (b : Buffer R) : Planar R :=
  fun c => if c = ch then b else bs c

/-! ## Loop combinators -/

/-- Iterate `body j` for `j = start, start+1, ...`, `count` times. -/
def forLoopAux {σ : Type} (body : Nat → σ → σ) : Nat → Nat → σ → σ
  | 0, _, s => s
  | n + 1, j, s => forLoopAux body n (j + 1) (body j s)

/-- The loop `for(int j = lo; j < hi; j++) body(j)` acting on a state. -/
def forLoop {σ : Type} (lo hi : Nat) (body : Nat → σ → σ) (s : σ) : σ :=
  forLoopAux body (hi - lo) lo s

/-- The loop
`for(int in = a, out = b; in < frames*inStep; in += inStep, out += outStep) body(in, out)`
acting on a state.  When `inStep = 0` the bound is `0` and the body never runs. -/
def stridedFor {σ : Type} (frames inStep outStep : Nat) (body : Nat → Nat → σ → σ)
    (inn out : Nat) (s : σ) : σ :=
  if _h : inn < frames * inStep then
    stridedFor frames inStep outStep body (inn + inStep) (out + outStep) (body inn out s)
  else s
termination_by frames * inStep - inn
decreasing_by
  have hpos : 0 < inStep := by
    rcases Nat.eq_zero_or_pos inStep with h0 | h0
    · subst h0; simp at _h
    · exact h0
  omega

/-- The call `std::copy(src + first, src + first + count, dst + dstFirst)`. -/
def std_copy {R : Type} (src : Buffer R) (first count : Nat) (dst : Buffer R)
    (dstFirst : Nat) : Buffer R :=
  forLoop 0 count (fun k d => d.write (dstFirst + k) (src (first + k))) dst

/-- The call `std::fill(dst + first, dst + first + count, v)`. -/
def std_fill {R : Type} (dst : Buffer R) (first count : Nat) (v : R) : Buffer R :=
  forLoop 0 count (fun k d => d.write (first + k) v) dst

/-! ## remix.cpp -/

section remix

variable {R : Type} [Semiring R]

/-- `upmixMonoUninterleaved` (remix.cpp:11-17). -/
def upmixMonoUninterleaved (frames : Nat) (input : Buffer R) (outputChannels : Nat)
    (outputs : Planar R) : Planar R :=
  forLoop 0 frames (fun _ outs =>
    forLoop 0 outputChannels (fun j o =>
      o.setChannel j (std_copy input 0 frames (o j) 0)) outs) outputs

/-- `upmixMonoInterleaved` (remix.cpp:19-23); the loop state is `(j, output)`. -/
def upmixMonoInterleaved (frames : Nat) (input : Buffer R) (outputChannels : Nat)
    (output : Buffer R) : Buffer R :=
  (forLoop 0 frames (fun i (st : Nat × Buffer R) =>
    (st.1 + outputChannels, std_fill st.2 st.1 outputChannels (input i))) (0, output)).2

/-- `mixUnrecognizedUninterleaved` (remix.cpp:25-33). -/
def mixUnrecognizedUninterleaved (frames inputChannels : Nat) (inputs : Planar R)
    (outputChannels : Nat) (outputs : Planar R) : Planar R :=
  let neededChannels := min inputChannels outputChannels
  let outputs := forLoop 0 neededChannels (fun i o =>
    o.setChannel i (std_copy (inputs i) 0 frames (o i) 0)) outputs
  forLoop neededChannels outputChannels (fun i o =>
    o.setChannel i (std_fill (o i) 0 frames 0)) outputs

/-- `mixUnrecognizedInterleaved` (remix.cpp:35-41). -/
def mixUnrecognizedInterleaved (frames inputChannels : Nat) (input : Buffer R)
    (outputChannels : Nat) (output : Buffer R) : Buffer R :=
  let neededChannels := min inputChannels outputChannels
  stridedFor frames inputChannels outputChannels (fun inn out output =>
    let output := forLoop 0 neededChannels (fun j o => o.write (out + j) (input (inn + j))) output
    forLoop neededChannels outputChannels (fun j o => o.write (out + j) 0) output)
    0 0 output

/-- `applyMixingMatrixUninterleaved<matrix, inputChannels, outputChannels>`
(remix.cpp:44-55); the loop state is `(frame, outputs)`, and `frame` starts as
an unspecified stack array, here all zero. -/
def applyMixingMatrixUninterleaved (matrix : Buffer R) (inputChannels outputChannels : Nat)
    (frames : Nat) (inputs : Planar R) (outputs : Planar R) : Planar R :=
  (forLoop 0 frames (fun i (st : Buffer R × Planar R) =>
    let frame := forLoop 0 inputChannels (fun j f => f.write j (inputs j i)) st.1
    (frame, forLoop 0 outputChannels (fun row outs =>
      let curRow : Buffer R := fun c => matrix (row * inputChannels + c)
      let outs := outs.write row i 0
      forLoop 0 inputChannels (fun column o =>
        o.write row i (o row i + frame column * curRow column)) outs) st.2))
    (fun _ => 0, outputs)).2

/-- `applyMixingMatrixInterleaved<matrix, inputChannels, outputChannels>`
(remix.cpp:57-68); the loop state is `(frame, output)`. -/
def applyMixingMatrixInterleaved (matrix : Buffer R) (inputChannels outputChannels : Nat)
    (frames : Nat) (input : Buffer R) (output : Buffer R) : Buffer R :=
  (stridedFor frames inputChannels outputChannels (fun inn out (st : Buffer R × Buffer R) =>
    let frame := std_copy input inn inputChannels st.1 0
    (frame, forLoop 0 outputChannels (fun row o =>
      let curRow : Buffer R := fun c => matrix (row * inputChannels + c)
      let o := o.write (out + row) 0
      forLoop 0 inputChannels (fun column o =>
        o.write (out + row) (o (out + row) + curRow column * frame column)) o) st.2))
    0 0 (fun _ => 0, output)).2

/-- The twelve constant matrices of `audio_io/private/mixing_matrices.hpp`, a
header that is not part of the sources at hand; their entries are parameters. -/
structure MixingMatrices (R : Type) where
  mixing_matrix_1_2 : Buffer R
  mixing_matrix_1_6 : Buffer R
  mixing_matrix_1_8 : Buffer R
  mixing_matrix_2_1 : Buffer R
  mixing_matrix_2_6 : Buffer R
  mixing_matrix_2_8 : Buffer R
  mixing_matrix_6_1 : Buffer R
  mixing_matrix_6_2 : Buffer R
  mixing_matrix_6_8 : Buffer R
  mixing_matrix_8_1 : Buffer R
  mixing_matrix_8_2 : Buffer R
  mixing_matrix_8_6 : Buffer R

/-- `remixAudioInterleaved` (remix.cpp:75-90). -/
def remixAudioInterleaved (M : MixingMatrices R) (frames inputChannels : Nat)
    (input : Buffer R) (outputChannels : Nat) (output : Buffer R) : Buffer R :=
  if inputChannels = 1 ∧ outputChannels = 2 then
    applyMixingMatrixInterleaved M.mixing_matrix_1_2 1 2 frames input output
  else if inputChannels = 1 ∧ outputChannels = 6 then
    applyMixingMatrixInterleaved M.mixing_matrix_1_6 1 6 frames input output
  else if inputChannels = 1 ∧ outputChannels = 8 then
    applyMixingMatrixInterleaved M.mixing_matrix_1_8 1 8 frames input output
  else if inputChannels = 1 then
    upmixMonoInterleaved frames input outputChannels output
  else if inputChannels = 2 ∧ outputChannels = 1 then
    applyMixingMatrixInterleaved M.mixing_matrix_2_1 2 1 frames input output
  else if inputChannels = 2 ∧ outputChannels = 6 then
    applyMixingMatrixInterleaved M.mixing_matrix_2_6 2 6 frames input output
  else if inputChannels = 2 ∧ outputChannels = 8 then
    applyMixingMatrixInterleaved M.mixing_matrix_2_8 2 8 frames input output
  else if inputChannels = 6 ∧ outputChannels = 1 then
    applyMixingMatrixInterleaved M.mixing_matrix_6_1 6 1 frames input output
  else if inputChannels = 6 ∧ outputChannels = 2 then
    applyMixingMatrixInterleaved M.mixing_matrix_6_2 6 2 frames input output
  else if inputChannels = 6 ∧ outputChannels = 8 then
    applyMixingMatrixInterleaved M.mixing_matrix_6_8 6 8 frames input output
  else if inputChannels = 8 ∧ outputChannels = 1 then
    applyMixingMatrixInterleaved M.mixing_matrix_8_1 8 1 frames input output
  else if inputChannels = 8 ∧ outputChannels = 2 then
    applyMixingMatrixInterleaved M.mixing_matrix_8_2 8 2 frames input output
  else if inputChannels = 8 ∧ outputChannels = 6 then
    applyMixingMatrixInterleaved M.mixing_matrix_8_6 8 6 frames input output
  else mixUnrecognizedInterleaved frames inputChannels input outputChannels output

/-- `remixAudioUnInterleaved` (remix.cpp:92-107). -/
def remixAudioUnInterleaved (M : MixingMatrices R) (frames inputChannels : Nat)
    (inputs : Planar R) (outputChannels : Nat) (outputs : Planar R) : Planar R :=
  if inputChannels = 1 ∧ outputChannels = 2 then
    applyMixingMatrixUninterleaved M.mixing_matrix_1_2 1 2 frames inputs outputs
  else if inputChannels = 1 ∧ outputChannels = 6 then
    applyMixingMatrixUninterleaved M.mixing_matrix_1_6 1 6 frames inputs outputs
  else if inputChannels = 1 ∧ outputChannels = 8 then
    applyMixingMatrixUninterleaved M.mixing_matrix_1_8 1 8 frames inputs outputs
  else if inputChannels = 1 then
    upmixMonoUninterleaved frames (inputs 0) outputChannels outputs
  else if inputChannels = 2 ∧ outputChannels = 1 then
    applyMixingMatrixUninterleaved M.mixing_matrix_2_1 2 1 frames inputs outputs
  else if inputChannels = 2 ∧ outputChannels = 6 then
    applyMixingMatrixUninterleaved M.mixing_matrix_2_6 2 6 frames inputs outputs
  else if inputChannels = 2 ∧ outputChannels = 8 then
    applyMixingMatrixUninterleaved M.mixing_matrix_2_8 2 8 frames inputs outputs
  else if inputChannels = 6 ∧ outputChannels = 1 then
    applyMixingMatrixUninterleaved M.mixing_matrix_6_1 6 1 frames inputs outputs
  else if inputChannels = 6 ∧ outputChannels = 2 then
    applyMixingMatrixUninterleaved M.mixing_matrix_6_2 6 2 frames inputs outputs
  else if inputChannels = 6 ∧ outputChannels = 8 then
    applyMixingMatrixUninterleaved M.mixing_matrix_6_8 6 8 frames inputs outputs
  else if inputChannels = 8 ∧ outputChannels = 1 then
    applyMixingMatrixUninterleaved M.mixing_matrix_8_1 8 1 frames inputs outputs
  else if inputChannels = 8 ∧ outputChannels = 2 then
    applyMixingMatrixUninterleaved M.mixing_matrix_8_2 8 2 frames inputs outputs
  else if inputChannels = 8 ∧ outputChannels = 6 then
    applyMixingMatrixUninterleaved M.mixing_matrix_8_6 8 6 frames inputs outputs
  else mixUnrecognizedUninterleaved frames inputChannels inputs outputChannels outputs

/-- The pairs `remixAudioInterleaved` and `remixAudioUnInterleaved` send to a
mixing matrix, in the order of the dispatch. -/
def knownPairs : List (Nat × Nat) :=
  [(1, 2), (1, 6), (1, 8), (2, 1), (2, 6), (2, 8), (6, 1), (6, 2), (6, 8), (8, 1), (8, 2), (8, 6)]

/-- The matrix the dispatch uses for a pair, if any. -/
def MixingMatrices.forPair (M : MixingMatrices R) (inputChannels outputChannels : Nat) :
    Option (Buffer R) :=
  if inputChannels = 1 ∧ outputChannels = 2 then some M.mixing_matrix_1_2
  else if inputChannels = 1 ∧ outputChannels = 6 then some M.mixing_matrix_1_6
  else if inputChannels = 1 ∧ outputChannels = 8 then some M.mixing_matrix_1_8
  else if inputChannels = 2 ∧ outputChannels = 1 then some M.mixing_matrix_2_1
  else if inputChannels = 2 ∧ outputChannels = 6 then some M.mixing_matrix_2_6
  else if inputChannels = 2 ∧ outputChannels = 8 then some M.mixing_matrix_2_8
  else if inputChannels = 6 ∧ outputChannels = 1 then some M.mixing_matrix_6_1
  else if inputChannels = 6 ∧ outputChannels = 2 then some M.mixing_matrix_6_2
  else if inputChannels = 6 ∧ outputChannels = 8 then some M.mixing_matrix_6_8
  else if inputChannels = 8 ∧ outputChannels = 1 then some M.mixing_matrix_8_1
  else if inputChannels = 8 ∧ outputChannels = 2 then some M.mixing_matrix_8_2
  else if inputChannels = 8 ∧ outputChannels = 6 then some M.mixing_matrix_8_6
  else none

end remix

/-- Matrices with every entry equal to `v`; used to run the dispatch on
concrete inputs, the real entries being those of the missing header. -/
def MixingMatrices.const {R : Type} (v : R) : MixingMatrices R :=
  ⟨fun _ => v, fun _ => v, fun _ => v, fun _ => v, fun _ => v, fun _ => v,
   fun _ => v, fun _ => v, fun _ => v, fun _ => v, fun _ => v, fun _ => v⟩

/-! ## winmm_output.cpp -/

/-- The fields of `WAVEFORMATEXTENSIBLE` that `makeFormat` sets. -/
structure WAVEFORMATEXTENSIBLE where
  wFormatTag : Nat
  nChannels : Nat
  nSamplesPerSec : Nat
  nAvgBytesPerSec : Nat
  nBlockAlign : Nat
  wBitsPerSample : Nat
  cbSize : Nat
  wValidBitsPerSample : Nat
  dwChannelMask : Option Nat
deriving DecidableEq, Repr

/-- Speaker position bits and format tags of the platform headers. -/
def SPEAKER_FRONT_LEFT : Nat := 0x1
def SPEAKER_FRONT_RIGHT : Nat := 0x2
def SPEAKER_FRONT_CENTER : Nat := 0x4
def SPEAKER_LOW_FREQUENCY : Nat := 0x8
def SPEAKER_BACK_LEFT : Nat := 0x10
def SPEAKER_BACK_RIGHT : Nat := 0x20
def SPEAKER_SIDE_LEFT : Nat := 0x200
def SPEAKER_SIDE_RIGHT : Nat := 0x400
def WAVE_FORMAT_PCM : Nat := 0x0001
def WAVE_FORMAT_EXTENSIBLE : Nat := 0xFFFE

/-- The lookup table `chanmasks` of `makeFormat` (winmm_output.cpp:26-36). -/
def chanmasks : List Nat :=
  [0, 0, SPEAKER_FRONT_LEFT ||| SPEAKER_FRONT_RIGHT, 0, 0, 0,
   SPEAKER_FRONT_LEFT ||| SPEAKER_FRONT_RIGHT ||| SPEAKER_FRONT_CENTER
     ||| SPEAKER_LOW_FREQUENCY ||| SPEAKER_BACK_LEFT ||| SPEAKER_BACK_RIGHT,
   0,
   SPEAKER_FRONT_LEFT ||| SPEAKER_FRONT_RIGHT ||| SPEAKER_FRONT_CENTER
     ||| SPEAKER_LOW_FREQUENCY ||| SPEAKER_BACK_LEFT ||| SPEAKER_BACK_RIGHT
     ||| SPEAKER_SIDE_LEFT ||| SPEAKER_SIDE_RIGHT]

/-- `makeFormat` (winmm_output.cpp:24-53).  `DWORD` fields wrap modulo `2^32`,
`WORD` fields modulo `2^16`; a read past the end of `chanmasks` is `none`. -/
def makeFormat (channels sr : Nat) (isExtended : Bool) : WAVEFORMATEXTENSIBLE :=
  { wFormatTag := if isExtended = false then WAVE_FORMAT_PCM else WAVE_FORMAT_EXTENSIBLE
    nSamplesPerSec := sr
    wBitsPerSample := 16
    cbSize := if isExtended = false then 0 else 22
    wValidBitsPerSample := 16
    nAvgBytesPerSec := channels * 2 * sr % 2 ^ 32
    nBlockAlign := channels * 2 % 2 ^ 16
    nChannels := channels % 2 ^ 16
    dwChannelMask := chanmasks.get? channels }

/-- The loop over `chancounts` in the constructor of `WinmmOutputDevice`
(winmm_output.cpp:89-99).  `waveOutOpen` is the platform's verdict on a format
for the device and event at hand.  The result is `outChannels` when an attempt
succeeded (`gotAudio`), `none` otherwise. -/
def openExtendedLoop (waveOutOpen : WAVEFORMATEXTENSIBLE → Bool)
    (neededChannels maxChannels targetSr : Nat) : List Nat → Option Nat
  | [] => none
  | c :: rest =>
    if c > neededChannels then
      openExtendedLoop waveOutOpen neededChannels maxChannels targetSr rest
    else if c > maxChannels then
      openExtendedLoop waveOutOpen neededChannels maxChannels targetSr rest
    else if waveOutOpen (makeFormat c targetSr true) then some c
    else openExtendedLoop waveOutOpen neededChannels maxChannels targetSr rest

/-- What the constructor of `WinmmOutputDevice` has settled when it reaches
`init`: the format it opened and the `outChannels` it passes on. -/
structure OpenedDevice where
  format : WAVEFORMATEXTENSIBLE
  outChannels : Nat
deriving DecidableEq, Repr

/-- The constructor `WinmmOutputDevice::WinmmOutputDevice` up to the call of
`init` (winmm_output.cpp:71-107).  `createEventOk` says whether `CreateEvent`
returned a handle; an `AudioIOError` is an `Except.error`. -/
def WinmmOutputDevice.WinmmOutputDevice (createEventOk : Bool)
    (waveOutOpen : WAVEFORMATEXTENSIBLE → Bool)
    (channels maxChannels targetSr : Nat) : Except String OpenedDevice :=
  if createEventOk = false then
    Except.error "Winmm: Could not create buffer_state_changed_event."
  else
    let neededChannels := if channels < 2 then 2 else channels
    match openExtendedLoop waveOutOpen neededChannels maxChannels targetSr [8, 6, 2] with
    | some c => Except.ok ⟨makeFormat c targetSr true, c⟩
    | none =>
      if waveOutOpen (makeFormat 2 targetSr false) then
        Except.ok ⟨makeFormat 2 targetSr false, 2⟩
      else Except.error "Could not open Winmm device with any attempted channel count."

/-! ### Binary32 arithmetic

`float` is IEEE 754 binary32 with round-to-nearest, ties-to-even.  A finite
value is the rational it denotes; the sign of zero is not tracked. -/

/-- A binary32 value: finite, an infinity with its sign, or a NaN. -/
inductive F32 where
  | finite (q : ℚ)
  | inf (negative : Bool)
  | nan
deriving DecidableEq, Repr

/-- Round to the nearest integer, a tie going to the even neighbour. -/
def roundHalfEven (r : ℚ) : Int :=
  if r - (Int.floor r : ℚ) < 1 / 2 then Int.floor r
  else if 1 / 2 < r - (Int.floor r : ℚ) then Int.floor r + 1
  else if Int.floor r % 2 = 0 then Int.floor r
  else Int.floor r + 1

/-- The spacing of binary32 values around a positive `a`: 24 significant bits,
the exponent never below -126 (subnormals share the spacing `2^-149`). -/
def f32ulp (a : ℚ) : ℚ := (2 : ℚ) ^ (max (Int.log 2 a) (-126) - 23)

/-- A positive magnitude rounded to the binary32 grid, exponent unbounded above. -/
def roundMagnitude (a : ℚ) : ℚ := (roundHalfEven (a / f32ulp a) : ℚ) * f32ulp a

/-- The binary32 value of an exact result `q`: rounded to nearest, ties to
even, and an infinity once the rounded magnitude reaches `2^128`. -/
def roundF32 (q : ℚ) : F32 :=
  if q = 0 then F32.finite 0
  else if (2 : ℚ) ^ (128 : Nat) ≤ roundMagnitude |q| then F32.inf (decide (q < 0))
  else F32.finite (if q < 0 then -roundMagnitude |q| else roundMagnitude |q|)

/-- The product `a * b` of two floats. -/
def f32mul : F32 → F32 → F32
  | F32.finite a, F32.finite b => roundF32 (a * b)
  | F32.finite a, F32.inf s => if a = 0 then F32.nan else F32.inf (xor s (decide (a < 0)))
  | F32.inf s, F32.finite b => if b = 0 then F32.nan else F32.inf (xor s (decide (b < 0)))
  | F32.inf s, F32.inf t => F32.inf (xor s t)
  | _, _ => F32.nan

/-- The quotient `a / b` of two floats; a zero divisor is `+0.0`, which is
what `(float)sr` is for `sr = 0`. -/
def f32div : F32 → F32 → F32
  | F32.finite a, F32.finite b =>
    if b = 0 then (if a = 0 then F32.nan else F32.inf (decide (a < 0))) else roundF32 (a / b)
  | F32.finite _, F32.inf _ => F32.finite 0
  | F32.inf s, F32.finite b => F32.inf (xor s (decide (b < 0)))
  | _, _ => F32.nan

/-- The comparison `a <= b` of two floats; false when either is a NaN. -/
def f32le : F32 → F32 → Bool
  | F32.finite a, F32.finite b => decide (a ≤ b)
  | F32.finite _, F32.inf s => !s
  | F32.inf s, F32.finite _ => s
  | F32.inf s, F32.inf t => s || !t
  | _, _ => false

/-- The left side `mixAhead*blockSize/(float)sr` of the test in `createDevice`
(winmm_output.cpp:202): the `unsigned int` product wraps modulo `2^32`, is
converted to `float` like `sr`, and the division is a `float` division. -/
def mixAheadQuotient (blockSize sr mixAhead : Nat) : F32 :=
  f32div (roundF32 ((mixAhead * blockSize % 2 ^ 32 : Nat) : ℚ)) (roundF32 (sr : ℚ))

/-- The loop `while(mixAhead*blockSize/(float)sr <= startLatency) mixAhead += 1;`
of `WinmmOutputDeviceFactory::createDevice` (winmm_output.cpp:201-202), run for
at most `fuel` tests of its condition; `none` when the fuel runs out.  The
increment is `unsigned int` and wraps modulo `2^32`. -/
def mixAheadLoop (blockSize sr : Nat) (startLatency : F32) : Nat → Nat → Option Nat
  | 0, _ => none
  | fuel + 1, mixAhead =>
    if f32le (mixAheadQuotient blockSize sr mixAhead) startLatency then
      mixAheadLoop blockSize sr startLatency fuel ((mixAhead + 1) % 2 ^ 32)
    else some mixAhead

/-- The mix-ahead `createDevice` hands to the device: the loop started at
`mixAhead = 0`. -/
def createDevice_mixAhead (blockSize sr : Nat) (startLatency : F32) (fuel : Nat) :
    Option Nat :=
  mixAheadLoop blockSize sr startLatency fuel 0

/-! ### Sample quantization and the header ring -/

/-- The completion bit of `WAVEHDR.dwFlags` in the platform headers. -/
def WHDR_DONE : Nat := 0x1

/-- Truncation toward zero, the rounding of a float-to-integer conversion. -/
def truncate (x : ℚ) : Int := if 0 ≤ x then Int.floor x else Int.ceil x

/-- The conversion `(short)x` of a float: the truncated value when the 16-bit
type can hold it; otherwise, and for an infinity or a NaN, the C++ behaviour is
undefined (`none`).  A build that narrows through a 32-bit integer then keeps
the low 16 bits, -32768 for 32768.0; no build clamps. -/
def toShort : F32 → Option Int
  | F32.finite r => if -32768 ≤ truncate r ∧ truncate r ≤ 32767 then some (truncate r) else none
  | _ => none

/-- The expression `(short)(workspace[i]*32767)` of `winmm_mixer`
(winmm_output.cpp:149): a `float` product, then the conversion. -/
def quantizeSample (x : F32) : Option Int := toShort (f32mul x (F32.finite 32767))

/-- A `WAVEHDR` together with the 16-bit buffer `lpData` points at
(`audio_data[i]`); a sample that was never written is `none`. -/
structure WAVEHDR where
  lpData : List (Option Int)
  dwBufferLength : Nat
  dwFlags : Nat
deriving DecidableEq, Repr

/-- The headers as the constructor leaves them (winmm_output.cpp:73-75 and
108-114): `mixAhead + 1` slots, in `unsigned int`, of `samples` 16-bit values
each, all flagged `WHDR_DONE`. -/
def WinmmOutputDevice.initialHeaders (mixAhead samples : Nat) : List WAVEHDR :=
  List.replicate ((mixAhead + 1) % 2 ^ 32)
    ⟨List.replicate samples none, 2 * samples % 2 ^ 32, WHDR_DONE⟩

/-- The scan of `winmm_mixer` for a free header (winmm_output.cpp:139-145):
the first index whose flags have `WHDR_DONE` set. -/
def firstDone : List WAVEHDR → Option Nat
  | [] => none
  | h :: rest =>
    if h.dwFlags &&& WHDR_DONE ≠ 0 then some 0 else (firstDone rest).map (fun i => i + 1)

/-- Apply `f` to the header at index `i`. -/
def updateHeader (headers : List WAVEHDR) (i : Nat) (f : WAVEHDR → WAVEHDR) : List WAVEHDR :=
  match headers[i]? with
  | some h => headers.set i (f h)
  | none => headers

/-- The loop `for(i < output_frames*output_channels) nextBuffer[i] = (short)(workspace[i]*32767)`
(winmm_output.cpp:149) on the buffer of one header; the flags are not touched. -/
def fillBuffer (samples : Nat) (workspace : Nat → F32) (h : WAVEHDR) : WAVEHDR :=
  { h with
    lpData := (forLoop 0 samples (fun i d => d.set i (quantizeSample (workspace i))) h.lpData) }

/-- The assignments `dwFlags = 0; dwBufferLength = ...` that follow the write
(winmm_output.cpp:150-151), after which the header is handed to the platform.
Bits the platform sets other than `WHDR_DONE` are not tracked. -/
def markQueued (samples : Nat) (h : WAVEHDR) : WAVEHDR :=
  { h with dwFlags := 0, dwBufferLength := 2 * samples % 2 ^ 32 }

/-- The headers right after the sample write of one pass, before the flags of
the chosen header are cleared. -/
def writeStage (samples : Nat) (workspace : Nat → F32) (headers : List WAVEHDR) (i : Nat) :
    List WAVEHDR :=
  updateHeader headers i (fillBuffer samples workspace)

/-- One pass of the inner `while(1)` of `winmm_mixer` (winmm_output.cpp:137-154):
`none` is the `break` taken when no header is free; otherwise the chosen
header is filled from `workspace`, what the sample format converter wrote, and
then marked queued and submitted. -/
def winmm_mixer_iteration (samples : Nat) (workspace : Nat → F32) (headers : List WAVEHDR) :
    Option (List WAVEHDR) :=
  match firstDone headers with
  | none => none
  | some i => some (updateHeader (writeStage samples workspace headers i) i (markQueued samples))

/-- The platform reporting completion of header `i`: it sets `WHDR_DONE`. -/
def platformDone (headers : List WAVEHDR) (i : Nat) : List WAVEHDR :=
  updateHeader headers i (fun h => { h with dwFlags := h.dwFlags ||| WHDR_DONE })

/-- A header is queued when its `WHDR_DONE` bit is clear. -/
def isQueued (h : WAVEHDR) : Bool := h.dwFlags &&& WHDR_DONE == 0

/-- The number of queued headers of the ring. -/
def queuedCount (headers : List WAVEHDR) : Nat := headers.countP isQueued

/-- One step of the ring: a pass of the mixing thread that found a free header,
or the platform completing a queued one. -/
inductive RingStep (samples : Nat) : List WAVEHDR → List WAVEHDR → Prop
  | mixer (headers headers' : List WAVEHDR) (workspace : Nat → F32) :
      winmm_mixer_iteration samples workspace headers = some headers' →
      RingStep samples headers headers'
  | platform (headers : List WAVEHDR) (i : Nat) (h : WAVEHDR) :
      headers[i]? = some h → isQueued h = true →
      RingStep samples headers (platformDone headers i)

/-- The states of the ring reachable from the headers the constructor set up. -/
def RingReachable (mixAhead samples : Nat) (headers : List WAVEHDR) : Prop :=
  Relation.ReflTransGen (RingStep samples)
    (WinmmOutputDevice.initialHeaders mixAhead samples) headers

/-! ### Stopping the device -/

/-- The state `stop` reads and writes: whether `winmm_mixing_thread` is
joinable and whether `winmm_mixing_flag` is set. -/
structure ThreadState where
  joinable : Bool
  winmm_mixing_flag : Bool
deriving DecidableEq, Repr

/-- The effects of `stop` in program order. -/
inductive StopAction where
  | logInfo
  | flagClear
  | threadJoin
deriving DecidableEq, Repr

/-- `WinmmOutputDevice::stop` (winmm_output.cpp:123-130).  The joined thread
leaves `while(winmm_mixing_flag.test_and_set())` through a `test_and_set` that
returned false, so the flag is set again once `join` returns. -/
def WinmmOutputDevice.stop (s : ThreadState) : ThreadState × List StopAction :=
  if s.joinable then
    (⟨false, true⟩, [StopAction.logInfo, StopAction.flagClear, StopAction.threadJoin])
  else (s, [StopAction.logInfo])

/-- The destructor `WinmmOutputDevice::~WinmmOutputDevice` (winmm_output.cpp:119-121). -/
def WinmmOutputDevice.destructor (s : ThreadState) : ThreadState × List StopAction :=
  WinmmOutputDevice.stop s

/-! ### Capability probing and the device factory -/

/-- `WinmmCapabilities` (winmm_output.cpp:216-220). -/
structure WinmmCapabilities where
  sr : Nat
  name : String
  channels : Nat
deriving DecidableEq, Repr

/-- The device identifier `WAVE_MAPPER`, `(UINT)-1`. -/
def WAVE_MAPPER : Nat := 2 ^ 32 - 1

/-- What the platform answers: the device count of `waveOutGetNumDevs`, the
`szPname` of `waveOutGetDevCaps` per device, and the verdict of `waveOutOpen`
with `WAVE_FORMAT_QUERY` per device and format. -/
structure Platform where
  waveOutGetNumDevs : Nat
  szPname : Nat → String
  waveOutOpenQuery : Nat → WAVEFORMATEXTENSIBLE → Bool

/-- The inner loop of `getWinmmCapabilities` over `srs` (winmm_output.cpp:248-256)
for one channel count: the first accepted sample rate, at which the code
jumps to `done`. -/
def probeRates (query : WAVEFORMATEXTENSIBLE → Bool) (channels : Nat) : List Nat → Option Nat
  | [] => none
  | sr :: rest =>
    if query (makeFormat channels sr true) then some sr else probeRates query channels rest

/-- The outer loop of `getWinmmCapabilities` over `channels`
(winmm_output.cpp:247-257): the first accepted pair, if any. -/
def probeChannels (query : WAVEFORMATEXTENSIBLE → Bool) (srs : List Nat) :
    List Nat → Option (Nat × Nat)
  | [] => none
  | c :: rest =>
    match probeRates query c srs with
    | some sr => some (c, sr)
    | none => probeChannels query srs rest

/-- `getWinmmCapabilities` (winmm_output.cpp:222-260). -/
def getWinmmCapabilities (P : Platform) (index : Nat) : WinmmCapabilities :=
  match probeChannels (P.waveOutOpenQuery index) [48000, 44100, 22050] [8, 6, 2] with
  | some (c, sr) => { sr := sr, name := P.szPname index, channels := c }
  | none => { sr := 44100, name := P.szPname index, channels := 2 }

/-- The data members of `WinmmOutputDeviceFactory` (winmm_output.cpp:183-186). -/
structure WinmmOutputDeviceFactory where
  names : List String
  max_channels : List Int
  srs : List Nat
  mapper_max_channels : Nat
  mapper_sr : Nat
deriving DecidableEq, Repr

/-- The factory as constructed, before any scan. -/
def WinmmOutputDeviceFactory.new : WinmmOutputDeviceFactory :=
  { names := [], max_channels := [], srs := [], mapper_max_channels := 2, mapper_sr := 44100 }

/-- `WinmmOutputDeviceFactory::scan` (winmm_output.cpp:262-285); the loop state
is `(newMaxChannels, newNames, newSrs)` and the returned flag is its result. -/
def WinmmOutputDeviceFactory.scan (P : Platform) (_self : WinmmOutputDeviceFactory) :
    WinmmOutputDeviceFactory × Bool :=
  let lists := forLoop 0 P.waveOutGetNumDevs
    (fun i (st : List Int × List String × List Nat) =>
      let caps := getWinmmCapabilities P i
      (st.1 ++ [(caps.channels : Int)], st.2.1 ++ [caps.name], st.2.2 ++ [caps.sr]))
    ([], [], [])
  let caps := getWinmmCapabilities P WAVE_MAPPER
  ({ names := lists.2.1, max_channels := lists.1, srs := lists.2.2,
     mapper_max_channels := caps.channels, mapper_sr := caps.sr }, true)

/-- `WinmmOutputDeviceFactory::getOutputNames` (winmm_output.cpp:192-194). -/
def WinmmOutputDeviceFactory.getOutputNames (self : WinmmOutputDeviceFactory) : List String :=
  self.names

/-- `WinmmOutputDeviceFactory::getOutputMaxChannels` (winmm_output.cpp:196-198). -/
def WinmmOutputDeviceFactory.getOutputMaxChannels (self : WinmmOutputDeviceFactory) :
    List Int :=
  self.max_channels

/-- `WinmmOutputDeviceFactory::getOutputCount` (winmm_output.cpp:208-210). -/
def WinmmOutputDeviceFactory.getOutputCount (self : WinmmOutputDeviceFactory) : Nat :=
  self.names.length

/-! ### Glue for comparing the two remix entry points and for channel masks -/

/-- The planar form of an interleaved buffer with `channels` channels: sample
`i` of channel `c` is the sample at offset `i * channels + c`. -/
def deinterleave {R : Type} (channels : Nat) (b : Buffer R) : Planar R :=
  fun c i => b (i * channels + c)

/-- The number of bits set among the 32 bits of a `DWORD`. -/
def popCount (n : Nat) : Nat := ((List.range 32).filter (fun i => n.testBit i)).length

/-! ## Loop lemmas -/

theorem forLoopAux_succ_right {σ : Type} (body : Nat → σ → σ) (n j : Nat) (s : σ) :
    forLoopAux body (n + 1) j s = body (j + n) (forLoopAux body n j s) := by
  induction n generalizing j s with
  | zero => simp [forLoopAux]
  | succ n ih =>
    rw [forLoopAux, ih (j + 1) (body j s)]
    have : j + 1 + n = j + (n + 1) := by omega
    rw [this]
    rfl

theorem forLoop_of_le {σ : Type} (lo hi : Nat) (body : Nat → σ → σ) (s : σ) (h : hi ≤ lo) :
    forLoop lo hi body s = s := by
  unfold forLoop
  rw [Nat.sub_eq_zero_of_le h]
  rfl

theorem forLoop_succ {σ : Type} (lo hi : Nat) (body : Nat → σ → σ) (s : σ) (h : lo ≤ hi) :
    forLoop lo (hi + 1) body s = body hi (forLoop lo hi body s) := by
  unfold forLoop
  have h1 : hi + 1 - lo = (hi - lo) + 1 := by omega
  rw [h1, forLoopAux_succ_right]
  have h2 : lo + (hi - lo) = hi := by omega
  rw [h2]

/-- Invariant rule for `forLoop`. -/
theorem forLoop_inv {σ : Type} (P : Nat → σ → Prop) (lo hi : Nat) (body : Nat → σ → σ)
    (s : σ) (hle : lo ≤ hi) (h0 : P lo s)
    (hstep : ∀ j t, lo ≤ j → j < hi → P j t → P (j + 1) (body j t)) :
    P hi (forLoop lo hi body s) := by
  induction hi with
  | zero =>
    have : lo = 0 := by omega
    subst this
    rw [forLoop_of_le 0 0 body s (le_refl 0)]
    exact h0
  | succ n ih =>
    rcases Nat.eq_or_lt_of_le hle with heq | hlt
    · subst heq
      rw [forLoop_of_le _ _ body s (le_refl _)]
      exact h0
    · have hle2 : lo ≤ n := by omega
      rw [forLoop_succ lo n body s hle2]
      exact hstep n _ hle2 (by omega)
        (ih hle2 (fun j t h1 h2 hp => hstep j t h1 (by omega) hp))

/-- A loop whose body never touches the state leaves it alone. -/
theorem forLoop_id {σ : Type} (lo hi : Nat) (body : Nat → σ → σ) (s : σ)
    (hbody : ∀ j t, body j t = t) : forLoop lo hi body s = s := by
  rcases Nat.le_total lo hi with h | h
  · exact forLoop_inv (fun _ t => t = s) lo hi body s h rfl
      (fun j t _ _ ht => by rw [hbody, ht])
  · exact forLoop_of_le lo hi body s h

/-- With a zero input stride the strided loop does not run. -/
theorem stridedFor_zero_stride {σ : Type} (frames outStep : Nat) (body : Nat → Nat → σ → σ)
    (inn out : Nat) (s : σ) : stridedFor frames 0 outStep body inn out s = s := by
  rw [stridedFor]
  simp

/-- With a positive input stride the strided loop runs once per remaining frame. -/
theorem stridedFor_eq_forLoop {σ : Type} (frames inStep outStep : Nat)
    (body : Nat → Nat → σ → σ) (hpos : 0 < inStep) (d : Nat) :
    ∀ (i : Nat) (s : σ), i + d = frames →
      stridedFor frames inStep outStep body (i * inStep) (i * outStep) s
        = forLoopAux (fun k t => body (k * inStep) (k * outStep) t) d i s := by
  induction d with
  | zero =>
    intro i s h
    have hi : i = frames := by omega
    subst hi
    rw [stridedFor]
    simp [forLoopAux]
  | succ d ih =>
    intro i s h
    have hlt : i * inStep < frames * inStep :=
      Nat.mul_lt_mul_of_pos_right (by omega) hpos
    rw [stridedFor, dif_pos hlt]
    have h1 : i * inStep + inStep = (i + 1) * inStep := by ring
    have h2 : i * outStep + outStep = (i + 1) * outStep := by ring
    rw [h1, h2, ih (i + 1) _ (by omega)]
    rfl

theorem stridedFor_eq (σ : Type) (frames inStep outStep : Nat)
    (body : Nat → Nat → σ → σ) (hpos : 0 < inStep) (s : σ) :
    stridedFor frames inStep outStep body 0 0 s
      = forLoop 0 frames (fun k t => body (k * inStep) (k * outStep) t) s := by
  have h := stridedFor_eq_forLoop frames inStep outStep body hpos frames 0 s (by omega)
  simp only [Nat.zero_mul] at h
  rw [h]
  rfl

/-! ## Buffer lemmas -/

theorem buffer_write_apply {R : Type} (b : Buffer R) (i : Nat) (v : R) (k : Nat) :
    b.write i v k = if k = i then v else b k := rfl

/-- A run of writes `o[base + j] = v j` for `lo ≤ j < hi`. -/
theorem forLoop_write {R : Type} (base lo hi : Nat) (v : Nat → R) (o : Buffer R) (p : Nat) :
    forLoop lo hi (fun j o => o.write (base + j) (v j)) o p
      = if base + lo ≤ p ∧ p < base + hi then v (p - base) else o p := by
  rcases Nat.le_total lo hi with h | h
  · refine forLoop_inv (fun n t => t p = if base + lo ≤ p ∧ p < base + n then v (p - base)
      else o p) lo hi _ o h ?_ ?_
    · have : ¬ (base + lo ≤ p ∧ p < base + lo) := by omega
      simp [this]
    · intro j t h1 h2 ht
      simp only [buffer_write_apply]
      by_cases hp : p = base + j
      · subst hp
        have : base + lo ≤ base + j ∧ base + j < base + (j + 1) := by omega
        simp [this]
      · rw [if_neg hp, ht]
        by_cases hc : base + lo ≤ p ∧ p < base + j
        · have : base + lo ≤ p ∧ p < base + (j + 1) := by omega
          simp [hc, this]
        · have : ¬ (base + lo ≤ p ∧ p < base + (j + 1)) := by omega
          simp [hc, this]
  · rw [forLoop_of_le _ _ _ _ h]
    have : ¬ (base + lo ≤ p ∧ p < base + hi) := by omega
    simp [this]

theorem std_copy_apply {R : Type} (src : Buffer R) (first count : Nat) (dst : Buffer R)
    (dstFirst p : Nat) :
    std_copy src first count dst dstFirst p
      = if dstFirst ≤ p ∧ p < dstFirst + count then src (first + (p - dstFirst)) else dst p := by
  unfold std_copy
  rw [forLoop_write dstFirst 0 count (fun k => src (first + k)) dst p]
  simp

theorem std_fill_apply {R : Type} (dst : Buffer R) (first count : Nat) (v : R) (p : Nat) :
    std_fill dst first count v p = if first ≤ p ∧ p < first + count then v else dst p := by
  unfold std_fill
  rw [forLoop_write first 0 count (fun _ => v) dst p]
  simp

/-- A run of accumulations `o[k] += f c` for `c < n`. -/
theorem forLoop_accumulate {R : Type} [Semiring R] (k n : Nat) (f : Nat → R) (o : Buffer R) :
    forLoop 0 n (fun c o => o.write k (o k + f c)) o
      = o.write k (o k + Finset.sum (Finset.range n) f) := by
  refine forLoop_inv (fun m t => t = o.write k (o k + Finset.sum (Finset.range m) f)) 0 n _ o
    (Nat.zero_le n) ?_ ?_
  · funext p
    by_cases hp : p = k
    · subst hp; simp [buffer_write_apply]
    · simp [buffer_write_apply, hp]
  · intro j t _ _ ht
    subst ht
    funext p
    by_cases hp : p = k
    · subst hp
      simp [buffer_write_apply, Finset.sum_range_succ, add_assoc]
    · simp [buffer_write_apply, hp]

/-- Offsets inside frame `k` of an interleaved buffer. -/
theorem block_index (outC k p : Nat) (h1 : k * outC ≤ p) (h2 : p < k * outC + outC) :
    p / outC = k ∧ p % outC = p - k * outC := by
  have hpos : 0 < outC := by omega
  have hq : p / outC = k := by
    apply Nat.div_eq_of_lt_le
    · exact h1
    · rw [Nat.succ_mul]; exact h2
  refine ⟨hq, ?_⟩
  have := Nat.div_add_mod p outC
  rw [hq, Nat.mul_comm] at this
  omega

/-- A loop over frames whose body rewrites exactly block `k` of an interleaved
buffer: afterwards the first `n` blocks hold the values written and the rest is
untouched. -/
theorem forLoop_blocks {σ R : Type} (proj : σ → Buffer R) (inv : Nat → σ → Prop) (outC : Nat)
    (body : Nat → σ → σ) (val : Nat → Nat → R)
    (hinv : ∀ k s, inv k s → inv (k + 1) (body k s))
    (hbody : ∀ k s p, inv k s → proj (body k s) p
      = if k * outC ≤ p ∧ p < k * outC + outC then val k (p - k * outC) else proj s p)
    (n : Nat) (s : σ) (h0 : inv 0 s) (p : Nat) :
    proj (forLoop 0 n body s) p
      = if p < n * outC then val (p / outC) (p % outC) else proj s p := by
  have key := forLoop_inv (fun m t => inv m t ∧ ∀ p, proj t p
      = if p < m * outC then val (p / outC) (p % outC) else proj s p) 0 n body s
    (Nat.zero_le n) ⟨h0, fun p => by simp⟩ ?_
  · exact key.2 p
  · rintro j t _ _ ⟨hI, ht⟩
    refine ⟨hinv j t hI, fun q => ?_⟩
    rw [hbody j t q hI]
    by_cases hc : j * outC ≤ q ∧ q < j * outC + outC
    · obtain ⟨hq, hr⟩ := block_index outC j q hc.1 hc.2
      have hlt : q < (j + 1) * outC := by rw [Nat.succ_mul]; exact hc.2
      rw [if_pos hc, if_pos hlt, hq, hr]
    · rw [if_neg hc, ht q]
      by_cases hl : q < j * outC
      · have hlt : q < (j + 1) * outC := by rw [Nat.succ_mul]; omega
        rw [if_pos hl, if_pos hlt]
      · have hlt : ¬ q < (j + 1) * outC := by rw [Nat.succ_mul]; omega
        rw [if_neg hl, if_neg hlt]

/-! ## Closed forms of the interleaved routines -/

section interleaved

variable {R : Type} [Semiring R]

omit [Semiring R] in
/-- What `upmixMonoInterleaved` leaves at every offset. -/
theorem upmixMonoInterleaved_apply (frames : Nat) (input : Buffer R) (outputChannels : Nat)
    (output : Buffer R) (p : Nat) :
    upmixMonoInterleaved frames input outputChannels output p
      = if p < frames * outputChannels then input (p / outputChannels) else output p := by
  unfold upmixMonoInterleaved
  exact forLoop_blocks (fun st : Nat × Buffer R => st.2)
    (fun k st => st.1 = k * outputChannels) outputChannels _ (fun k _ => input k)
    (fun k st hk => by simp only [hk, Nat.succ_mul])
    (fun k st q hk => by simp only [hk, std_fill_apply])
    frames (0, output) (by simp) p

/-- One frame of `mixUnrecognizedInterleaved`. -/
theorem mixUnrecognized_frame (input : Buffer R) (needed outC inn out : Nat)
    (hle : needed ≤ outC) (o : Buffer R) (p : Nat) :
    forLoop needed outC (fun j o => o.write (out + j) (0 : R))
        (forLoop 0 needed (fun j o => o.write (out + j) (input (inn + j))) o) p
      = if out ≤ p ∧ p < out + outC then
          (if p - out < needed then input (inn + (p - out)) else 0)
        else o p := by
  rw [forLoop_write out needed outC (fun _ => (0 : R)),
    forLoop_write out 0 needed (fun j => input (inn + j))]
  by_cases h1 : out + needed ≤ p ∧ p < out + outC
  · have h2 : out ≤ p ∧ p < out + outC := by omega
    have h3 : ¬ p - out < needed := by omega
    rw [if_pos h1, if_pos h2, if_neg h3]
  · rw [if_neg h1]
    by_cases h2 : out + 0 ≤ p ∧ p < out + needed
    · have h3 : out ≤ p ∧ p < out + outC := by omega
      have h4 : p - out < needed := by omega
      rw [if_pos h2, if_pos h3, if_pos h4]
    · have h3 : ¬ (out ≤ p ∧ p < out + outC) := by omega
      rw [if_neg h2, if_neg h3]

/-- What `mixUnrecognizedInterleaved` leaves at every offset when there is at
least one input channel. -/
theorem mixUnrecognizedInterleaved_apply (frames inputChannels : Nat) (input : Buffer R)
    (outputChannels : Nat) (output : Buffer R) (hpos : 0 < inputChannels) (p : Nat) :
    mixUnrecognizedInterleaved frames inputChannels input outputChannels output p
      = if p < frames * outputChannels then
          (if p % outputChannels < min inputChannels outputChannels then
            input (p / outputChannels * inputChannels + p % outputChannels) else 0)
        else output p := by
  unfold mixUnrecognizedInterleaved
  simp only []
  rw [stridedFor_eq _ _ _ _ _ hpos]
  exact forLoop_blocks (fun o : Buffer R => o) (fun _ _ => True) outputChannels _
    (fun k j => if j < min inputChannels outputChannels then input (k * inputChannels + j)
      else 0)
    (fun _ _ _ => trivial)
    (fun k o q _ => mixUnrecognized_frame input _ outputChannels _ _
      (Nat.min_le_right _ _) o q)
    frames output trivial p

/-- With no input channel `mixUnrecognizedInterleaved` writes nothing at all. -/
theorem mixUnrecognizedInterleaved_no_input (frames : Nat) (input : Buffer R)
    (outputChannels : Nat) (output : Buffer R) :
    mixUnrecognizedInterleaved frames 0 input outputChannels output = output := by
  unfold mixUnrecognizedInterleaved
  exact stridedFor_zero_stride _ _ _ _ _ _

/-- One output row of a mixing matrix: clear, then accumulate. -/
theorem matrix_row (k inC : Nat) (f : Nat → R) (o : Buffer R) :
    forLoop 0 inC (fun column o => o.write k (o k + f column)) (o.write k 0)
      = o.write k (Finset.sum (Finset.range inC) f) := by
  rw [forLoop_accumulate]
  funext p
  by_cases hp : p = k
  · subst hp; simp [buffer_write_apply]
  · simp [buffer_write_apply, hp]

/-- One frame of `applyMixingMatrixInterleaved`. -/
theorem applyMixingMatrix_frame (matrix frame : Buffer R) (inC outC out : Nat)
    (o : Buffer R) (p : Nat) :
    forLoop 0 outC (fun row o =>
        forLoop 0 inC (fun column o =>
          o.write (out + row) (o (out + row) + matrix (row * inC + column) * frame column))
          (o.write (out + row) 0)) o p
      = if out ≤ p ∧ p < out + outC then
          Finset.sum (Finset.range inC) (fun c => matrix ((p - out) * inC + c) * frame c)
        else o p := by
  have hb : (fun (row : Nat) (o : Buffer R) =>
        forLoop 0 inC (fun column o =>
          o.write (out + row) (o (out + row) + matrix (row * inC + column) * frame column))
          (o.write (out + row) 0))
      = (fun row o => o.write (out + row)
          (Finset.sum (Finset.range inC) (fun c => matrix (row * inC + c) * frame c))) := by
    funext row o
    exact matrix_row (out + row) inC (fun c => matrix (row * inC + c) * frame c) o
  rw [hb, forLoop_write out 0 outC
    (fun row => Finset.sum (Finset.range inC) (fun c => matrix (row * inC + c) * frame c))]
  simp

/-- What `applyMixingMatrixInterleaved` leaves at every offset when the input
channel count is positive: a matrix-vector product per frame. -/
theorem applyMixingMatrixInterleaved_apply (matrix : Buffer R)
    (inputChannels outputChannels frames : Nat) (input output : Buffer R)
    (hpos : 0 < inputChannels) (p : Nat) :
    applyMixingMatrixInterleaved matrix inputChannels outputChannels frames input output p
      = if p < frames * outputChannels then
          Finset.sum (Finset.range inputChannels) (fun c =>
            matrix (p % outputChannels * inputChannels + c)
              * input (p / outputChannels * inputChannels + c))
        else output p := by
  unfold applyMixingMatrixInterleaved
  rw [stridedFor_eq _ _ _ _ _ hpos]
  refine forLoop_blocks (fun st : Buffer R × Buffer R => st.2) (fun _ _ => True)
    outputChannels _
    (fun k j => Finset.sum (Finset.range inputChannels) (fun c =>
      matrix (j * inputChannels + c) * input (k * inputChannels + c)))
    (fun _ _ _ => trivial) ?_ frames (fun _ => 0, output) trivial p
  intro k st q _
  simp only []
  rw [applyMixingMatrix_frame]
  by_cases hc : k * outputChannels ≤ q ∧ q < k * outputChannels + outputChannels
  · rw [if_pos hc, if_pos hc]
    refine Finset.sum_congr rfl (fun c hcm => ?_)
    have hlt : c < inputChannels := Finset.mem_range.mp hcm
    rw [std_copy_apply]
    have : 0 ≤ c ∧ c < 0 + inputChannels := by omega
    rw [if_pos this]
    simp
  · rw [if_neg hc, if_neg hc]

end interleaved

/-! ## Closed forms of the planar routines -/

section planar

variable {R : Type} [Semiring R]

theorem planar_write_apply {R : Type} (bs : Planar R) (ch i : Nat) (v : R) (c k : Nat) :
    bs.write ch i v c k = if c = ch ∧ k = i then v else bs c k := by
  unfold Planar.write
  by_cases hc : c = ch
  · by_cases hk : k = i
    · simp [hc, hk, buffer_write_apply]
    · simp [hc, hk, buffer_write_apply]
  · simp [hc]

theorem planar_setChannel_apply {R : Type} (bs : Planar R) (ch : Nat) (b : Buffer R)
    (c : Nat) : bs.setChannel ch b c = if c = ch then b else bs c := rfl

/-- A loop that replaces channel `j` by `g j` of its old contents, `lo ≤ j < hi`. -/
theorem forLoop_setChannel {R : Type} (lo hi : Nat) (g : Nat → Buffer R → Buffer R)
    (outs : Planar R) (c : Nat) :
    forLoop lo hi (fun j o => o.setChannel j (g j (o j))) outs c
      = if lo ≤ c ∧ c < hi then g c (outs c) else outs c := by
  rcases Nat.le_total lo hi with h | h
  · refine forLoop_inv (fun n t => ∀ c, t c = if lo ≤ c ∧ c < n then g c (outs c) else outs c)
      lo hi _ outs h ?_ ?_ c
    · intro c
      have : ¬ (lo ≤ c ∧ c < lo) := by omega
      rw [if_neg this]
    · intro j t h1 h2 ht c
      rw [planar_setChannel_apply]
      by_cases hc : c = j
      · subst hc
        have h3 : lo ≤ c ∧ c < c + 1 := by omega
        have h4 : ¬ (lo ≤ c ∧ c < c) := by omega
        rw [if_pos rfl, if_pos h3, ht c, if_neg h4]
      · rw [if_neg hc, ht c]
        by_cases h3 : lo ≤ c ∧ c < j
        · have h4 : lo ≤ c ∧ c < j + 1 := by omega
          rw [if_pos h3, if_pos h4]
        · have h4 : ¬ (lo ≤ c ∧ c < j + 1) := by omega
          rw [if_neg h3, if_neg h4]
  · rw [forLoop_of_le _ _ _ _ h]
    have : ¬ (lo ≤ c ∧ c < hi) := by omega
    rw [if_neg this]

omit [Semiring R] in
/-- What `upmixMonoUninterleaved` leaves in every channel at every offset. -/
theorem upmixMonoUninterleaved_apply (frames : Nat) (input : Buffer R) (outputChannels : Nat)
    (outputs : Planar R) (c k : Nat) :
    upmixMonoUninterleaved frames input outputChannels outputs c k
      = if c < outputChannels ∧ k < frames then input k else outputs c k := by
  unfold upmixMonoUninterleaved
  have key := forLoop_inv (fun m (t : Planar R) => ∀ c k, t c k
      = if 0 < m ∧ c < outputChannels ∧ k < frames then input k else outputs c k)
    0 frames (fun _ outs => forLoop 0 outputChannels (fun j o =>
      o.setChannel j (std_copy input 0 frames (o j) 0)) outs) outputs (Nat.zero_le _)
    (fun c k => by simp) ?_
  · rw [key c k]
    by_cases h : c < outputChannels ∧ k < frames
    · have h2 : 0 < frames ∧ c < outputChannels ∧ k < frames := ⟨by omega, h.1, h.2⟩
      rw [if_pos h, if_pos h2]
    · have h2 : ¬ (0 < frames ∧ c < outputChannels ∧ k < frames) := fun hh => h ⟨hh.2.1, hh.2.2⟩
      rw [if_neg h, if_neg h2]
  · intro j t _ _ ht c k
    show forLoop 0 outputChannels (fun j o =>
      o.setChannel j (std_copy input 0 frames (o j) 0)) t c k = _
    rw [forLoop_setChannel 0 outputChannels (fun _ b => std_copy input 0 frames b 0) t c]
    by_cases hc : c < outputChannels
    · have h1 : 0 ≤ c ∧ c < outputChannels := ⟨Nat.zero_le _, hc⟩
      rw [if_pos h1, std_copy_apply]
      by_cases hk : k < frames
      · have h2 : 0 ≤ k ∧ k < 0 + frames := by omega
        have h3 : 0 < j + 1 ∧ c < outputChannels ∧ k < frames := ⟨by omega, hc, hk⟩
        rw [if_pos h2, if_pos h3]
        simp
      · have h2 : ¬ (0 ≤ k ∧ k < 0 + frames) := by omega
        have h3 : ¬ (0 < j + 1 ∧ c < outputChannels ∧ k < frames) := fun hh => hk hh.2.2
        have h4 : ¬ (0 < j ∧ c < outputChannels ∧ k < frames) := fun hh => hk hh.2.2
        rw [if_neg h2, if_neg h3, ht c k, if_neg h4]
    · have h1 : ¬ (0 ≤ c ∧ c < outputChannels) := fun hh => hc hh.2
      have h3 : ¬ (0 < j + 1 ∧ c < outputChannels ∧ k < frames) := fun hh => hc hh.2.1
      have h4 : ¬ (0 < j ∧ c < outputChannels ∧ k < frames) := fun hh => hc hh.2.1
      rw [if_neg h1, if_neg h3, ht c k, if_neg h4]

/-- What `mixUnrecognizedUninterleaved` leaves in every channel at every offset. -/
theorem mixUnrecognizedUninterleaved_apply (frames inputChannels : Nat) (inputs : Planar R)
    (outputChannels : Nat) (outputs : Planar R) (c k : Nat) :
    mixUnrecognizedUninterleaved frames inputChannels inputs outputChannels outputs c k
      = if c < outputChannels ∧ k < frames then
          (if c < min inputChannels outputChannels then inputs c k else 0)
        else outputs c k := by
  unfold mixUnrecognizedUninterleaved
  rw [forLoop_setChannel (min inputChannels outputChannels) outputChannels
      (fun _ b => std_fill b 0 frames 0),
    forLoop_setChannel 0 (min inputChannels outputChannels)
      (fun i b => std_copy (inputs i) 0 frames b 0)]
  have hmin : min inputChannels outputChannels ≤ outputChannels := Nat.min_le_right _ _
  by_cases h1 : min inputChannels outputChannels ≤ c ∧ c < outputChannels
  · have h2 : ¬ (0 ≤ c ∧ c < min inputChannels outputChannels) := by omega
    have h3 : ¬ c < min inputChannels outputChannels := by omega
    rw [if_pos h1, if_neg h2, std_fill_apply]
    by_cases hk : k < frames
    · rw [if_pos (by omega), if_pos ⟨h1.2, hk⟩, if_neg h3]
    · rw [if_neg (by omega), if_neg (fun hh => hk hh.2)]
  · rw [if_neg h1]
    by_cases h2 : c < min inputChannels outputChannels
    · rw [if_pos ⟨Nat.zero_le _, h2⟩, std_copy_apply]
      by_cases hk : k < frames
      · rw [if_pos (by omega), if_pos ⟨by omega, hk⟩, if_pos h2]
        simp
      · rw [if_neg (by omega), if_neg (fun hh => hk hh.2)]
    · rw [if_neg (fun hh => h2 hh.2), if_neg (fun hh => h1 ⟨by omega, hh.1⟩)]

end planar

section planarMatrix

variable {R : Type} [Semiring R]

/-- A run of accumulations `o[row][i] += f c` for `c < n`. -/
theorem forLoop_accumulate_planar (row i n : Nat) (f : Nat → R) (o : Planar R) :
    forLoop 0 n (fun c o => o.write row i (o row i + f c)) o
      = o.write row i (o row i + Finset.sum (Finset.range n) f) := by
  refine forLoop_inv (fun m t => t = o.write row i (o row i + Finset.sum (Finset.range m) f))
    0 n _ o (Nat.zero_le n) ?_ ?_
  · funext c k
    by_cases h : c = row ∧ k = i
    · obtain ⟨h1, h2⟩ := h
      subst h1; subst h2
      simp [planar_write_apply]
    · simp [planar_write_apply, h]
  · intro j t _ _ ht
    subst ht
    funext c k
    by_cases h : c = row ∧ k = i
    · obtain ⟨h1, h2⟩ := h
      subst h1; subst h2
      simp [planar_write_apply, Finset.sum_range_succ, add_assoc]
    · simp [planar_write_apply, h]

omit [Semiring R] in
/-- A run of writes `o[row][i] = v row` for `row < n`. -/
theorem forLoop_write_planar (i n : Nat) (v : Nat → R) (o : Planar R) (c k : Nat) :
    forLoop 0 n (fun row o => o.write row i (v row)) o c k
      = if c < n ∧ k = i then v c else o c k := by
  refine forLoop_inv (fun m t => ∀ c k, t c k = if c < m ∧ k = i then v c else o c k)
    0 n _ o (Nat.zero_le n) (fun c k => by simp) ?_ c k
  intro j t _ _ ht c k
  rw [planar_write_apply]
  by_cases h : c = j ∧ k = i
  · have h2 : c < j + 1 ∧ k = i := ⟨by omega, h.2⟩
    rw [if_pos h, if_pos h2, h.1]
  · rw [if_neg h, ht c k]
    by_cases h3 : c < j ∧ k = i
    · rw [if_pos h3, if_pos ⟨by omega, h3.2⟩]
    · have h4 : ¬ (c < j + 1 ∧ k = i) := by
        rintro ⟨h5, h6⟩
        rcases Nat.lt_succ_iff_lt_or_eq.mp h5 with h7 | h7
        · exact h3 ⟨h7, h6⟩
        · exact h ⟨h7, h6⟩
      rw [if_neg h3, if_neg h4]

/-- One frame of `applyMixingMatrixUninterleaved`. -/
theorem applyMixingMatrixPlanar_frame (matrix frame : Buffer R) (inC outC i : Nat)
    (o : Planar R) (c k : Nat) :
    forLoop 0 outC (fun row outs =>
        forLoop 0 inC (fun column o =>
          o.write row i (o row i + frame column * matrix (row * inC + column)))
          (outs.write row i 0)) o c k
      = if c < outC ∧ k = i then
          Finset.sum (Finset.range inC) (fun col => frame col * matrix (c * inC + col))
        else o c k := by
  have hb : (fun (row : Nat) (outs : Planar R) =>
        forLoop 0 inC (fun column o =>
          o.write row i (o row i + frame column * matrix (row * inC + column)))
          (outs.write row i 0))
      = (fun row outs => outs.write row i
          (Finset.sum (Finset.range inC) (fun col => frame col * matrix (row * inC + col)))) := by
    funext row outs
    rw [forLoop_accumulate_planar row i inC
      (fun col => frame col * matrix (row * inC + col)) (outs.write row i 0)]
    funext c k
    by_cases h : c = row ∧ k = i
    · simp [planar_write_apply, h]
    · simp [planar_write_apply, h]
  rw [hb, forLoop_write_planar]

/-- What `applyMixingMatrixUninterleaved` leaves in every channel at every
offset: a matrix-vector product per frame. -/
theorem applyMixingMatrixUninterleaved_apply (matrix : Buffer R)
    (inputChannels outputChannels frames : Nat) (inputs outputs : Planar R) (c k : Nat) :
    applyMixingMatrixUninterleaved matrix inputChannels outputChannels frames inputs outputs c k
      = if c < outputChannels ∧ k < frames then
          Finset.sum (Finset.range inputChannels) (fun col =>
            inputs col k * matrix (c * inputChannels + col))
        else outputs c k := by
  unfold applyMixingMatrixUninterleaved
  refine forLoop_inv (fun m (t : Buffer R × Planar R) => ∀ c k, t.2 c k
      = if c < outputChannels ∧ k < m then
          Finset.sum (Finset.range inputChannels) (fun col =>
            inputs col k * matrix (c * inputChannels + col))
        else outputs c k) 0 frames _ (fun _ => 0, outputs) (Nat.zero_le _)
    (fun c k => by simp) ?_ c k
  intro i st _ _ ht c k
  simp only []
  rw [applyMixingMatrixPlanar_frame]
  by_cases h : c < outputChannels ∧ k = i
  · rw [if_pos h, if_pos ⟨h.1, by omega⟩, h.2]
    refine Finset.sum_congr rfl (fun col hcol => ?_)
    have hlt : col < inputChannels := Finset.mem_range.mp hcol
    have hw := forLoop_write 0 0 inputChannels (fun j => inputs j i) st.1 col
    simp only [Nat.zero_add] at hw
    rw [hw, if_pos ⟨Nat.zero_le _, hlt⟩]
    simp
  · rw [if_neg h, ht c k]
    by_cases h2 : c < outputChannels ∧ k < i
    · rw [if_pos h2, if_pos ⟨h2.1, by omega⟩]
    · have h3 : ¬ (c < outputChannels ∧ k < i + 1) := by
        rintro ⟨h4, h5⟩
        rcases Nat.lt_succ_iff_lt_or_eq.mp h5 with h6 | h6
        · exact h2 ⟨h4, h6⟩
        · exact h ⟨h4, h6⟩
      rw [if_neg h2, if_neg h3]

end planarMatrix

/-! ## The dispatch of `remixAudioInterleaved` and `remixAudioUnInterleaved` -/

section dispatch

variable {R : Type} [Semiring R]

theorem mem_knownPairs_iff (a b : Nat) :
    (a, b) ∈ knownPairs ↔
      (a = 1 ∧ b = 2) ∨ (a = 1 ∧ b = 6) ∨ (a = 1 ∧ b = 8) ∨ (a = 2 ∧ b = 1) ∨ (a = 2 ∧ b = 6)
        ∨ (a = 2 ∧ b = 8) ∨ (a = 6 ∧ b = 1) ∨ (a = 6 ∧ b = 2) ∨ (a = 6 ∧ b = 8)
        ∨ (a = 8 ∧ b = 1) ∨ (a = 8 ∧ b = 2) ∨ (a = 8 ∧ b = 6) := by
  simp [knownPairs]

omit [Semiring R] in
/-- Exactly the known pairs have a matrix. -/
theorem forPair_isSome_of_mem (M : MixingMatrices R) (a b : Nat) (h : (a, b) ∈ knownPairs) :
    ∃ m, M.forPair a b = some m := by
  rw [mem_knownPairs_iff] at h
  rcases h with h | h | h | h | h | h | h | h | h | h | h | h <;>
    obtain ⟨rfl, rfl⟩ := h <;> exact ⟨_, rfl⟩

omit [Semiring R] in
theorem forPair_eq_none_of_not_mem (M : MixingMatrices R) (a b : Nat)
    (h : (a, b) ∉ knownPairs) : M.forPair a b = none := by
  rw [mem_knownPairs_iff] at h
  simp only [not_or] at h
  obtain ⟨h1, h2, h3, h4, h5, h6, h7, h8, h9, h10, h11, h12⟩ := h
  unfold MixingMatrices.forPair
  rw [if_neg h1, if_neg h2, if_neg h3, if_neg h4, if_neg h5, if_neg h6, if_neg h7, if_neg h8,
    if_neg h9, if_neg h10, if_neg h11, if_neg h12]

theorem knownPairs_pos (a b : Nat) (h : (a, b) ∈ knownPairs) : 0 < a := by
  rw [mem_knownPairs_iff] at h
  omega

theorem remixAudioInterleaved_known (M : MixingMatrices R) (frames a b : Nat)
    (input output : Buffer R) (m : Buffer R) (h : M.forPair a b = some m) :
    remixAudioInterleaved M frames a input b output
      = applyMixingMatrixInterleaved m a b frames input output := by
  by_cases hk : (a, b) ∈ knownPairs
  · rw [mem_knownPairs_iff] at hk
    rcases hk with hk | hk | hk | hk | hk | hk | hk | hk | hk | hk | hk | hk <;>
      obtain ⟨rfl, rfl⟩ := hk <;>
      · have hm := Option.some.inj h
        subst hm
        rfl
  · rw [forPair_eq_none_of_not_mem M a b hk] at h
    cases h

theorem remixAudioUnInterleaved_known (M : MixingMatrices R) (frames a b : Nat)
    (inputs outputs : Planar R) (m : Buffer R) (h : M.forPair a b = some m) :
    remixAudioUnInterleaved M frames a inputs b outputs
      = applyMixingMatrixUninterleaved m a b frames inputs outputs := by
  by_cases hk : (a, b) ∈ knownPairs
  · rw [mem_knownPairs_iff] at hk
    rcases hk with hk | hk | hk | hk | hk | hk | hk | hk | hk | hk | hk | hk <;>
      obtain ⟨rfl, rfl⟩ := hk <;>
      · have hm := Option.some.inj h
        subst hm
        rfl
  · rw [forPair_eq_none_of_not_mem M a b hk] at h
    cases h

theorem remixAudioInterleaved_mono (M : MixingMatrices R) (frames b : Nat)
    (input output : Buffer R) (h : ((1 : Nat), b) ∉ knownPairs) :
    remixAudioInterleaved M frames 1 input b output
      = upmixMonoInterleaved frames input b output := by
  rw [mem_knownPairs_iff] at h
  have h2 : b ≠ 2 := by omega
  have h6 : b ≠ 6 := by omega
  have h8 : b ≠ 8 := by omega
  unfold remixAudioInterleaved
  simp [h2, h6, h8]

theorem remixAudioUnInterleaved_mono (M : MixingMatrices R) (frames b : Nat)
    (inputs outputs : Planar R) (h : ((1 : Nat), b) ∉ knownPairs) :
    remixAudioUnInterleaved M frames 1 inputs b outputs
      = upmixMonoUninterleaved frames (inputs 0) b outputs := by
  rw [mem_knownPairs_iff] at h
  have h2 : b ≠ 2 := by omega
  have h6 : b ≠ 6 := by omega
  have h8 : b ≠ 8 := by omega
  unfold remixAudioUnInterleaved
  simp [h2, h6, h8]

theorem remixAudioInterleaved_fallback (M : MixingMatrices R) (frames a b : Nat)
    (input output : Buffer R) (h1 : a ≠ 1) (h : (a, b) ∉ knownPairs) :
    remixAudioInterleaved M frames a input b output
      = mixUnrecognizedInterleaved frames a input b output := by
  rw [mem_knownPairs_iff] at h
  simp only [not_or] at h
  obtain ⟨k1, k2, k3, k4, k5, k6, k7, k8, k9, k10, k11, k12⟩ := h
  unfold remixAudioInterleaved
  rw [if_neg k1, if_neg k2, if_neg k3, if_neg h1, if_neg k4, if_neg k5, if_neg k6, if_neg k7,
    if_neg k8, if_neg k9, if_neg k10, if_neg k11, if_neg k12]

theorem remixAudioUnInterleaved_fallback (M : MixingMatrices R) (frames a b : Nat)
    (inputs outputs : Planar R) (h1 : a ≠ 1) (h : (a, b) ∉ knownPairs) :
    remixAudioUnInterleaved M frames a inputs b outputs
      = mixUnrecognizedUninterleaved frames a inputs b outputs := by
  rw [mem_knownPairs_iff] at h
  simp only [not_or] at h
  obtain ⟨k1, k2, k3, k4, k5, k6, k7, k8, k9, k10, k11, k12⟩ := h
  unfold remixAudioUnInterleaved
  rw [if_neg k1, if_neg k2, if_neg k3, if_neg h1, if_neg k4, if_neg k5, if_neg k6, if_neg k7,
    if_neg k8, if_neg k9, if_neg k10, if_neg k11, if_neg k12]

/-- Offsets of frame `i`, channel `j` in an interleaved buffer. -/
theorem interleaved_index (n i j frames : Nat) (hi : i < frames) (hj : j < n) :
    i * n + j < frames * n ∧ (i * n + j) / n = i ∧ (i * n + j) % n = j := by
  have h1 : i * n + j < i * n + n := by omega
  obtain ⟨hq, hr⟩ := block_index n i (i * n + j) (Nat.le_add_right _ _) h1
  refine ⟨?_, hq, by omega⟩
  calc i * n + j < (i + 1) * n := by rw [Nat.succ_mul]; exact h1
    _ ≤ frames * n := Nat.mul_le_mul_right n hi

end dispatch

/-! ## Claims about the remix engine -/

section claims

variable {R : Type} [Semiring R]

/-- The fallback rule for at least one input channel: in every frame the first
`min inputChannels outputChannels` channels are copied and the remaining output
channels are zero. -/
theorem remixAudioInterleaved_fallback_spec (M : MixingMatrices R)
    (frames inputChannels outputChannels : Nat) (input output : Buffer R)
    (hpos : 0 < inputChannels) (h1 : inputChannels ≠ 1)
    (hk : (inputChannels, outputChannels) ∉ knownPairs) (i : Nat) (hi : i < frames) :
    (∀ j, j < min inputChannels outputChannels →
      remixAudioInterleaved M frames inputChannels input outputChannels output
        (i * outputChannels + j) = input (i * inputChannels + j)) ∧
    (∀ j, min inputChannels outputChannels ≤ j → j < outputChannels →
      remixAudioInterleaved M frames inputChannels input outputChannels output
        (i * outputChannels + j) = 0) := by
  rw [remixAudioInterleaved_fallback M frames _ _ input output h1 hk]
  constructor
  · intro j hj
    have hjb : j < outputChannels := lt_of_lt_of_le hj (Nat.min_le_right _ _)
    obtain ⟨h2, h3, h4⟩ := interleaved_index outputChannels i j frames hi hjb
    rw [mixUnrecognizedInterleaved_apply _ _ _ _ _ hpos, if_pos h2, h3, h4, if_pos hj]
  · intro j hj hjb
    obtain ⟨h2, h3, h4⟩ := interleaved_index outputChannels i j frames hi hjb
    rw [mixUnrecognizedInterleaved_apply _ _ _ _ _ hpos, if_pos h2, h3, h4,
      if_neg (Nat.not_lt.mpr hj)]

/-- With at least one input channel every one of the `frames * outputChannels`
output samples is overwritten: the result there does not depend on what the
output buffer held before. -/
theorem remixAudioInterleaved_overwrites (M : MixingMatrices R)
    (frames inputChannels outputChannels : Nat) (input o1 o2 : Buffer R)
    (hpos : 0 < inputChannels) (p : Nat) (hp : p < frames * outputChannels) :
    remixAudioInterleaved M frames inputChannels input outputChannels o1 p
      = remixAudioInterleaved M frames inputChannels input outputChannels o2 p := by
  by_cases hk : (inputChannels, outputChannels) ∈ knownPairs
  · obtain ⟨m, hm⟩ := forPair_isSome_of_mem M _ _ hk
    rw [remixAudioInterleaved_known M frames _ _ input o1 m hm,
      remixAudioInterleaved_known M frames _ _ input o2 m hm,
      applyMixingMatrixInterleaved_apply _ _ _ _ _ _ hpos, if_pos hp,
      applyMixingMatrixInterleaved_apply _ _ _ _ _ _ hpos, if_pos hp]
  · by_cases h1 : inputChannels = 1
    · subst h1
      rw [remixAudioInterleaved_mono M frames _ input o1 hk,
        remixAudioInterleaved_mono M frames _ input o2 hk,
        upmixMonoInterleaved_apply, if_pos hp, upmixMonoInterleaved_apply, if_pos hp]
    · rw [remixAudioInterleaved_fallback M frames _ _ input o1 h1 hk,
        remixAudioInterleaved_fallback M frames _ _ input o2 h1 hk,
        mixUnrecognizedInterleaved_apply _ _ _ _ _ hpos, if_pos hp,
        mixUnrecognizedInterleaved_apply _ _ _ _ _ hpos, if_pos hp]

/-- C1, at the failing input.  The pair 0 -> 2 is dispatched to the fallback
(the input channel count is not 1 and the pair is not a matrix pair), yet with
one frame both output channels keep what the buffer held before (here 7)
instead of becoming 0, while `mixUnrecognizedUninterleaved`, reached through
`remixAudioUnInterleaved` for the same pair, does set both channels to 0. -/
theorem C1_fallback_without_input_channels_leaves_output (M : MixingMatrices ℤ)
    (input : Buffer ℤ) (inputs : Planar ℤ) :
    ((0 : Nat) ≠ 1 ∧ ((0 : Nat), (2 : Nat)) ∉ knownPairs) ∧
    remixAudioInterleaved M 1 0 input 2 (fun _ => 7) (0 * 2 + 0) = 7 ∧
    remixAudioInterleaved M 1 0 input 2 (fun _ => 7) (0 * 2 + 1) = 7 ∧
    remixAudioUnInterleaved M 1 0 inputs 2 (fun _ _ => 7) 0 0 = 0 ∧
    remixAudioUnInterleaved M 1 0 inputs 2 (fun _ _ => 7) 1 0 = 0 := by
  have hk : ((0 : Nat), (2 : Nat)) ∉ knownPairs := by decide
  refine ⟨⟨by decide, hk⟩, ?_, ?_, ?_, ?_⟩
  · rw [remixAudioInterleaved_fallback M 1 0 2 input _ (by decide) hk,
      mixUnrecognizedInterleaved_no_input]
  · rw [remixAudioInterleaved_fallback M 1 0 2 input _ (by decide) hk,
      mixUnrecognizedInterleaved_no_input]
  · rw [remixAudioUnInterleaved_fallback M 1 0 2 inputs _ (by decide) hk,
      mixUnrecognizedUninterleaved_apply]
    simp
  · rw [remixAudioUnInterleaved_fallback M 1 0 2 inputs _ (by decide) hk,
      mixUnrecognizedUninterleaved_apply]
    simp

/-- C2, at the failing input.  With `inputChannels = 0` the call
`remixAudioInterleaved(frames, 0, input, outputChannels, output)` writes no
sample at all: the output buffer is returned as it was, so for one frame and
two output channels the result depends on the prior contents of the buffer. -/
theorem C2_no_input_channels_output_not_overwritten (M : MixingMatrices ℤ)
    (input : Buffer ℤ) :
    (∀ (frames outputChannels : Nat) (output : Buffer ℤ),
      remixAudioInterleaved M frames 0 input outputChannels output = output) ∧
    remixAudioInterleaved M 1 0 input 2 (fun _ => 0) 0
      ≠ remixAudioInterleaved M 1 0 input 2 (fun _ => 1) 0 := by
  have hall : ∀ (frames outputChannels : Nat) (output : Buffer ℤ),
      remixAudioInterleaved M frames 0 input outputChannels output = output := by
    intro frames outputChannels output
    have hk : ((0 : Nat), outputChannels) ∉ knownPairs := by
      rw [mem_knownPairs_iff]; omega
    rw [remixAudioInterleaved_fallback M frames 0 outputChannels input output (by decide) hk,
      mixUnrecognizedInterleaved_no_input]
  refine ⟨hall, ?_⟩
  rw [hall, hall]
  decide

/-- C3.  For one input channel and an output channel count other than 2, 6
and 8, `remixAudioInterleaved` sets every output channel `j` of every frame `i`
to the input sample of frame `i`. -/
theorem C3_mono_upmix_broadcast (M : MixingMatrices R) (frames outputChannels : Nat)
    (input output : Buffer R) (h2 : outputChannels ≠ 2) (h6 : outputChannels ≠ 6)
    (h8 : outputChannels ≠ 8) (i j : Nat) (hi : i < frames) (hj : j < outputChannels) :
    remixAudioInterleaved M frames 1 input outputChannels output (i * outputChannels + j)
      = input i := by
  have hk : ((1 : Nat), outputChannels) ∉ knownPairs := by
    rw [mem_knownPairs_iff]; omega
  obtain ⟨h3, h4, _⟩ := interleaved_index outputChannels i j frames hi hj
  rw [remixAudioInterleaved_mono M frames _ input output hk, upmixMonoInterleaved_apply,
    if_pos h3, h4]

/-- C4.  For each of the twelve known pairs, with `m` the matrix the dispatch
selects for the pair, `remixAudioInterleaved` writes at frame `i`, output
channel `r` the dot product of row `r` of `m` with input frame `i`, and leaves
every offset from `frames * outputChannels` on as it was. -/
theorem C4_known_pair_matrix_product (M : MixingMatrices R)
    (frames inputChannels outputChannels : Nat) (input output : Buffer R)
    (hk : (inputChannels, outputChannels) ∈ knownPairs) :
    ∃ m, M.forPair inputChannels outputChannels = some m ∧
      (∀ i r, i < frames → r < outputChannels →
        remixAudioInterleaved M frames inputChannels input outputChannels output
            (i * outputChannels + r)
          = Finset.sum (Finset.range inputChannels) (fun c =>
              m (r * inputChannels + c) * input (i * inputChannels + c))) ∧
      (∀ p, frames * outputChannels ≤ p →
        remixAudioInterleaved M frames inputChannels input outputChannels output p
          = output p) := by
  obtain ⟨m, hm⟩ := forPair_isSome_of_mem M _ _ hk
  have hpos := knownPairs_pos _ _ hk
  refine ⟨m, hm, ?_, ?_⟩
  · intro i r hi hr
    obtain ⟨h3, h4, h5⟩ := interleaved_index outputChannels i r frames hi hr
    rw [remixAudioInterleaved_known M frames _ _ input output m hm,
      applyMixingMatrixInterleaved_apply _ _ _ _ _ _ hpos, if_pos h3, h4, h5]
  · intro p hp
    rw [remixAudioInterleaved_known M frames _ _ input output m hm,
      applyMixingMatrixInterleaved_apply _ _ _ _ _ _ hpos, if_neg (Nat.not_lt.mpr hp)]

end claims

section claims2

/-- C5.  The known-pair matrix remix is linear over exact arithmetic: for a
known pair, scaling every input sample by `k` scales every output sample
written by `remixAudioInterleaved`, and by `remixAudioUnInterleaved`, by `k`. -/
theorem C5_known_pair_linear {R : Type} [CommSemiring R] (M : MixingMatrices R)
    (frames inputChannels outputChannels : Nat) (k : R)
    (hk : (inputChannels, outputChannels) ∈ knownPairs) :
    (∀ (input output : Buffer R) (p : Nat), p < frames * outputChannels →
      remixAudioInterleaved M frames inputChannels (fun q => k * input q) outputChannels
          output p
        = k * remixAudioInterleaved M frames inputChannels input outputChannels output p) ∧
    (∀ (inputs outputs : Planar R) (c i : Nat), c < outputChannels → i < frames →
      remixAudioUnInterleaved M frames inputChannels (fun ch q => k * inputs ch q)
          outputChannels outputs c i
        = k * remixAudioUnInterleaved M frames inputChannels inputs outputChannels
            outputs c i) := by
  obtain ⟨m, hm⟩ := forPair_isSome_of_mem M _ _ hk
  have hpos := knownPairs_pos _ _ hk
  constructor
  · intro input output p hp
    rw [remixAudioInterleaved_known M frames _ _ _ output m hm,
      remixAudioInterleaved_known M frames _ _ _ output m hm,
      applyMixingMatrixInterleaved_apply _ _ _ _ _ _ hpos, if_pos hp,
      applyMixingMatrixInterleaved_apply _ _ _ _ _ _ hpos, if_pos hp, Finset.mul_sum]
    exact Finset.sum_congr rfl (fun c _ => by ring)
  · intro inputs outputs c i hc hi
    rw [remixAudioUnInterleaved_known M frames _ _ _ outputs m hm,
      remixAudioUnInterleaved_known M frames _ _ _ outputs m hm,
      applyMixingMatrixUninterleaved_apply, if_pos ⟨hc, hi⟩,
      applyMixingMatrixUninterleaved_apply, if_pos ⟨hc, hi⟩, Finset.mul_sum]
    exact Finset.sum_congr rfl (fun c _ => by ring)

variable {R : Type} [Semiring R]

/-- C6.  In a down-mix of a pair outside the known set the discarded input
channels do not reach the output: two inputs that agree on channels
`0 .. outputChannels-1` of every frame give the same output buffer. -/
theorem C6_discarded_channels_do_not_affect_output (M : MixingMatrices R)
    (frames inputChannels outputChannels : Nat) (input1 input2 output : Buffer R)
    (hgt : outputChannels < inputChannels)
    (hk : (inputChannels, outputChannels) ∉ knownPairs)
    (hagree : ∀ i j, i < frames → j < outputChannels →
      input1 (i * inputChannels + j) = input2 (i * inputChannels + j)) :
    remixAudioInterleaved M frames inputChannels input1 outputChannels output
      = remixAudioInterleaved M frames inputChannels input2 outputChannels output := by
  have hpos : 0 < inputChannels := by omega
  funext p
  by_cases h1 : inputChannels = 1
  · subst h1
    have hb : outputChannels = 0 := by omega
    subst hb
    rw [remixAudioInterleaved_mono M frames _ _ output hk,
      remixAudioInterleaved_mono M frames _ _ output hk,
      upmixMonoInterleaved_apply, upmixMonoInterleaved_apply]
    simp
  · rw [remixAudioInterleaved_fallback M frames _ _ _ output h1 hk,
      remixAudioInterleaved_fallback M frames _ _ _ output h1 hk,
      mixUnrecognizedInterleaved_apply _ _ _ _ _ hpos,
      mixUnrecognizedInterleaved_apply _ _ _ _ _ hpos]
    by_cases hp : p < frames * outputChannels
    · rw [if_pos hp, if_pos hp]
      have hbpos : 0 < outputChannels := by
        rcases Nat.eq_zero_or_pos outputChannels with h0 | h0
        · subst h0; simp at hp
        · exact h0
      have hmod : p % outputChannels < outputChannels := Nat.mod_lt _ hbpos
      have hdiv : p / outputChannels < frames := by
        rw [Nat.div_lt_iff_lt_mul hbpos]; exact hp
      by_cases hm : p % outputChannels < min inputChannels outputChannels
      · rw [if_pos hm, if_pos hm]
        exact hagree _ _ hdiv hmod
      · rw [if_neg hm, if_neg hm]
    · rw [if_neg hp, if_neg hp]

/-- C7.  With `inputChannels = outputChannels = n`, `n ≥ 1`, no mixing matrix
is selected and both entry points pass the input through: every output sample
of the `frames` frames equals the input sample of the same frame and channel. -/
theorem C7_equal_channel_counts_identity (M : MixingMatrices R) (frames n : Nat)
    (hn : 1 ≤ n) :
    M.forPair n n = none ∧
    (∀ (input output : Buffer R) (i j : Nat), i < frames → j < n →
      remixAudioInterleaved M frames n input n output (i * n + j) = input (i * n + j)) ∧
    (∀ (inputs outputs : Planar R) (c i : Nat), c < n → i < frames →
      remixAudioUnInterleaved M frames n inputs n outputs c i = inputs c i) := by
  have hk : (n, n) ∉ knownPairs := by
    rw [mem_knownPairs_iff]; omega
  refine ⟨forPair_eq_none_of_not_mem M n n hk, ?_, ?_⟩
  · intro input output i j hi hj
    obtain ⟨h3, h4, h5⟩ := interleaved_index n i j frames hi hj
    by_cases h1 : n = 1
    · subst h1
      have hj0 : j = 0 := by omega
      subst hj0
      rw [remixAudioInterleaved_mono M frames _ input output hk, upmixMonoInterleaved_apply,
        if_pos h3, h4]
      simp
    · rw [remixAudioInterleaved_fallback M frames _ _ input output h1 hk,
        mixUnrecognizedInterleaved_apply _ _ _ _ _ (by omega), if_pos h3, h4, h5,
        if_pos (by simpa using hj)]
  · intro inputs outputs c i hc hi
    by_cases h1 : n = 1
    · subst h1
      have hc0 : c = 0 := by omega
      subst hc0
      rw [remixAudioUnInterleaved_mono M frames _ inputs outputs hk,
        upmixMonoUninterleaved_apply, if_pos ⟨hc, hi⟩]
    · rw [remixAudioUnInterleaved_fallback M frames _ _ inputs outputs h1 hk,
        mixUnrecognizedUninterleaved_apply, if_pos ⟨hc, hi⟩, if_pos (by simpa using hc)]

/-- C8.  With `frames = 0` both entry points return the output memory exactly
as it was, for every pair of channel counts. -/
theorem C8_zero_frames_no_op (M : MixingMatrices R) (inputChannels outputChannels : Nat) :
    (∀ (input output : Buffer R),
      remixAudioInterleaved M 0 inputChannels input outputChannels output = output) ∧
    (∀ (inputs outputs : Planar R),
      remixAudioUnInterleaved M 0 inputChannels inputs outputChannels outputs = outputs) := by
  constructor
  · intro input output
    funext p
    by_cases hk : (inputChannels, outputChannels) ∈ knownPairs
    · obtain ⟨m, hm⟩ := forPair_isSome_of_mem M _ _ hk
      rw [remixAudioInterleaved_known M 0 _ _ input output m hm,
        applyMixingMatrixInterleaved_apply _ _ _ _ _ _ (knownPairs_pos _ _ hk)]
      simp
    · by_cases h1 : inputChannels = 1
      · subst h1
        rw [remixAudioInterleaved_mono M 0 _ input output hk, upmixMonoInterleaved_apply]
        simp
      · rw [remixAudioInterleaved_fallback M 0 _ _ input output h1 hk]
        rcases Nat.eq_zero_or_pos inputChannels with h0 | h0
        · subst h0
          rw [mixUnrecognizedInterleaved_no_input]
        · rw [mixUnrecognizedInterleaved_apply _ _ _ _ _ h0]
          simp
  · intro inputs outputs
    funext c i
    by_cases hk : (inputChannels, outputChannels) ∈ knownPairs
    · obtain ⟨m, hm⟩ := forPair_isSome_of_mem M _ _ hk
      rw [remixAudioUnInterleaved_known M 0 _ _ inputs outputs m hm,
        applyMixingMatrixUninterleaved_apply]
      simp
    · by_cases h1 : inputChannels = 1
      · subst h1
        rw [remixAudioUnInterleaved_mono M 0 _ inputs outputs hk,
          upmixMonoUninterleaved_apply]
        simp
      · rw [remixAudioUnInterleaved_fallback M 0 _ _ inputs outputs h1 hk,
          mixUnrecognizedUninterleaved_apply]
        simp

end claims2

/-! ## Claims about the Winmm backend -/

section winmmOpen

/-- What a successful pass over a strictly descending list of channel counts
returns: a member within both caps that the platform accepted, every larger
member within both caps having been rejected. -/
theorem openExtendedLoop_some_of_descending (waveOutOpen : WAVEFORMATEXTENSIBLE → Bool)
    (needed maxChannels targetSr c : Nat) :
    ∀ (l : List Nat), List.Pairwise (fun a b => b < a) l →
      openExtendedLoop waveOutOpen needed maxChannels targetSr l = some c →
      c ∈ l ∧ c ≤ needed ∧ c ≤ maxChannels ∧
      waveOutOpen (makeFormat c targetSr true) = true ∧
      ∀ c', c' ∈ l → c < c' → c' ≤ needed → c' ≤ maxChannels →
        waveOutOpen (makeFormat c' targetSr true) = false := by
  intro l
  induction l with
  | nil => intro _ h; simp [openExtendedLoop] at h
  | cons x rest ih =>
    intro hp h
    rw [List.pairwise_cons] at hp
    obtain ⟨hx, hrest⟩ := hp
    rw [openExtendedLoop] at h
    have skip : openExtendedLoop waveOutOpen needed maxChannels targetSr rest = some c →
        (needed < x ∨ maxChannels < x ∨ waveOutOpen (makeFormat x targetSr true) = false) →
        c ∈ x :: rest ∧ c ≤ needed ∧ c ≤ maxChannels ∧
        waveOutOpen (makeFormat c targetSr true) = true ∧
        ∀ c', c' ∈ x :: rest → c < c' → c' ≤ needed → c' ≤ maxChannels →
          waveOutOpen (makeFormat c' targetSr true) = false := by
      intro hr hwhy
      obtain ⟨h1, h2, h3, h4, h5⟩ := ih hrest hr
      refine ⟨List.mem_cons_of_mem _ h1, h2, h3, h4, fun c' hc' hlt hn hm => ?_⟩
      rcases List.mem_cons.mp hc' with heq | hmem
      · subst heq
        rcases hwhy with hw | hw | hw
        · omega
        · omega
        · exact hw
      · exact h5 c' hmem hlt hn hm
    by_cases h1 : x > needed
    · rw [if_pos h1] at h
      exact skip h (Or.inl h1)
    · rw [if_neg h1] at h
      by_cases h2 : x > maxChannels
      · rw [if_pos h2] at h
        exact skip h (Or.inr (Or.inl h2))
      · rw [if_neg h2] at h
        by_cases h3 : waveOutOpen (makeFormat x targetSr true) = true
        · rw [if_pos h3] at h
          have hc := Option.some.inj h
          subst hc
          refine ⟨List.mem_cons_self _ _, by omega, by omega, h3, fun c' hc' hlt _ _ => ?_⟩
          rcases List.mem_cons.mp hc' with heq | hmem
          · omega
          · have := hx c' hmem
            omega
        · rw [if_neg h3] at h
          exact skip h (Or.inr (Or.inr (by simpa using h3)))

/-- C10, the claim as stated fails.  An application that requests 1 channel on
a device reporting a maximum of 2, every open being accepted, gets the device
opened in extended format with 2 channels: more than it requested. -/
theorem C10_opened_channels_exceed_request_counterexample :
    WinmmOutputDevice.WinmmOutputDevice true (fun _ => true) 1 2 44100
      = Except.ok ⟨makeFormat 2 44100 true, 2⟩ ∧
    (makeFormat 2 44100 true).wFormatTag = WAVE_FORMAT_EXTENSIBLE ∧ ¬ (2 ≤ 1) := by
  refine ⟨rfl, rfl, by decide⟩

/-- C10, amended.  When the constructor of `WinmmOutputDevice` opens the
device in extended format, the opened channel count is the first value of
8, 6, 2 that is at most `max requested 2`, at most the device maximum and
accepted by the platform: it is in the list, within both caps, accepted, and
every larger value of the list within both caps was rejected. -/
theorem C10_extended_open_first_accepted (createEventOk : Bool)
    (waveOutOpen : WAVEFORMATEXTENSIBLE → Bool) (channels maxChannels targetSr : Nat)
    (dev : OpenedDevice)
    (h : WinmmOutputDevice.WinmmOutputDevice createEventOk waveOutOpen channels maxChannels
      targetSr = Except.ok dev)
    (hext : dev.format.wFormatTag = WAVE_FORMAT_EXTENSIBLE) :
    dev.format = makeFormat dev.outChannels targetSr true ∧
    dev.outChannels ∈ [8, 6, 2] ∧
    dev.outChannels ≤ max channels 2 ∧ dev.outChannels ≤ maxChannels ∧
    waveOutOpen (makeFormat dev.outChannels targetSr true) = true ∧
    ∀ c', c' ∈ [8, 6, 2] → dev.outChannels < c' → c' ≤ max channels 2 → c' ≤ maxChannels →
      waveOutOpen (makeFormat c' targetSr true) = false := by
  have hneeded : (if channels < 2 then 2 else channels) = max channels 2 := by
    split_ifs with hc
    · exact (max_eq_right (by omega)).symm
    · exact (max_eq_left (by omega)).symm
  unfold WinmmOutputDevice.WinmmOutputDevice at h
  cases createEventOk with
  | false => simp at h
  | true =>
    simp only [Bool.true_eq_false, if_false, hneeded] at h
    cases hloop : openExtendedLoop waveOutOpen (max channels 2) maxChannels targetSr [8, 6, 2] with
    | none =>
      rw [hloop] at h
      simp only at h
      split_ifs at h with hw
      have hd := Except.ok.inj h
      subst hd
      simp [makeFormat, WAVE_FORMAT_PCM, WAVE_FORMAT_EXTENSIBLE] at hext
    | some c =>
      rw [hloop] at h
      have hd := Except.ok.inj h
      subst hd
      exact ⟨rfl, openExtendedLoop_some_of_descending waveOutOpen _ _ _ c [8, 6, 2]
        (by decide) hloop⟩

end winmmOpen

/-! ## Concrete runs -/

section witnesses

/-- C3 at one input channel, three output channels, two frames: channel 2 of
frame 1 receives the input sample of frame 1. -/
theorem C3_mono_upmix_broadcast_witness :
    ((3 : Nat) ≠ 2 ∧ (3 : Nat) ≠ 6 ∧ (3 : Nat) ≠ 8 ∧ 1 < 2 ∧ 2 < 3) ∧
    remixAudioInterleaved (MixingMatrices.const (1 : ℤ)) 2 1 (fun q => (q : ℤ) + 5) 3
      (fun _ => 0) (1 * 3 + 2) = ((1 : Nat) : ℤ) + 5 :=
  ⟨by decide, C3_mono_upmix_broadcast (MixingMatrices.const (1 : ℤ)) 2 3
    (fun q => (q : ℤ) + 5) (fun _ => 0) (by decide) (by decide) (by decide) 1 2
    (by decide) (by decide)⟩

/-- C4 at the stereo-to-mono pair, three frames. -/
theorem C4_known_pair_matrix_product_witness :
    ((2 : Nat), (1 : Nat)) ∈ knownPairs ∧
    ∃ m, (MixingMatrices.const (1 : ℤ)).forPair 2 1 = some m ∧
      (∀ i r, i < 3 → r < 1 →
        remixAudioInterleaved (MixingMatrices.const (1 : ℤ)) 3 2 (fun q => (q : ℤ) + 1) 1
            (fun _ => 9) (i * 1 + r)
          = Finset.sum (Finset.range 2) (fun c =>
              m (r * 2 + c) * (fun q : Nat => (q : ℤ) + 1) (i * 2 + c))) ∧
      (∀ p, 3 * 1 ≤ p →
        remixAudioInterleaved (MixingMatrices.const (1 : ℤ)) 3 2 (fun q => (q : ℤ) + 1) 1
            (fun _ => 9) p
          = (fun _ : Nat => (9 : ℤ)) p) :=
  ⟨by decide, C4_known_pair_matrix_product (MixingMatrices.const (1 : ℤ)) 3 2 1
    (fun q => (q : ℤ) + 1) (fun _ => 9) (by decide)⟩

/-- C5 at the mono-to-stereo pair, two frames, scale factor 3. -/
theorem C5_known_pair_linear_witness :
    ((1 : Nat), (2 : Nat)) ∈ knownPairs ∧
    ((∀ (input output : Buffer ℤ) (p : Nat), p < 2 * 2 →
      remixAudioInterleaved (MixingMatrices.const (1 : ℤ)) 2 1 (fun q => 3 * input q) 2
          output p
        = 3 * remixAudioInterleaved (MixingMatrices.const (1 : ℤ)) 2 1 input 2 output p) ∧
    (∀ (inputs outputs : Planar ℤ) (c i : Nat), c < 2 → i < 2 →
      remixAudioUnInterleaved (MixingMatrices.const (1 : ℤ)) 2 1 (fun ch q => 3 * inputs ch q)
          2 outputs c i
        = 3 * remixAudioUnInterleaved (MixingMatrices.const (1 : ℤ)) 2 1 inputs 2
            outputs c i)) :=
  ⟨by decide, C5_known_pair_linear (MixingMatrices.const (1 : ℤ)) 2 1 2 3 (by decide)⟩

/-- C6 at the pair 3 -> 2, one frame: two inputs that differ only in the
third channel give the same output. -/
theorem C6_discarded_channels_do_not_affect_output_witness :
    ((2 : Nat) < 3 ∧ ((3 : Nat), (2 : Nat)) ∉ knownPairs) ∧
    remixAudioInterleaved (MixingMatrices.const (1 : ℤ)) 1 3
        (fun q => if q = 2 then 1 else 0) 2 (fun _ => 0)
      = remixAudioInterleaved (MixingMatrices.const (1 : ℤ)) 1 3 (fun _ => 0) 2 (fun _ => 0) :=
  ⟨by decide, C6_discarded_channels_do_not_affect_output (MixingMatrices.const (1 : ℤ)) 1 3 2
    (fun q => if q = 2 then 1 else 0) (fun _ => 0) (fun _ => 0) (by decide) (by decide)
    (fun i j hi hj => by
      have h1 : i = 0 := by omega
      subst h1
      have h2 : ¬ (0 * 3 + j = 2) := by omega
      simp only [h2, if_false])⟩

/-- C7 at three channels in and out, two frames. -/
theorem C7_equal_channel_counts_identity_witness :
    1 ≤ 3 ∧
    ((MixingMatrices.const (1 : ℤ)).forPair 3 3 = none ∧
    (∀ (input output : Buffer ℤ) (i j : Nat), i < 2 → j < 3 →
      remixAudioInterleaved (MixingMatrices.const (1 : ℤ)) 2 3 input 3 output (i * 3 + j)
        = input (i * 3 + j)) ∧
    (∀ (inputs outputs : Planar ℤ) (c i : Nat), c < 3 → i < 2 →
      remixAudioUnInterleaved (MixingMatrices.const (1 : ℤ)) 2 3 inputs 3 outputs c i
        = inputs c i)) :=
  ⟨by decide, C7_equal_channel_counts_identity (MixingMatrices.const (1 : ℤ)) 2 3 (by decide)⟩

/-- C10 on a platform that accepts only stereo, for a request of 6 channels on
a device reporting 8: the device is opened in extended format with 2 channels. -/
theorem C10_extended_open_first_accepted_witness :
    (WinmmOutputDevice.WinmmOutputDevice true (fun f => decide (f.nChannels ≤ 2)) 6 8 48000
      = Except.ok ⟨makeFormat 2 48000 true, 2⟩ ∧
     (makeFormat 2 48000 true).wFormatTag = WAVE_FORMAT_EXTENSIBLE) ∧
    (makeFormat 2 48000 true = makeFormat 2 48000 true ∧
    2 ∈ [8, 6, 2] ∧ 2 ≤ max 6 2 ∧ 2 ≤ 8 ∧
    (fun f : WAVEFORMATEXTENSIBLE => decide (f.nChannels ≤ 2)) (makeFormat 2 48000 true) = true ∧
    ∀ c', c' ∈ [8, 6, 2] → 2 < c' → c' ≤ max 6 2 → c' ≤ 8 →
      (fun f : WAVEFORMATEXTENSIBLE => decide (f.nChannels ≤ 2)) (makeFormat c' 48000 true)
        = false) :=
  ⟨⟨rfl, rfl⟩, C10_extended_open_first_accepted true (fun f => decide (f.nChannels ≤ 2)) 6 8
    48000 ⟨makeFormat 2 48000 true, 2⟩ rfl rfl⟩

end witnesses

/-! ## Errors of the constructor -/

section winmmErrors

/-- The pass over the channel counts finds nothing exactly when every member
within both caps is rejected. -/
theorem openExtendedLoop_eq_none_iff (waveOutOpen : WAVEFORMATEXTENSIBLE → Bool)
    (needed maxChannels targetSr : Nat) :
    ∀ (l : List Nat),
      openExtendedLoop waveOutOpen needed maxChannels targetSr l = none ↔
        ∀ c, c ∈ l → c ≤ needed → c ≤ maxChannels →
          waveOutOpen (makeFormat c targetSr true) = false := by
  intro l
  induction l with
  | nil => simp [openExtendedLoop]
  | cons x rest ih =>
    rw [openExtendedLoop]
    by_cases h1 : x > needed
    · rw [if_pos h1, ih]
      constructor
      · intro h c hc hn hm
        rcases List.mem_cons.mp hc with heq | hmem
        · subst heq; omega
        · exact h c hmem hn hm
      · intro h c hc hn hm
        exact h c (List.mem_cons_of_mem _ hc) hn hm
    · rw [if_neg h1]
      by_cases h2 : x > maxChannels
      · rw [if_pos h2, ih]
        constructor
        · intro h c hc hn hm
          rcases List.mem_cons.mp hc with heq | hmem
          · subst heq; omega
          · exact h c hmem hn hm
        · intro h c hc hn hm
          exact h c (List.mem_cons_of_mem _ hc) hn hm
      · rw [if_neg h2]
        by_cases h3 : waveOutOpen (makeFormat x targetSr true) = true
        · rw [if_pos h3]
          constructor
          · intro h; cases h
          · intro h
            have := h x (List.mem_cons_self _ _) (by omega) (by omega)
            rw [h3] at this
            cases this
        · rw [if_neg h3, ih]
          constructor
          · intro h c hc hn hm
            rcases List.mem_cons.mp hc with heq | hmem
            · subst heq; simpa using h3
            · exact h c hmem hn hm
          · intro h c hc hn hm
            exact h c (List.mem_cons_of_mem _ hc) hn hm

/-- C11.  With the event created, the constructor of `WinmmOutputDevice`
throws exactly when every extended-format attempt it makes (8, 6, 2 within
`max channels 2` and the device maximum) is rejected and the legacy stereo
attempt is rejected too; the error is then the "could not open" one.  When it
does not throw, the platform accepted the format it opened and the
`outChannels` handed to `init` is that format's channel count, which is 2 for
the legacy format. -/
theorem C11_constructor_throws_iff_every_attempt_rejected
    (waveOutOpen : WAVEFORMATEXTENSIBLE → Bool) (channels maxChannels targetSr : Nat) :
    ((∃ e, WinmmOutputDevice.WinmmOutputDevice true waveOutOpen channels maxChannels targetSr
        = Except.error e) ↔
      ((∀ c, c ∈ [8, 6, 2] → c ≤ max channels 2 → c ≤ maxChannels →
          waveOutOpen (makeFormat c targetSr true) = false) ∧
        waveOutOpen (makeFormat 2 targetSr false) = false)) ∧
    (∀ e, WinmmOutputDevice.WinmmOutputDevice true waveOutOpen channels maxChannels targetSr
        = Except.error e →
      e = "Could not open Winmm device with any attempted channel count.") ∧
    (∀ dev, WinmmOutputDevice.WinmmOutputDevice true waveOutOpen channels maxChannels targetSr
        = Except.ok dev →
      waveOutOpen dev.format = true ∧ dev.format.nChannels = dev.outChannels ∧
      (dev.format.wFormatTag = WAVE_FORMAT_PCM →
        dev.outChannels = 2 ∧ dev.format = makeFormat 2 targetSr false)) := by
  have hneeded : (if channels < 2 then 2 else channels) = max channels 2 := by
    split_ifs with hc
    · exact (max_eq_right (by omega)).symm
    · exact (max_eq_left (by omega)).symm
  have hnone := openExtendedLoop_eq_none_iff waveOutOpen (max channels 2) maxChannels targetSr
    [8, 6, 2]
  unfold WinmmOutputDevice.WinmmOutputDevice
  simp only [Bool.true_eq_false, if_false, hneeded]
  cases hloop : openExtendedLoop waveOutOpen (max channels 2) maxChannels targetSr [8, 6, 2] with
  | none =>
    have hall := hnone.mp hloop
    by_cases hw : waveOutOpen (makeFormat 2 targetSr false) = true
    · simp only [hw, if_true]
      refine ⟨⟨fun ⟨e, he⟩ => (by cases he), fun ⟨_, h2⟩ => (by cases h2)⟩,
        fun e he => (by cases he), ?_⟩
      intro dev hdev
      have hd := Except.ok.inj hdev
      subst hd
      exact ⟨hw, rfl, fun _ => ⟨rfl, rfl⟩⟩
    · have hw2 : waveOutOpen (makeFormat 2 targetSr false) = false := by simpa using hw
      simp only [hw2, Bool.false_eq_true, if_false]
      refine ⟨⟨fun _ => ⟨hall, trivial⟩, fun _ => ⟨_, rfl⟩⟩, fun e he => ?_,
        fun dev hdev => (by cases hdev)⟩
      exact (Except.error.inj he).symm
  | some c =>
    obtain ⟨hmem, _, _, hacc, _⟩ := openExtendedLoop_some_of_descending waveOutOpen _ _ _ c
      [8, 6, 2] (by decide) hloop
    have hne : ¬ (∀ c, c ∈ [8, 6, 2] → c ≤ max channels 2 → c ≤ maxChannels →
        waveOutOpen (makeFormat c targetSr true) = false) := by
      intro hall
      rw [hnone.mpr hall] at hloop
      cases hloop
    refine ⟨⟨fun ⟨e, he⟩ => (by cases he), fun ⟨h1, _⟩ => absurd h1 hne⟩,
      fun e he => (by cases he), ?_⟩
    intro dev hdev
    have hd := Except.ok.inj hdev
    subst hd
    refine ⟨hacc, ?_, fun htag => ?_⟩
    · have h3 : c = 8 ∨ c = 6 ∨ c = 2 := by simpa using hmem
      rcases h3 with rfl | rfl | rfl <;> rfl
    · simp [makeFormat, WAVE_FORMAT_PCM, WAVE_FORMAT_EXTENSIBLE] at htag

end winmmErrors

/-! ## The header ring of `winmm_mixer` -/

section ring

theorem updateHeader_length (headers : List WAVEHDR) (i : Nat) (f : WAVEHDR → WAVEHDR) :
    (updateHeader headers i f).length = headers.length := by
  unfold updateHeader
  cases headers[i]? with
  | none => rfl
  | some h => simp

/-- The header at index `j` after `f` was applied at index `i`. -/
theorem updateHeader_getElem? (headers : List WAVEHDR) (i j : Nat) (f : WAVEHDR → WAVEHDR) :
    (updateHeader headers i f)[j]? = if j = i then (headers[i]?).map f else headers[j]? := by
  unfold updateHeader
  cases hi : headers[i]? with
  | none =>
    by_cases hj : j = i
    · subst hj; simp [hi]
    · simp [hj]
  | some h =>
    have hlt : i < headers.length := by
      rcases Nat.lt_or_ge i headers.length with hl | hl
      · exact hl
      · rw [List.getElem?_eq_none hl] at hi; cases hi
    by_cases hj : j = i
    · subst hj
      simp [List.getElem?_set, hlt]
    · have hij : i ≠ j := fun h => hj h.symm
      simp [List.getElem?_set_ne hij, hj]

/-- The header `firstDone` selects exists and has `WHDR_DONE` set. -/
theorem firstDone_some (headers : List WAVEHDR) :
    ∀ i, firstDone headers = some i →
      ∃ h, headers[i]? = some h ∧ isQueued h = false := by
  induction headers with
  | nil => intro i h; simp [firstDone] at h
  | cons x rest ih =>
    intro i h
    rw [firstDone] at h
    by_cases hx : x.dwFlags &&& WHDR_DONE ≠ 0
    · rw [if_pos hx] at h
      have hi := Option.some.inj h
      subst hi
      exact ⟨x, by simp, by simp [isQueued, hx]⟩
    · rw [if_neg hx] at h
      cases hr : firstDone rest with
      | none => rw [hr] at h; cases h
      | some k =>
        rw [hr] at h
        have hi := Option.some.inj h
        subst hi
        obtain ⟨y, hy, hq⟩ := ih k hr
        exact ⟨y, by simpa using hy, hq⟩

theorem winmm_mixer_iteration_length (samples : Nat) (workspace : Nat → F32)
    (headers headers' : List WAVEHDR)
    (h : winmm_mixer_iteration samples workspace headers = some headers') :
    headers'.length = headers.length := by
  unfold winmm_mixer_iteration at h
  cases hf : firstDone headers with
  | none => rw [hf] at h; cases h
  | some i =>
    rw [hf] at h
    have := Option.some.inj h
    subst this
    rw [updateHeader_length, writeStage, updateHeader_length]

theorem ringStep_length (samples : Nat) (headers headers' : List WAVEHDR)
    (h : RingStep samples headers headers') : headers'.length = headers.length := by
  cases h with
  | mixer _ _ hm => exact winmm_mixer_iteration_length samples _ _ _ hm
  | platform _ _ _ _ => exact updateHeader_length _ _ _

theorem ringReachable_length (mixAhead samples : Nat) (headers : List WAVEHDR)
    (h : RingReachable mixAhead samples headers) :
    headers.length = (mixAhead + 1) % 2 ^ 32 := by
  unfold RingReachable at h
  induction h with
  | refl => simp [WinmmOutputDevice.initialHeaders]
  | tail _ hstep ih => rw [ringStep_length samples _ _ hstep, ih]

/-- C12, the claim as stated fails.  With a mix-ahead of 1 the ring has two
headers; two passes of the mixing thread queue both, so two headers are queued
at once, more than the mix-ahead. -/
theorem C12_queued_exceeds_mixAhead_counterexample :
    ∃ headers, RingReachable 1 1 headers ∧ queuedCount headers = 2 ∧ ¬ (2 ≤ 1) := by
  refine ⟨[⟨[some 0], 2, 0⟩, ⟨[some 0], 2, 0⟩], ?_, by decide, by decide⟩
  have hq : quantizeSample (F32.finite 0) = some 0 := by
    simp [quantizeSample, f32mul, roundF32, toShort, truncate]
  have h1 : winmm_mixer_iteration 1 (fun _ => F32.finite 0) (WinmmOutputDevice.initialHeaders 1 1)
      = some [⟨[some 0], 2, 0⟩, ⟨[none], 2, WHDR_DONE⟩] := by
    simp [winmm_mixer_iteration, WinmmOutputDevice.initialHeaders, firstDone, WHDR_DONE,
      writeStage, updateHeader, fillBuffer, markQueued, forLoop, forLoopAux, hq,
      List.replicate]
  have h2 : winmm_mixer_iteration 1 (fun _ => F32.finite 0) [⟨[some 0], 2, 0⟩, ⟨[none], 2, WHDR_DONE⟩]
      = some [⟨[some 0], 2, 0⟩, ⟨[some 0], 2, 0⟩] := by
    simp [winmm_mixer_iteration, firstDone, WHDR_DONE,
      writeStage, updateHeader, fillBuffer, markQueued, forLoop, forLoopAux, hq]
  exact Relation.ReflTransGen.tail
    (Relation.ReflTransGen.single (RingStep.mixer _ _ _ h1)) (RingStep.mixer _ _ _ h2)

/-- C12, amended.  In every state of the ring reachable from the headers the
constructor set up, the ring still has its `mixAhead + 1` headers (in
`unsigned int`) and the number of queued ones never exceeds that ring size,
`mixAhead + 1`. -/
theorem C12_queued_at_most_ring_size (mixAhead samples : Nat) (headers : List WAVEHDR)
    (h : RingReachable mixAhead samples headers) :
    headers.length = (mixAhead + 1) % 2 ^ 32 ∧ queuedCount headers ≤ mixAhead + 1 := by
  have hl := ringReachable_length mixAhead samples headers h
  refine ⟨hl, ?_⟩
  have h1 : queuedCount headers ≤ headers.length := List.countP_le_length _
  have h2 : (mixAhead + 1) % 2 ^ 32 ≤ mixAhead + 1 := Nat.mod_le _ _
  omega

end ring

section ringWrites

theorem fillBuffer_flags (samples : Nat) (workspace : Nat → F32) (h : WAVEHDR) :
    (fillBuffer samples workspace h).dwFlags = h.dwFlags := rfl

theorem markQueued_data (samples : Nat) (h : WAVEHDR) :
    (markQueued samples h).lpData = h.lpData := rfl

theorem markQueued_isQueued (samples : Nat) (h : WAVEHDR) :
    isQueued (markQueued samples h) = true := by
  simp [isQueued, markQueued]

/-- One pass of the mixing thread, stage by stage. -/
theorem winmm_mixer_iteration_stages (samples : Nat) (workspace : Nat → F32)
    (headers headers' : List WAVEHDR)
    (hit : winmm_mixer_iteration samples workspace headers = some headers') :
    ∃ i h, firstDone headers = some i ∧ headers[i]? = some h ∧ isQueued h = false ∧
      (writeStage samples workspace headers i)[i]? = some (fillBuffer samples workspace h) ∧
      isQueued (fillBuffer samples workspace h) = false ∧
      headers'[i]? = some (markQueued samples (fillBuffer samples workspace h)) ∧
      isQueued (markQueued samples (fillBuffer samples workspace h)) = true ∧
      ∀ j, j ≠ i → (writeStage samples workspace headers i)[j]? = headers[j]? ∧
        headers'[j]? = headers[j]? := by
  unfold winmm_mixer_iteration at hit
  cases hf : firstDone headers with
  | none => rw [hf] at hit; cases hit
  | some i =>
    rw [hf] at hit
    have hh := Option.some.inj hit
    subst hh
    obtain ⟨h, hget, hfree⟩ := firstDone_some headers i hf
    have hw : (writeStage samples workspace headers i)[i]?
        = some (fillBuffer samples workspace h) := by
      rw [writeStage, updateHeader_getElem?, if_pos rfl, hget]
      rfl
    refine ⟨i, h, rfl, hget, hfree, hw, ?_, ?_, markQueued_isQueued _ _, ?_⟩
    · simpa [isQueued, fillBuffer_flags] using hfree
    · rw [updateHeader_getElem?, if_pos rfl, hw]
      rfl
    · intro j hj
      have hw2 : (writeStage samples workspace headers i)[j]? = headers[j]? := by
        rw [writeStage, updateHeader_getElem?, if_neg hj]
      exact ⟨hw2, by rw [updateHeader_getElem?, if_neg hj, hw2]⟩

/-- C13.  All headers start out free (`WHDR_DONE` set).  A pass of the mixing
thread writes samples only into the buffer of the header it selected, that
header had `WHDR_DONE` set when selected and still has it set when the samples
have been written, and its flags are cleared (queued) only after the write.  In
every step of the ring, a header whose buffer contents changed was free before
the step: no queued header is ever written. -/
theorem C13_no_header_written_while_queued (samples : Nat) :
    (∀ mixAhead h, h ∈ WinmmOutputDevice.initialHeaders mixAhead samples →
      isQueued h = false) ∧
    (∀ (workspace : Nat → F32) (headers headers' : List WAVEHDR),
      winmm_mixer_iteration samples workspace headers = some headers' →
      ∃ i h, firstDone headers = some i ∧ headers[i]? = some h ∧ isQueued h = false ∧
        (writeStage samples workspace headers i)[i]? = some (fillBuffer samples workspace h) ∧
        isQueued (fillBuffer samples workspace h) = false ∧
        headers'[i]? = some (markQueued samples (fillBuffer samples workspace h)) ∧
        isQueued (markQueued samples (fillBuffer samples workspace h)) = true ∧
        ∀ j, j ≠ i → (writeStage samples workspace headers i)[j]? = headers[j]? ∧
          headers'[j]? = headers[j]?) ∧
    (∀ (headers headers' : List WAVEHDR), RingStep samples headers headers' →
      ∀ (j : Nat) (h h' : WAVEHDR), headers[j]? = some h → headers'[j]? = some h' →
        h'.lpData ≠ h.lpData → isQueued h = false) := by
  refine ⟨?_, fun workspace headers headers' hit =>
    winmm_mixer_iteration_stages samples workspace headers headers' hit, ?_⟩
  · intro mixAhead h hmem
    have := List.eq_of_mem_replicate hmem
    subst this
    simp [isQueued, WHDR_DONE]
  · intro headers headers' hstep j h h' hj hj' hne
    cases hstep with
    | mixer _ workspace hit =>
      obtain ⟨i, h0, _, hget, hfree, _, _, hnew, _, hother⟩ :=
        winmm_mixer_iteration_stages samples workspace headers headers' hit
      by_cases hji : j = i
      · subst hji
        rw [hget] at hj
        have := Option.some.inj hj
        subst this
        exact hfree
      · rw [(hother j hji).2, hj] at hj'
        have := Option.some.inj hj'
        subst this
        exact absurd rfl hne
    | platform i h0 hget hq =>
      rw [platformDone, updateHeader_getElem?] at hj'
      by_cases hji : j = i
      · subst hji
        rw [if_pos rfl, hj] at hj'
        have := Option.some.inj hj'
        subst this
        exact absurd rfl hne
      · rw [if_neg hji, hj] at hj'
        have := Option.some.inj hj'
        subst this
        exact absurd rfl hne

end ringWrites

/-! ## Capability probing -/

section probing

theorem probeRates_eq_find (query : WAVEFORMATEXTENSIBLE → Bool) (channels : Nat) :
    ∀ (srs : List Nat),
      probeRates query channels srs
        = srs.find? (fun sr => query (makeFormat channels sr true)) := by
  intro srs
  induction srs with
  | nil => rfl
  | cons sr rest ih =>
    rw [probeRates, List.find?_cons]
    by_cases h : query (makeFormat channels sr true) = true
    · rw [if_pos h, h]
    · have hf : query (makeFormat channels sr true) = false := by simpa using h
      rw [if_neg h, hf, ih]

/-- The nested loops of `getWinmmCapabilities` search the pairs in the order
channel count (outer) by sample rate (inner). -/
theorem probeChannels_eq_find (query : WAVEFORMATEXTENSIBLE → Bool) (srs : List Nat) :
    ∀ (cs : List Nat),
      probeChannels query srs cs
        = (cs.flatMap (fun c => srs.map (fun sr => (c, sr)))).find?
            (fun p => query (makeFormat p.1 p.2 true)) := by
  intro cs
  induction cs with
  | nil => rfl
  | cons c rest ih =>
    rw [probeChannels, List.flatMap_cons, List.find?_append, List.find?_map, ← ih,
      probeRates_eq_find]
    have hcomp : ((fun p : Nat × Nat => query (makeFormat p.1 p.2 true)) ∘ fun sr => (c, sr))
        = fun sr => query (makeFormat c sr true) := rfl
    rw [hcomp]
    cases List.find? (fun sr => query (makeFormat c sr true)) srs with
    | none => rfl
    | some sr => rfl

/-- C14.  `getWinmmCapabilities` returns the first pair, in the order channels
8, 6, 2 (outer) by sample rates 48000, 44100, 22050 (inner), that the
query-mode open accepts, every pair tried before it having been rejected; when
none of the nine is accepted it returns 2 channels at 44100 Hz. -/
theorem C14_getWinmmCapabilities_first_accepted (P : Platform) (index : Nat) :
    (getWinmmCapabilities P index).name = P.szPname index ∧
    ((∃ pre post c sr,
        [(8, 48000), (8, 44100), (8, 22050), (6, 48000), (6, 44100), (6, 22050),
          (2, 48000), (2, 44100), (2, 22050)] = pre ++ (c, sr) :: post ∧
        P.waveOutOpenQuery index (makeFormat c sr true) = true ∧
        (∀ p, p ∈ pre → P.waveOutOpenQuery index (makeFormat p.1 p.2 true) = false) ∧
        (getWinmmCapabilities P index).channels = c ∧
        (getWinmmCapabilities P index).sr = sr) ∨
    ((∀ p, p ∈ [(8, 48000), (8, 44100), (8, 22050), (6, 48000), (6, 44100), (6, 22050),
          (2, 48000), (2, 44100), (2, 22050)] →
        P.waveOutOpenQuery index (makeFormat p.1 p.2 true) = false) ∧
      (getWinmmCapabilities P index).channels = 2 ∧
      (getWinmmCapabilities P index).sr = 44100)) := by
  have hlist : ([8, 6, 2] : List Nat).flatMap
      (fun c => ([48000, 44100, 22050] : List Nat).map (fun sr => (c, sr)))
      = [(8, 48000), (8, 44100), (8, 22050), (6, 48000), (6, 44100), (6, 22050),
          (2, 48000), (2, 44100), (2, 22050)] := rfl
  have hfind := probeChannels_eq_find (P.waveOutOpenQuery index) [48000, 44100, 22050] [8, 6, 2]
  rw [hlist] at hfind
  unfold getWinmmCapabilities
  cases hp : probeChannels (P.waveOutOpenQuery index) [48000, 44100, 22050] [8, 6, 2] with
  | none =>
    refine ⟨rfl, Or.inr ⟨?_, rfl, rfl⟩⟩
    rw [hp] at hfind
    have hnone := List.find?_eq_none.mp hfind.symm
    intro p hmem
    simpa using hnone p hmem
  | some pr =>
    obtain ⟨c, sr⟩ := pr
    refine ⟨rfl, Or.inl ?_⟩
    rw [hp] at hfind
    obtain ⟨hacc, pre, post, hsplit, hrej⟩ := List.find?_eq_some.mp hfind.symm
    refine ⟨pre, post, c, sr, hsplit, hacc, ?_, rfl, rfl⟩
    intro p hmem
    simpa using hrej p hmem

end probing

/-! ## Sample quantization and the mix-ahead in binary32 -/


section rounding

theorem roundHalfEven_mem (r : ℚ) :
    roundHalfEven r = Int.floor r ∨
      (roundHalfEven r = Int.floor r + 1 ∧ (1 : ℚ) / 2 ≤ r - (Int.floor r : ℚ)) := by
  unfold roundHalfEven
  by_cases h1 : r - (Int.floor r : ℚ) < 1 / 2
  · left; rw [if_pos h1]
  · rw [if_neg h1]
    by_cases h2 : 1 / 2 < r - (Int.floor r : ℚ)
    · right; rw [if_pos h2]; exact ⟨rfl, not_lt.mp h1⟩
    · rw [if_neg h2]
      by_cases h3 : Int.floor r % 2 = 0
      · left; rw [if_pos h3]
      · right; rw [if_neg h3]; exact ⟨rfl, not_lt.mp h1⟩

/-- Rounding never passes an integer above. -/
theorem roundHalfEven_le (r : ℚ) (N : Int) (h : r ≤ (N : ℚ)) : roundHalfEven r ≤ N := by
  have hf : Int.floor r ≤ N := by
    have : ((Int.floor r : Int) : ℚ) ≤ (N : ℚ) := le_trans (Int.floor_le r) h
    exact_mod_cast this
  rcases roundHalfEven_mem r with h1 | ⟨h1, h2⟩
  · rw [h1]; exact hf
  · rw [h1]
    have hlt : ((Int.floor r : Int) : ℚ) < (N : ℚ) := by linarith
    have : Int.floor r < N := by exact_mod_cast hlt
    omega

/-- Rounding never passes an integer below. -/
theorem le_roundHalfEven (r : ℚ) (N : Int) (h : (N : ℚ) ≤ r) : N ≤ roundHalfEven r := by
  have hf : N ≤ Int.floor r := Int.le_floor.mpr h
  rcases roundHalfEven_mem r with h1 | ⟨h1, _⟩
  · rw [h1]; exact hf
  · rw [h1]; omega

theorem roundHalfEven_intCast (N : Int) : roundHalfEven (N : ℚ) = N :=
  le_antisymm (roundHalfEven_le _ N le_rfl) (le_roundHalfEven _ N le_rfl)

/-- Below the midpoint above `N` the rounding stays at most `N`. -/
theorem roundHalfEven_le_of_lt_half (r : ℚ) (N : Int) (h : r < (N : ℚ) + 1 / 2) :
    roundHalfEven r ≤ N := by
  have hfl : ((Int.floor r : Int) : ℚ) ≤ r := Int.floor_le r
  have hf : Int.floor r ≤ N := by
    have h1 : ((Int.floor r : Int) : ℚ) < (N : ℚ) + 1 := by linarith
    have h2 : Int.floor r < N + 1 := by exact_mod_cast h1
    omega
  rcases roundHalfEven_mem r with h1 | ⟨h1, h2⟩
  · rw [h1]; exact hf
  · rw [h1]
    have hlt : ((Int.floor r : Int) : ℚ) < (N : ℚ) := by linarith
    have : Int.floor r < N := by exact_mod_cast hlt
    omega

/-- From the midpoint above an odd `N` on, the rounding is at least `N + 1`:
a tie goes to the even neighbour. -/
theorem succ_le_roundHalfEven_of_odd (r : ℚ) (N : Int) (hodd : N % 2 = 1)
    (h : (N : ℚ) + 1 / 2 ≤ r) : N + 1 ≤ roundHalfEven r := by
  have hN : N ≤ Int.floor r := Int.le_floor.mpr (by linarith)
  rcases Int.lt_or_le N (Int.floor r) with hlt | hle
  · have := le_roundHalfEven r (Int.floor r) (Int.floor_le r)
    omega
  · have heq : Int.floor r = N := le_antisymm hle hN
    unfold roundHalfEven
    rw [heq]
    have h1 : ¬ (r - (N : ℚ) < 1 / 2) := by linarith
    rw [if_neg h1]
    by_cases h2 : 1 / 2 < r - (N : ℚ)
    · rw [if_pos h2]
    · rw [if_neg h2, if_neg (by omega)]

theorem f32ulp_pos (a : ℚ) : 0 < f32ulp a := by
  unfold f32ulp
  exact zpow_pos (by norm_num) _

/-- The unit in the last place of a value in the binade `[2^e, 2^(e+1))`. -/
theorem f32ulp_of_binade (a : ℚ) (e : Int) (hlo : (2 : ℚ) ^ e ≤ a) (hhi : a < (2 : ℚ) ^ (e + 1))
    (he : -126 ≤ e) : f32ulp a = (2 : ℚ) ^ (e - 23) := by
  have hpos : 0 < a := lt_of_lt_of_le (zpow_pos (by norm_num) _) hlo
  have h1 : e ≤ Int.log 2 a := (Int.zpow_le_iff_le_log (by norm_num) hpos).mp (by exact_mod_cast hlo)
  have h2 : Int.log 2 a < e + 1 :=
    (Int.lt_zpow_iff_log_lt (by norm_num) hpos).mp (by exact_mod_cast hhi)
  have h3 : Int.log 2 a = e := by omega
  unfold f32ulp
  rw [h3, max_eq_left he]

/-- Below `2^24` every integer is a multiple of the unit in the last place. -/
theorem intCast_multiple_of_ulp (a : ℚ) (K : Int) (hpos : 0 < a) (hlt : a < (2 : ℚ) ^ (24 : Int)) :
    ∃ N : Int, (K : ℚ) = (N : ℚ) * f32ulp a := by
  have h2 : Int.log 2 a < 24 :=
    (Int.lt_zpow_iff_log_lt (by norm_num) hpos).mp (by exact_mod_cast hlt)
  have hE : max (Int.log 2 a) (-126) - 23 ≤ 0 := by
    have : max (Int.log 2 a) (-126) ≤ 23 := max_le (by omega) (by norm_num)
    omega
  obtain ⟨k, hk⟩ : ∃ k : Nat, max (Int.log 2 a) (-126) - 23 = -(k : Int) :=
    ⟨(-(max (Int.log 2 a) (-126) - 23)).toNat, by omega⟩
  refine ⟨K * 2 ^ k, ?_⟩
  unfold f32ulp
  rw [hk, zpow_neg, zpow_natCast]
  push_cast
  field_simp

/-- The rounded magnitude does not exceed a bound that lies on the grid. -/
theorem roundMagnitude_le (q a : ℚ) (N : Int) (hqa : q ≤ a) (ha : a = (N : ℚ) * f32ulp q) :
    roundMagnitude q ≤ a := by
  have hu := f32ulp_pos q
  unfold roundMagnitude
  have h1 : q / f32ulp q ≤ (N : ℚ) := by
    rw [div_le_iff₀ hu, ← ha]; exact hqa
  have h2 := roundHalfEven_le _ N h1
  have h3 : ((roundHalfEven (q / f32ulp q) : Int) : ℚ) ≤ (N : ℚ) := by exact_mod_cast h2
  rw [ha]
  exact mul_le_mul_of_nonneg_right h3 (le_of_lt hu)

/-- The rounded magnitude does not fall below a bound that lies on the grid. -/
theorem le_roundMagnitude (q a : ℚ) (N : Int) (hqa : a ≤ q) (ha : a = (N : ℚ) * f32ulp q) :
    a ≤ roundMagnitude q := by
  have hu := f32ulp_pos q
  unfold roundMagnitude
  have h1 : (N : ℚ) ≤ q / f32ulp q := by
    rw [le_div_iff₀ hu, ← ha]; exact hqa
  have h2 := le_roundHalfEven _ N h1
  have h3 : (N : ℚ) ≤ ((roundHalfEven (q / f32ulp q) : Int) : ℚ) := by exact_mod_cast h2
  rw [ha]
  exact mul_le_mul_of_nonneg_right h3 (le_of_lt hu)

theorem roundMagnitude_nonneg (q : ℚ) (hq : 0 ≤ q) : 0 ≤ roundMagnitude q := by
  have h := le_roundMagnitude q 0 0 hq (by simp)
  exact h

/-- A normal value rounds to at least the power of two at the bottom of its binade. -/
theorem zpow_le_roundMagnitude (q : ℚ) (e : Int) (he : -126 ≤ e) (hq : (2 : ℚ) ^ e ≤ q) :
    (2 : ℚ) ^ e ≤ roundMagnitude q := by
  have hpos : 0 < q := lt_of_lt_of_le (zpow_pos (by norm_num) _) hq
  have hlog : e ≤ Int.log 2 q :=
    (Int.zpow_le_iff_le_log (by norm_num) hpos).mp (by exact_mod_cast hq)
  have hmax : max (Int.log 2 q) (-126) = Int.log 2 q := max_eq_left (by omega)
  have hbase : (2 : ℚ) ^ (Int.log 2 q) ≤ q := by
    have := Int.zpow_log_le_self (b := 2) (r := q) (by norm_num) hpos
    exact_mod_cast this
  have hgrid : (2 : ℚ) ^ (Int.log 2 q) = ((2 ^ 23 : Int) : ℚ) * f32ulp q := by
    unfold f32ulp
    rw [hmax]
    rw [zpow_sub₀ (by norm_num : (2 : ℚ) ≠ 0)]
    norm_num
    field_simp
  have h1 := le_roundMagnitude q _ (2 ^ 23) hbase hgrid
  have h2 : (2 : ℚ) ^ e ≤ (2 : ℚ) ^ (Int.log 2 q) :=
    zpow_le_zpow_right₀ (by norm_num) hlog
  exact le_trans h2 h1

end rounding

section roundingCases

theorem roundF32_zero : roundF32 0 = F32.finite 0 := by
  unfold roundF32
  rw [if_pos rfl]

theorem roundF32_of_pos (q : ℚ) (hq : 0 < q) :
    roundF32 q = if (2 : ℚ) ^ (128 : Nat) ≤ roundMagnitude q then F32.inf false
      else F32.finite (roundMagnitude q) := by
  unfold roundF32
  have h1 : ¬ q = 0 := ne_of_gt hq
  have h2 : ¬ q < 0 := not_lt.mpr (le_of_lt hq)
  rw [if_neg h1, abs_of_pos hq]
  simp [h2]

theorem roundF32_of_neg (q : ℚ) (hq : q < 0) :
    roundF32 q = if (2 : ℚ) ^ (128 : Nat) ≤ roundMagnitude (-q) then F32.inf true
      else F32.finite (-roundMagnitude (-q)) := by
  unfold roundF32
  have h1 : ¬ q = 0 := ne_of_lt hq
  rw [if_neg h1, abs_of_neg hq]
  simp [hq]

/-- Above the midpoint below `N` the rounding is at least `N`. -/
theorem le_roundHalfEven_of_gt_half (r : ℚ) (N : Int) (h : (N : ℚ) - 1 / 2 < r) :
    N ≤ roundHalfEven r := by
  have hfl : r < ((Int.floor r : Int) : ℚ) + 1 := Int.lt_floor_add_one r
  have hf : N - 1 ≤ Int.floor r := by
    have h1 : (N : ℚ) - 1 < ((Int.floor r : Int) : ℚ) + 1 := by linarith
    have h2 : N - 1 < Int.floor r + 1 := by exact_mod_cast h1
    omega
  rcases Int.lt_or_le (N - 1) (Int.floor r) with hlt | hle
  · have := le_roundHalfEven r (Int.floor r) (Int.floor_le r)
    omega
  · have heq : Int.floor r = N - 1 := le_antisymm hle hf
    unfold roundHalfEven
    rw [heq]
    push_cast
    have h1 : ¬ (r - ((N : ℚ) - 1) < 1 / 2) := by linarith
    have h2 : 1 / 2 < r - ((N : ℚ) - 1) := by linarith
    rw [if_neg h1, if_pos h2]
    omega

theorem roundHalfEven_eq_of_near (r : ℚ) (m : Int) (h1 : (m : ℚ) - 1 / 2 < r)
    (h2 : r < (m : ℚ) + 1 / 2) : roundHalfEven r = m :=
  le_antisymm (roundHalfEven_le_of_lt_half r m h2) (le_roundHalfEven_of_gt_half r m h1)

/-- Evaluation of `roundF32` at a positive value whose binade is known and
which is not a tie. -/
theorem roundF32_eval (q : ℚ) (e m : Int) (hlo : (2 : ℚ) ^ e ≤ q) (hhi : q < (2 : ℚ) ^ (e + 1))
    (he : -126 ≤ e) (h1 : (m : ℚ) - 1 / 2 < q / (2 : ℚ) ^ (e - 23))
    (h2 : q / (2 : ℚ) ^ (e - 23) < (m : ℚ) + 1 / 2)
    (hfin : (m : ℚ) * (2 : ℚ) ^ (e - 23) < (2 : ℚ) ^ (128 : Nat)) :
    roundF32 q = F32.finite ((m : ℚ) * (2 : ℚ) ^ (e - 23)) := by
  have hpos : 0 < q := lt_of_lt_of_le (zpow_pos (by norm_num) _) hlo
  have hu := f32ulp_of_binade q e hlo hhi he
  have hm : roundMagnitude q = (m : ℚ) * (2 : ℚ) ^ (e - 23) := by
    unfold roundMagnitude
    rw [hu, roundHalfEven_eq_of_near _ m h1 h2]
  rw [roundF32_of_pos q hpos, hm, if_neg (not_le.mpr hfin)]

/-- A value of magnitude at most the integer `K < 2^24` rounds to a finite
value of magnitude at most `K`. -/
theorem roundF32_abs_le (p : ℚ) (K : Nat) (hK : (K : ℚ) < (2 : ℚ) ^ (24 : Int))
    (h1 : -(K : ℚ) ≤ p) (h2 : p ≤ (K : ℚ)) :
    ∃ r, roundF32 p = F32.finite r ∧ -(K : ℚ) ≤ r ∧ r ≤ (K : ℚ) := by
  have hbig : (K : ℚ) < (2 : ℚ) ^ (128 : Nat) := lt_trans hK (by norm_num)
  have hKnn : (0 : ℚ) ≤ (K : ℚ) := Nat.cast_nonneg K
  rcases lt_trichotomy p 0 with hneg | hzero | hpos
  · have hq : 0 < -p := by linarith
    obtain ⟨N, hN⟩ := intCast_multiple_of_ulp (-p) (K : Int) hq (lt_of_le_of_lt (by linarith) hK)
    have hle := roundMagnitude_le (-p) (K : ℚ) N (by linarith) (by exact_mod_cast hN)
    have hnn := roundMagnitude_nonneg (-p) (le_of_lt hq)
    refine ⟨-roundMagnitude (-p), ?_, by linarith, by linarith⟩
    rw [roundF32_of_neg p hneg, if_neg (not_le.mpr (lt_of_le_of_lt hle hbig))]
  · subst hzero
    exact ⟨0, roundF32_zero, by linarith, hKnn⟩
  · obtain ⟨N, hN⟩ := intCast_multiple_of_ulp p (K : Int) hpos (lt_of_le_of_lt h2 hK)
    have hle := roundMagnitude_le p (K : ℚ) N h2 (by exact_mod_cast hN)
    have hnn := roundMagnitude_nonneg p (le_of_lt hpos)
    refine ⟨roundMagnitude p, ?_, by linarith, hle⟩
    rw [roundF32_of_pos p hpos, if_neg (not_le.mpr (lt_of_le_of_lt hle hbig))]

/-- A positive integer `K < 2^24` is a lower bound of the rounded magnitude of
anything at least `K`. -/
theorem natCast_le_roundMagnitude (p : ℚ) (K : Nat) (hK0 : 0 < K)
    (hK : (K : ℚ) < (2 : ℚ) ^ (24 : Int)) (h : (K : ℚ) ≤ p) : (K : ℚ) ≤ roundMagnitude p := by
  have hpos : 0 < p := lt_of_lt_of_le (by exact_mod_cast hK0) h
  rcases lt_or_le p ((2 : ℚ) ^ (24 : Int)) with hlt | hge
  · obtain ⟨N, hN⟩ := intCast_multiple_of_ulp p (K : Int) hpos hlt
    exact le_roundMagnitude p (K : ℚ) N h (by exact_mod_cast hN)
  · have := zpow_le_roundMagnitude p 24 (by norm_num) hge
    linarith

end roundingCases

section quantization

/-- Truncation never moves a value away from zero. -/
theorem truncate_bounds (y : ℚ) (lo hi : Int) (hlo : lo ≤ 0) (hhi : 0 ≤ hi)
    (h1 : (lo : ℚ) ≤ y) (h2 : y ≤ (hi : ℚ)) : lo ≤ truncate y ∧ truncate y ≤ hi := by
  unfold truncate
  by_cases h0 : 0 ≤ y
  · rw [if_pos h0]
    have hf : (0 : Int) ≤ Int.floor y := Int.floor_nonneg.mpr h0
    have hle : ((Int.floor y : Int) : ℚ) ≤ y := Int.floor_le y
    have h3 : ((Int.floor y : Int) : ℚ) ≤ (hi : ℚ) := le_trans hle h2
    exact ⟨le_trans hlo hf, by exact_mod_cast h3⟩
  · rw [if_neg h0]
    have hneg : y ≤ ((0 : Int) : ℚ) := by
      have := le_of_lt (not_le.mp h0)
      simpa using this
    have hc : Int.ceil y ≤ 0 := Int.ceil_le.mpr hneg
    have hge : y ≤ ((Int.ceil y : Int) : ℚ) := Int.le_ceil y
    have h3 : (lo : ℚ) ≤ ((Int.ceil y : Int) : ℚ) := le_trans h1 hge
    exact ⟨by exact_mod_cast h3, le_trans hc hhi⟩

theorem truncate_intCast (n : Int) : truncate (n : ℚ) = n := by
  unfold truncate
  split_ifs <;> simp

/-- A scaled sample in `[32767, 32768)` truncates to 32767. -/
theorem truncate_eq_max (y : ℚ) (h1 : 32767 ≤ y) (h2 : y < 32768) : truncate y = 32767 := by
  unfold truncate
  rw [if_pos (by linarith)]
  rw [Int.floor_eq_iff]
  constructor
  · exact_mod_cast h1
  · have : ((32767 : Int) : ℚ) + 1 = 32768 := by norm_num
    rw [this]; exact h2

/-- A scaled sample in `(-32768, -32767]` truncates to -32767. -/
theorem truncate_eq_min (y : ℚ) (h1 : -32768 < y) (h2 : y ≤ -32767) :
    truncate y = -32767 := by
  unfold truncate
  rw [if_neg (by linarith)]
  rw [Int.ceil_eq_iff]
  constructor
  · have : ((-32767 : Int) : ℚ) - 1 = -32768 := by norm_num
    rw [this]; exact h1
  · exact_mod_cast h2

/-- A scaled sample in `(-32769, -32768]` truncates to -32768. -/
theorem truncate_eq_lowest (y : ℚ) (h1 : -32769 < y) (h2 : y ≤ -32768) :
    truncate y = -32768 := by
  unfold truncate
  rw [if_neg (by linarith)]
  rw [Int.ceil_eq_iff]
  constructor
  · have : ((-32768 : Int) : ℚ) - 1 = -32769 := by norm_num
    rw [this]; exact h1
  · exact_mod_cast h2

theorem quantizeSample_finite (x : ℚ) :
    quantizeSample (F32.finite x) = toShort (roundF32 (x * 32767)) := rfl

theorem toShort_finite (r : ℚ) :
    toShort (F32.finite r)
      = if -32768 ≤ truncate r ∧ truncate r ≤ 32767 then some (truncate r) else none := rfl

theorem toShort_of_ge (r : ℚ) (h : 32768 ≤ r) : toShort (F32.finite r) = none := by
  have hge : (32768 : Int) ≤ truncate r := by
    unfold truncate
    rw [if_pos (by linarith)]
    exact Int.le_floor.mpr (by exact_mod_cast h)
  rw [toShort_finite, if_neg (fun hh => by omega)]

theorem toShort_of_le (r : ℚ) (h : r ≤ -32769) : toShort (F32.finite r) = none := by
  have hle : truncate r ≤ (-32769 : Int) := by
    unfold truncate
    rw [if_neg (by linarith)]
    exact Int.ceil_le.mpr (by exact_mod_cast h)
  rw [toShort_finite, if_neg (fun hh => by omega)]

/-- Rounding in the binade `[2^14, 2^15)`, where the grid step is `1/512`. -/
theorem roundMagnitude_binade14 (a : ℚ) (h1 : 16384 ≤ a) (h2 : a < 32768) :
    roundMagnitude a = (roundHalfEven (a * 512) : ℚ) / 512 := by
  have hu : f32ulp a = 1 / 512 := by
    rw [f32ulp_of_binade a 14 (by norm_num; exact h1) (by norm_num; exact h2) (by norm_num)]
    norm_num
  unfold roundMagnitude
  rw [hu]
  have : a / (1 / 512) = a * 512 := by field_simp
  rw [this]
  ring

/-- Rounding in the binade `[2^15, 2^16)`, where the grid step is `1/256`. -/
theorem roundMagnitude_binade15 (a : ℚ) (h1 : 32768 ≤ a) (h2 : a < 65536) :
    roundMagnitude a = (roundHalfEven (a * 256) : ℚ) / 256 := by
  have hu : f32ulp a = 1 / 256 := by
    rw [f32ulp_of_binade a 15 (by norm_num; exact h1) (by norm_num; exact h2) (by norm_num)]
    norm_num
  unfold roundMagnitude
  rw [hu]
  have : a / (1 / 256) = a * 256 := by field_simp
  rw [this]
  ring

/-- A product in `[32767, 32768 - 2^-10)` rounds into `[32767, 32768)`. -/
theorem roundMagnitude_below_limit (a : ℚ) (h1 : 32767 ≤ a) (h2 : a < 32768 - 1 / 1024) :
    32767 ≤ roundMagnitude a ∧ roundMagnitude a < 32768 := by
  rw [roundMagnitude_binade14 a (by linarith) (by linarith)]
  have hlo := le_roundHalfEven (a * 512) 16776704 (by push_cast; linarith)
  have hhi := roundHalfEven_le_of_lt_half (a * 512) 16777215 (by push_cast; linarith)
  have hlo' : ((16776704 : Int) : ℚ) ≤ (roundHalfEven (a * 512) : ℚ) := by exact_mod_cast hlo
  have hhi' : (roundHalfEven (a * 512) : ℚ) ≤ ((16777215 : Int) : ℚ) := by exact_mod_cast hhi
  push_cast at hlo' hhi'
  constructor
  · rw [le_div_iff₀ (by norm_num)]; linarith
  · rw [div_lt_iff₀ (by norm_num)]; linarith

/-- A product of at least `32768 - 2^-10` rounds to at least 32768. -/
theorem roundMagnitude_at_limit (a : ℚ) (h : 32768 - 1 / 1024 ≤ a) :
    32768 ≤ roundMagnitude a := by
  rcases lt_or_le a 32768 with hlt | hge
  · rw [roundMagnitude_binade14 a (by linarith) hlt]
    have hm := succ_le_roundHalfEven_of_odd (a * 512) 16777215 (by decide)
      (by push_cast; linarith)
    have hm' : ((16777215 + 1 : Int) : ℚ) ≤ (roundHalfEven (a * 512) : ℚ) := by
      exact_mod_cast hm
    push_cast at hm'
    rw [le_div_iff₀ (by norm_num)]; linarith
  · have := natCast_le_roundMagnitude a 32768 (by decide) (by norm_num) (by exact_mod_cast hge)
    exact_mod_cast this

/-- A product below `32769 - 2^-9` rounds to less than 32769. -/
theorem roundMagnitude_below_next (a : ℚ) (h0 : 0 < a) (h : a < 32769 - 1 / 512) :
    roundMagnitude a < 32769 := by
  rcases lt_or_le a 32768 with hlt | hge
  · obtain ⟨N, hN⟩ := intCast_multiple_of_ulp a 32768 h0 (lt_trans hlt (by norm_num))
    have := roundMagnitude_le a 32768 N (le_of_lt hlt) (by exact_mod_cast hN)
    linarith
  · rw [roundMagnitude_binade15 a hge (by linarith)]
    have hhi := roundHalfEven_le_of_lt_half (a * 256) 8388863 (by push_cast; linarith)
    have hhi' : (roundHalfEven (a * 256) : ℚ) ≤ ((8388863 : Int) : ℚ) := by exact_mod_cast hhi
    push_cast at hhi'
    rw [div_lt_iff₀ (by norm_num)]; linarith

theorem roundMagnitude_natCast (K : Nat) (hK0 : 0 < K) (hK : (K : ℚ) < (2 : ℚ) ^ (24 : Int)) :
    roundMagnitude (K : ℚ) = (K : ℚ) := by
  have hpos : (0 : ℚ) < (K : ℚ) := by exact_mod_cast hK0
  obtain ⟨N, hN⟩ := intCast_multiple_of_ulp (K : ℚ) (K : Int) hpos hK
  have h1 := roundMagnitude_le (K : ℚ) (K : ℚ) N le_rfl (by exact_mod_cast hN)
  have h2 := le_roundMagnitude (K : ℚ) (K : ℚ) N le_rfl (by exact_mod_cast hN)
  exact le_antisymm h1 h2

/-- A positive integer below `2^24` is a binary32 value. -/
theorem roundF32_natCast (K : Nat) (hK0 : 0 < K) (hK : (K : ℚ) < (2 : ℚ) ^ (24 : Int)) :
    roundF32 (K : ℚ) = F32.finite (K : ℚ) := by
  have hpos : (0 : ℚ) < (K : ℚ) := by exact_mod_cast hK0
  rw [roundF32_of_pos _ hpos, roundMagnitude_natCast K hK0 hK,
    if_neg (not_le.mpr (lt_trans hK (by norm_num)))]

/-- So is its negative. -/
theorem roundF32_neg_natCast (K : Nat) (hK0 : 0 < K) (hK : (K : ℚ) < (2 : ℚ) ^ (24 : Int)) :
    roundF32 (-(K : ℚ)) = F32.finite (-(K : ℚ)) := by
  have hpos : (0 : ℚ) < (K : ℚ) := by exact_mod_cast hK0
  rw [roundF32_of_neg _ (by linarith), neg_neg, roundMagnitude_natCast K hK0 hK,
    if_neg (not_le.mpr (lt_trans hK (by norm_num)))]

/-- C15.  In binary32, the quantization of `winmm_mixer` maps 1.0 to 32767 and
-1.0 to -32767, and for every sample in `[-1, 1]` the product with 32767 is a
finite float whose truncation lies in `[-32767, 32767]`, so the conversion to
the 16-bit type is defined and stores that truncation. -/
theorem C15_quantization_in_range :
    quantizeSample (F32.finite 1) = some 32767 ∧
    quantizeSample (F32.finite (-1)) = some (-32767) ∧
    ∀ x : ℚ, -1 ≤ x → x ≤ 1 →
      ∃ r, f32mul (F32.finite x) (F32.finite 32767) = F32.finite r ∧
        quantizeSample (F32.finite x) = some (truncate r) ∧
        -32767 ≤ truncate r ∧ truncate r ≤ 32767 := by
  have hall : ∀ x : ℚ, -1 ≤ x → x ≤ 1 →
      ∃ r, f32mul (F32.finite x) (F32.finite 32767) = F32.finite r ∧
        quantizeSample (F32.finite x) = some (truncate r) ∧
        -32767 ≤ truncate r ∧ truncate r ≤ 32767 := by
    intro x h1 h2
    obtain ⟨r, hr, hlo, hhi⟩ := roundF32_abs_le (x * 32767) 32767 (by norm_num)
      (by push_cast; linarith) (by push_cast; linarith)
    have hb := truncate_bounds r (-32767) 32767 (by decide) (by decide)
      (by push_cast at hlo ⊢; linarith) (by push_cast at hhi ⊢; linarith)
    refine ⟨r, hr, ?_, hb.1, hb.2⟩
    rw [quantizeSample_finite, hr, toShort_finite, if_pos ⟨by omega, by omega⟩]
  have e1 : roundF32 ((1 : ℚ) * 32767) = F32.finite 32767 := by
    have := roundF32_natCast 32767 (by decide) (by norm_num)
    simpa using this
  have e2 : roundF32 ((-1 : ℚ) * 32767) = F32.finite (-32767) := by
    have := roundF32_neg_natCast 32767 (by decide) (by norm_num)
    simpa using this
  have t1 : truncate (32767 : ℚ) = 32767 := by
    have := truncate_intCast 32767
    simpa using this
  have t2 : truncate (-32767 : ℚ) = -32767 := by
    have := truncate_intCast (-32767)
    simpa using this
  refine ⟨?_, ?_, hall⟩
  · rw [quantizeSample_finite, e1, toShort_finite, t1]
    decide
  · rw [quantizeSample_finite, e2, toShort_finite, t2]
    decide

/-- C16, the claim as stated fails.  A workspace sample of 1.5 gives the
binary32 product 49150.5, which truncates to 49150; a sample of `1 + 2^-15`,
barely above 1.0, gives a product that rounds to 32768.0.  Both are outside the
16-bit range, so what `winmm_mixer` stores is not defined by the conversion,
and in particular it is not 32767: a pass of the mixing thread over a workspace
holding 1.5 leaves an undefined sample in the hardware buffer.  The workspace
is what `sample_format_converter->write` left there; that code is not among the
sources, so its contents are a parameter of the pass. -/
theorem C16_sample_above_one_not_clipped_counterexample :
    ((1 : ℚ) < 3 / 2 ∧
      f32mul (F32.finite (3 / 2)) (F32.finite 32767) = F32.finite (98301 / 2) ∧
      truncate (98301 / 2) = 49150 ∧
      quantizeSample (F32.finite (3 / 2)) = none ∧
      quantizeSample (F32.finite (3 / 2)) ≠ some 32767) ∧
    ((1 : ℚ) < 1 + 1 / 32768 ∧
      f32mul (F32.finite (1 + 1 / 32768)) (F32.finite 32767) = F32.finite 32768 ∧
      quantizeSample (F32.finite (1 + 1 / 32768)) = none ∧
      quantizeSample (F32.finite (1 + 1 / 32768)) ≠ some 32767) ∧
    winmm_mixer_iteration 1 (fun _ => F32.finite (3 / 2))
        (WinmmOutputDevice.initialHeaders 0 1)
      = some [⟨[none], 2, 0⟩] := by
  have hm1 : f32mul (F32.finite (3 / 2)) (F32.finite 32767) = F32.finite (98301 / 2) := by
    show roundF32 ((3 / 2 : ℚ) * 32767) = _
    have := roundF32_eval ((3 / 2 : ℚ) * 32767) 15 12582528 (by norm_num) (by norm_num)
      (by norm_num) (by norm_num) (by norm_num) (by norm_num)
    rw [this]
    norm_num
  have ht : truncate (98301 / 2 : ℚ) = 49150 := by
    unfold truncate
    rw [if_pos (by norm_num), Int.floor_eq_iff]
    constructor <;> norm_num
  have hq1 : quantizeSample (F32.finite (3 / 2)) = none := by
    show toShort (f32mul (F32.finite (3 / 2)) (F32.finite 32767)) = none
    rw [hm1]
    exact toShort_of_ge _ (by norm_num)
  have hm2 : f32mul (F32.finite (1 + 1 / 32768)) (F32.finite 32767) = F32.finite 32768 := by
    show roundF32 ((1 + 1 / 32768 : ℚ) * 32767) = _
    have := roundF32_eval ((1 + 1 / 32768 : ℚ) * 32767) 14 16777216 (by norm_num)
      (by norm_num) (by norm_num) (by norm_num) (by norm_num) (by norm_num)
    rw [this]
    norm_num
  have hq2 : quantizeSample (F32.finite (1 + 1 / 32768)) = none := by
    show toShort (f32mul (F32.finite (1 + 1 / 32768)) (F32.finite 32767)) = none
    rw [hm2]
    exact toShort_of_ge _ (by norm_num)
  refine ⟨⟨by norm_num, hm1, ht, hq1, ?_⟩, ⟨by norm_num, hm2, hq2, ?_⟩, ?_⟩
  · rw [hq1]; exact fun h => by cases h
  · rw [hq2]; exact fun h => by cases h
  · simp [winmm_mixer_iteration, WinmmOutputDevice.initialHeaders, firstDone, WHDR_DONE,
      writeStage, updateHeader, fillBuffer, markQueued, forLoop, forLoopAux, hq1,
      List.replicate]

end quantization

section quantization2

/-- A product of at least `32769 - 2^-9` rounds to at least 32769. -/
theorem roundMagnitude_at_next (a : ℚ) (h : 32769 - 1 / 512 ≤ a) :
    32769 ≤ roundMagnitude a := by
  rcases lt_or_le a 32769 with hlt | hge
  · rw [roundMagnitude_binade15 a (by linarith) (by linarith)]
    have hm := succ_le_roundHalfEven_of_odd (a * 256) 8388863 (by decide)
      (by push_cast; linarith)
    have hm' : ((8388863 + 1 : Int) : ℚ) ≤ (roundHalfEven (a * 256) : ℚ) := by
      exact_mod_cast hm
    push_cast at hm'
    rw [le_div_iff₀ (by norm_num)]; linarith
  · have := natCast_le_roundMagnitude a 32769 (by decide) (by norm_num) (by exact_mod_cast hge)
    exact_mod_cast this

theorem toShort_roundF32_of_ge (p : ℚ) (hp : 0 < p) (h : 32768 ≤ roundMagnitude p) :
    toShort (roundF32 p) = none := by
  rw [roundF32_of_pos p hp]
  split_ifs
  · rfl
  · exact toShort_of_ge _ h

theorem toShort_roundF32_of_le (p : ℚ) (hp : p < 0) (h : 32769 ≤ roundMagnitude (-p)) :
    toShort (roundF32 p) = none := by
  rw [roundF32_of_neg p hp]
  split_ifs
  · rfl
  · exact toShort_of_le _ (by linarith)

/-- C16, amended.  `winmm_mixer` applies no clamp; `p` below is the exact
product `x * 32767`, which the code rounds to binary32 before the conversion.
A sample above 1.0 is stored as 32767 exactly while `p < 32768 - 2^-10`, and a
sample below -1.0 as -32767 exactly while `p > -(32768 - 2^-10)`.  From
`32768 - 2^-10` on the product rounds to 32768.0 or more, and from
`-(32769 - 2^-9)` down to -32769.0 or less: outside the 16-bit range, so the
stored value is not defined.  In between, on the negative side, -32768 is
stored.  An infinite sample or a NaN is not defined either. -/
theorem C16_out_of_range_samples_not_clamped (x : ℚ) :
    (1 < x → x * 32767 < 32768 - 1 / 1024 → quantizeSample (F32.finite x) = some 32767) ∧
    (x < -1 → -(32768 - 1 / 1024) < x * 32767 →
      quantizeSample (F32.finite x) = some (-32767)) ∧
    (32768 - 1 / 1024 ≤ x * 32767 → quantizeSample (F32.finite x) = none) ∧
    (-(32769 - 1 / 512) < x * 32767 → x * 32767 ≤ -(32768 - 1 / 1024) →
      quantizeSample (F32.finite x) = some (-32768)) ∧
    (x * 32767 ≤ -(32769 - 1 / 512) → quantizeSample (F32.finite x) = none) ∧
    (∀ s, quantizeSample (F32.inf s) = none) ∧ quantizeSample F32.nan = none := by
  refine ⟨fun h1 h2 => ?_, fun h1 h2 => ?_, fun h => ?_, fun h1 h2 => ?_, fun h => ?_,
    fun s => ?_, rfl⟩
  · have hp : 0 < x * 32767 := by linarith
    obtain ⟨hlo, hhi⟩ := roundMagnitude_below_limit (x * 32767) (by linarith) h2
    rw [quantizeSample_finite, roundF32_of_pos _ hp,
      if_neg (not_le.mpr (lt_trans hhi (by norm_num))), toShort_finite,
      truncate_eq_max _ hlo hhi]
    decide
  · have hp : x * 32767 < 0 := by linarith
    obtain ⟨hlo, hhi⟩ := roundMagnitude_below_limit (-(x * 32767)) (by linarith) (by linarith)
    rw [quantizeSample_finite, roundF32_of_neg _ hp,
      if_neg (not_le.mpr (lt_trans hhi (by norm_num))), toShort_finite,
      truncate_eq_min _ (by linarith) (by linarith)]
    decide
  · rw [quantizeSample_finite]
    exact toShort_roundF32_of_ge _ (by linarith) (roundMagnitude_at_limit _ h)
  · have hp : x * 32767 < 0 := by linarith
    have hlo := roundMagnitude_at_limit (-(x * 32767)) (by linarith)
    have hhi := roundMagnitude_below_next (-(x * 32767)) (by linarith) (by linarith)
    rw [quantizeSample_finite, roundF32_of_neg _ hp,
      if_neg (not_le.mpr (lt_trans hhi (by norm_num))), toShort_finite,
      truncate_eq_lowest _ (by linarith) (by linarith)]
    decide
  · rw [quantizeSample_finite]
    exact toShort_roundF32_of_le _ (by linarith) (roundMagnitude_at_next _ (by linarith))
  · cases s <;> rfl

/-- C16 at four samples: `1 + 2^-16` is written as 32767, `-(1 + 2^-15)` as
-32768, and for `1 + 2^-15` and `-2` the conversion is not defined. -/
theorem C16_out_of_range_samples_not_clamped_witness :
    quantizeSample (F32.finite (1 + 1 / 65536)) = some 32767 ∧
    quantizeSample (F32.finite (1 + 1 / 32768)) = none ∧
    quantizeSample (F32.finite (-(1 + 1 / 32768))) = some (-32768) ∧
    quantizeSample (F32.finite (-2)) = none :=
  ⟨(C16_out_of_range_samples_not_clamped (1 + 1 / 65536)).1 (by norm_num) (by norm_num),
    (C16_out_of_range_samples_not_clamped (1 + 1 / 32768)).2.2.1 (by norm_num),
    (C16_out_of_range_samples_not_clamped (-(1 + 1 / 32768))).2.2.2.1 (by norm_num)
      (by norm_num),
    (C16_out_of_range_samples_not_clamped (-2)).2.2.2.2.1 (by norm_num)⟩

end quantization2

section mixAhead

/-- Rounding is monotone below a binary32 value: what does not exceed a value
that rounding leaves alone rounds to something that does not exceed it. -/
theorem roundF32_le_of_le (q l : ℚ) (hq : 0 < q) (hql : q ≤ l)
    (hl : roundF32 l = F32.finite l) : ∃ r, roundF32 q = F32.finite r ∧ r ≤ l := by
  have hlpos : 0 < l := lt_of_lt_of_le hq hql
  rw [roundF32_of_pos l hlpos] at hl
  have hfin : ¬ (2 : ℚ) ^ (128 : Nat) ≤ roundMagnitude l := by
    intro hc
    rw [if_pos hc] at hl
    cases hl
  rw [if_neg hfin] at hl
  have hrm : roundMagnitude l = l := F32.finite.inj hl
  have hlog : Int.log 2 q ≤ Int.log 2 l := Int.log_mono_right hq hql
  have hE : max (Int.log 2 q) (-126) ≤ max (Int.log 2 l) (-126) := max_le_max hlog le_rfl
  obtain ⟨d, hd⟩ : ∃ d : Nat, max (Int.log 2 l) (-126) - 23
      = (d : Int) + (max (Int.log 2 q) (-126) - 23) :=
    ⟨(max (Int.log 2 l) (-126) - max (Int.log 2 q) (-126)).toNat, by omega⟩
  have hulp : f32ulp l = (2 : ℚ) ^ d * f32ulp q := by
    unfold f32ulp
    rw [hd, zpow_add₀ (by norm_num : (2 : ℚ) ≠ 0), zpow_natCast]
  obtain ⟨M, hM⟩ : ∃ M : Int, l = (M : ℚ) * f32ulp l := ⟨_, hrm.symm⟩
  have hgrid : l = ((M * 2 ^ d : Int) : ℚ) * f32ulp q := by
    push_cast
    rw [mul_assoc, ← hulp]
    exact hM
  have hle := roundMagnitude_le q l _ hql hgrid
  refine ⟨roundMagnitude q, ?_, hle⟩
  rw [roundF32_of_pos q hq, if_neg]
  rw [← hrm] at hle
  exact fun hc => hfin (le_trans hc hle)

/-- An integer below `2^24` converts to binary32 without rounding. -/
theorem roundF32_small_natCast (u : Nat) (hu : u < 2 ^ 24) :
    roundF32 (u : ℚ) = F32.finite (u : ℚ) := by
  rcases Nat.eq_zero_or_pos u with h0 | hpos
  · subst h0; simpa using roundF32_zero
  · have hu' : u < 16777216 := by omega
    exact roundF32_natCast u hpos (by norm_num; exact_mod_cast hu')

/-- More fuel does not change a result the mix-ahead loop has reached. -/
theorem mixAheadLoop_fuel_succ (blockSize sr : Nat) (L : F32) (n : Nat) :
    ∀ (fuel a : Nat), mixAheadLoop blockSize sr L fuel a = some n →
      mixAheadLoop blockSize sr L (fuel + 1) a = some n := by
  intro fuel
  induction fuel with
  | zero => intro a h; simp [mixAheadLoop] at h
  | succ f ih =>
    intro a h
    rw [mixAheadLoop] at h ⊢
    by_cases hc : f32le (mixAheadQuotient blockSize sr a) L = true
    · rw [if_pos hc] at h ⊢
      exact ih _ h
    · rw [if_neg hc] at h ⊢
      exact h

/-- The loop started at `a ≤ n` stops at the first `n` whose binary32
quotient exceeds the latency. -/
theorem mixAheadLoop_reaches (blockSize sr : Nat) (L : F32) (n : Nat) (hfit : n < 2 ^ 32)
    (hn : f32le (mixAheadQuotient blockSize sr n) L = false)
    (hmin : ∀ m, m < n → f32le (mixAheadQuotient blockSize sr m) L = true) :
    ∀ (d a fuel : Nat), a + d = n → d < fuel →
      mixAheadLoop blockSize sr L fuel a = some n := by
  intro d
  induction d with
  | zero =>
    intro a fuel ha hf
    have han : a = n := by omega
    subst han
    obtain ⟨f, rfl⟩ : ∃ f, fuel = f + 1 := ⟨fuel - 1, by omega⟩
    rw [mixAheadLoop, hn]
    simp
  | succ d ih =>
    intro a fuel ha hf
    obtain ⟨f, rfl⟩ : ∃ f, fuel = f + 1 := ⟨fuel - 1, by omega⟩
    have hlt : a < n := by omega
    have h2 : (a + 1) % 2 ^ 32 = a + 1 := Nat.mod_eq_of_lt (by omega)
    rw [mixAheadLoop, hmin a hlt, h2, if_pos rfl]
    exact ih (a + 1) f (by omega) (by omega)

end mixAhead

section mixAheadClaims

theorem f32div_finite (a b : ℚ) (hb : b ≠ 0) :
    f32div (F32.finite a) (F32.finite b) = roundF32 (a / b) := by
  simp [f32div, hb]

/-- While the product and the sample rate convert to binary32 without
rounding, a block count whose exact duration does not exceed a binary32
latency does not stop the loop. -/
theorem mixAheadQuotient_le_of_exact_le (blockSize sr m : Nat) (l : ℚ)
    (hl : roundF32 l = F32.finite l) (hs1 : 1 ≤ sr) (hs : sr < 2 ^ 24)
    (hm : m * blockSize < 2 ^ 24) (hle : ((m * blockSize : Nat) : ℚ) / (sr : ℚ) ≤ l) :
    f32le (mixAheadQuotient blockSize sr m) (F32.finite l) = true := by
  have hmod : m * blockSize % 2 ^ 32 = m * blockSize := Nat.mod_eq_of_lt (by omega)
  have hsq : (0 : ℚ) < (sr : ℚ) := by exact_mod_cast hs1
  unfold mixAheadQuotient
  rw [hmod, roundF32_small_natCast _ hm, roundF32_small_natCast _ hs,
    f32div_finite _ _ (ne_of_gt hsq)]
  have hnn : (0 : ℚ) ≤ ((m * blockSize : Nat) : ℚ) / (sr : ℚ) :=
    div_nonneg (Nat.cast_nonneg _) (le_of_lt hsq)
  rcases eq_or_lt_of_le hnn with h0 | hpos
  · rw [← h0, roundF32_zero]
    simp only [f32le, decide_eq_true_eq]
    rw [h0]; exact hle
  · obtain ⟨r, hr, hrl⟩ := roundF32_le_of_le _ l hpos hle hl
    rw [hr]
    simp only [f32le, decide_eq_true_eq]
    exact hrl

/-- Rounding to nearest loses at most one half. -/
theorem sub_half_le_roundHalfEven (r : ℚ) : r - 1 / 2 ≤ (roundHalfEven r : ℚ) := by
  unfold roundHalfEven
  have hfl : r < ((Int.floor r : Int) : ℚ) + 1 := Int.lt_floor_add_one r
  by_cases h1 : r - (Int.floor r : ℚ) < 1 / 2
  · rw [if_pos h1]; linarith
  · rw [if_neg h1]
    by_cases h2 : 1 / 2 < r - (Int.floor r : ℚ)
    · rw [if_pos h2]; push_cast; linarith
    · rw [if_neg h2]
      have heq : r - (Int.floor r : ℚ) = 1 / 2 := le_antisymm (not_lt.mp h2) (not_lt.mp h1)
      split_ifs
      · linarith
      · push_cast; linarith

/-- A normal value loses at most the fraction `2^-24` of itself to rounding. -/
theorem roundMagnitude_ge_of_normal (q : ℚ) (hq : (2 : ℚ) ^ (-126 : Int) ≤ q) :
    q - q / 2 ^ (24 : Nat) ≤ roundMagnitude q := by
  have hpos : 0 < q := lt_of_lt_of_le (zpow_pos (by norm_num) _) hq
  have hlog : (-126 : Int) ≤ Int.log 2 q :=
    (Int.zpow_le_iff_le_log (by norm_num) hpos).mp (by exact_mod_cast hq)
  have hbase : (2 : ℚ) ^ (Int.log 2 q) ≤ q := by
    have := Int.zpow_log_le_self (b := 2) (r := q) (by norm_num) hpos
    exact_mod_cast this
  have hu : f32ulp q = (2 : ℚ) ^ (Int.log 2 q) / 2 ^ (23 : Nat) := by
    unfold f32ulp
    rw [max_eq_left hlog, zpow_sub₀ (by norm_num : (2 : ℚ) ≠ 0)]
    norm_num
  have hupos := f32ulp_pos q
  have hule : f32ulp q ≤ q / 2 ^ (23 : Nat) := by
    rw [hu]
    exact div_le_div_of_nonneg_right hbase (by norm_num)
  have hr := sub_half_le_roundHalfEven (q / f32ulp q)
  have hmul : (q / f32ulp q - 1 / 2) * f32ulp q ≤ (roundHalfEven (q / f32ulp q) : ℚ) * f32ulp q :=
    mul_le_mul_of_nonneg_right hr (le_of_lt hupos)
  have hexp : (q / f32ulp q - 1 / 2) * f32ulp q = q - f32ulp q / 2 := by
    field_simp
    ring
  unfold roundMagnitude
  rw [hexp] at hmul
  have h24 : q / 2 ^ (24 : Nat) = q / 2 ^ (23 : Nat) / 2 := by
    norm_num
    ring
  rw [h24]
  linarith

/-- While the products and the sample rate convert to binary32 without
rounding, the loop stops at the latest one count after the exact duration has
passed the latency. -/
theorem mixAheadQuotient_gt_of_exact_gt (blockSize sr n : Nat) (l : ℚ)
    (hb1 : 1 ≤ blockSize) (hs1 : 1 ≤ sr) (hs : sr < 2 ^ 24)
    (hm : (n + 1) * blockSize < 2 ^ 24)
    (hgt : l < ((n * blockSize : Nat) : ℚ) / (sr : ℚ)) :
    f32le (mixAheadQuotient blockSize sr (n + 1)) (F32.finite l) = false := by
  have hmod : (n + 1) * blockSize % 2 ^ 32 = (n + 1) * blockSize := Nat.mod_eq_of_lt (by omega)
  have hsq : (0 : ℚ) < (sr : ℚ) := by exact_mod_cast hs1
  have hbq : (1 : ℚ) ≤ (blockSize : ℚ) := by exact_mod_cast hb1
  have hn1 : n + 1 ≤ (n + 1) * blockSize := Nat.le_mul_of_pos_right _ hb1
  have hnq : ((n : ℚ) + 1) ≤ 2 ^ (24 : Nat) := by
    have : n + 1 ≤ 2 ^ 24 := by omega
    exact_mod_cast this
  have hsr24 : (sr : ℚ) ≤ 2 ^ (24 : Nat) := by
    have : sr ≤ 2 ^ 24 := by omega
    exact_mod_cast this
  unfold mixAheadQuotient
  rw [hmod, roundF32_small_natCast _ hm, roundF32_small_natCast _ hs,
    f32div_finite _ _ (ne_of_gt hsq)]
  have hcast : (((n + 1) * blockSize : Nat) : ℚ) = ((n : ℚ) + 1) * (blockSize : ℚ) := by
    push_cast; ring
  have hcast2 : ((n * blockSize : Nat) : ℚ) = (n : ℚ) * (blockSize : ℚ) := by push_cast; ring
  rw [hcast]
  rw [hcast2] at hgt
  have hstep : (0 : ℚ) < (blockSize : ℚ) / (sr : ℚ) := div_pos (by linarith) hsq
  have hqpos : (0 : ℚ) < ((n : ℚ) + 1) * (blockSize : ℚ) / (sr : ℚ) := by
    apply div_pos _ hsq
    have : (0 : ℚ) ≤ (n : ℚ) := Nat.cast_nonneg n
    nlinarith
  have hnormal : (2 : ℚ) ^ (-126 : Int) ≤ ((n : ℚ) + 1) * (blockSize : ℚ) / (sr : ℚ) := by
    have h1 : (1 : ℚ) / 2 ^ (24 : Nat) ≤ ((n : ℚ) + 1) * (blockSize : ℚ) / (sr : ℚ) := by
      rw [div_le_div_iff₀ (by norm_num) hsq]
      have : (0 : ℚ) ≤ (n : ℚ) := Nat.cast_nonneg n
      nlinarith
    have h2 : (2 : ℚ) ^ (-126 : Int) ≤ (1 : ℚ) / 2 ^ (24 : Nat) := by
      rw [zpow_neg]
      norm_num
    exact le_trans h2 h1
  have hrm := roundMagnitude_ge_of_normal _ hnormal
  have hkey : l < roundMagnitude (((n : ℚ) + 1) * (blockSize : ℚ) / (sr : ℚ)) := by
    have hexact : (n : ℚ) * (blockSize : ℚ) / (sr : ℚ)
        ≤ ((n : ℚ) + 1) * (blockSize : ℚ) / (sr : ℚ)
          - ((n : ℚ) + 1) * (blockSize : ℚ) / (sr : ℚ) / 2 ^ (24 : Nat) := by
      have e1 : ((n : ℚ) + 1) * (blockSize : ℚ) / (sr : ℚ)
          - ((n : ℚ) + 1) * (blockSize : ℚ) / (sr : ℚ) / 2 ^ (24 : Nat)
          - (n : ℚ) * (blockSize : ℚ) / (sr : ℚ)
          = (blockSize : ℚ) / (sr : ℚ) * (1 - ((n : ℚ) + 1) / 2 ^ (24 : Nat)) := by
        field_simp
        ring
      have e2 : (0 : ℚ) ≤ 1 - ((n : ℚ) + 1) / 2 ^ (24 : Nat) := by
        rw [sub_nonneg, div_le_one (by norm_num)]
        exact hnq
      have e3 := mul_nonneg (le_of_lt hstep) e2
      linarith
    linarith
  rw [roundF32_of_pos _ hqpos]
  split_ifs
  · rfl
  · simp only [f32le, decide_eq_false_iff_not, not_le]
    exact hkey

/-- The value `0.01f`. -/
theorem roundF32_one_hundredth :
    roundF32 (1 / 100) = F32.finite (5368709 / 536870912) := by
  have := roundF32_eval (1 / 100) (-7) 10737418 (by norm_num) (by norm_num) (by norm_num)
    (by norm_num) (by norm_num) (by norm_num)
  rw [this]
  norm_num

/-- The value `0.02f`. -/
theorem roundF32_one_fiftieth :
    roundF32 (1 / 50) = F32.finite (5368709 / 268435456) := by
  have := roundF32_eval (1 / 50) (-6) 10737418 (by norm_num) (by norm_num) (by norm_num)
    (by norm_num) (by norm_num) (by norm_num)
  rw [this]
  norm_num

/-- C9, the claim as stated fails, in two ways.  Rounding: for
`blockSize = 441`, `sampleRate = 44100` and `startLatency = 0.01f` one block
lasts 0.01 s, more than the latency, but the binary32 quotient `441/44100`
rounds to `0.01f` itself, the test `<=` holds and `createDevice` computes 2.
Wrapping: for `blockSize = 2684354560`, `sampleRate = 1` and
`startLatency = 3000000000` two blocks already last longer than the latency,
but `2 * blockSize` wraps in `unsigned int` to `1073741824` and `createDevice`
computes 3. -/
theorem C9_mixAhead_not_least_counterexample :
    ((1 ≤ 441 ∧ 1 ≤ 44100 ∧ (0 : ℚ) ≤ 5368709 / 536870912) ∧
      roundF32 (1 / 100) = F32.finite (5368709 / 536870912) ∧
      createDevice_mixAhead 441 44100 (F32.finite (5368709 / 536870912)) 3 = some 2 ∧
      (5368709 / 536870912 : ℚ) < ((1 : Nat) : ℚ) * ((441 : Nat) : ℚ) / ((44100 : Nat) : ℚ)) ∧
    ((1 ≤ 2684354560 ∧ 2684354560 < 2 ^ 32 ∧ 1 ≤ 1 ∧ (0 : ℚ) ≤ 3000000000) ∧
      roundF32 3000000000 = F32.finite 3000000000 ∧
      createDevice_mixAhead 2684354560 1 (F32.finite 3000000000) 4 = some 3 ∧
      (3000000000 : ℚ) < ((2 : Nat) : ℚ) * ((2684354560 : Nat) : ℚ) / ((1 : Nat) : ℚ)) := by
  have r441 : roundF32 (441 : ℚ) = F32.finite 441 := by
    simpa using roundF32_small_natCast 441 (by norm_num)
  have r882 : roundF32 (882 : ℚ) = F32.finite 882 := by
    simpa using roundF32_small_natCast 882 (by norm_num)
  have r44100 : roundF32 (44100 : ℚ) = F32.finite 44100 := by
    simpa using roundF32_small_natCast 44100 (by norm_num)
  have r1 : roundF32 (1 : ℚ) = F32.finite 1 := by
    simpa using roundF32_small_natCast 1 (by norm_num)
  have q0 : mixAheadQuotient 441 44100 0 = F32.finite 0 := by
    unfold mixAheadQuotient
    norm_num [roundF32_zero, r44100, f32div_finite]
  have q1 : mixAheadQuotient 441 44100 1 = F32.finite (5368709 / 536870912) := by
    unfold mixAheadQuotient
    norm_num [r441, r44100, f32div_finite]
    exact roundF32_one_hundredth
  have q2 : mixAheadQuotient 441 44100 2 = F32.finite (5368709 / 268435456) := by
    unfold mixAheadQuotient
    norm_num [r882, r44100, f32div_finite]
    exact roundF32_one_fiftieth
  have hA : createDevice_mixAhead 441 44100 (F32.finite (5368709 / 536870912)) 3 = some 2 := by
    refine mixAheadLoop_reaches 441 44100 _ 2 (by norm_num) ?_ ?_ 2 0 3 (by norm_num)
      (by norm_num)
    · rw [q2]; simp only [f32le]; norm_num
    · intro m hm
      interval_cases m
      · rw [q0]; simp only [f32le]; norm_num
      · rw [q1]; simp only [f32le]; norm_num
  have b1 : roundF32 (2684354560 : ℚ) = F32.finite 2684354560 := by
    have := roundF32_eval 2684354560 31 10485760 (by norm_num) (by norm_num) (by norm_num)
      (by norm_num) (by norm_num) (by norm_num)
    rw [this]; norm_num
  have b2 : roundF32 (1073741824 : ℚ) = F32.finite 1073741824 := by
    have := roundF32_eval 1073741824 30 8388608 (by norm_num) (by norm_num) (by norm_num)
      (by norm_num) (by norm_num) (by norm_num)
    rw [this]; norm_num
  have b3 : roundF32 (3758096384 : ℚ) = F32.finite 3758096384 := by
    have := roundF32_eval 3758096384 31 14680064 (by norm_num) (by norm_num) (by norm_num)
      (by norm_num) (by norm_num) (by norm_num)
    rw [this]; norm_num
  have bL : roundF32 (3000000000 : ℚ) = F32.finite 3000000000 := by
    have := roundF32_eval 3000000000 31 11718750 (by norm_num) (by norm_num) (by norm_num)
      (by norm_num) (by norm_num) (by norm_num)
    rw [this]; norm_num
  have w0 : mixAheadQuotient 2684354560 1 0 = F32.finite 0 := by
    unfold mixAheadQuotient
    norm_num [roundF32_zero, r1, f32div_finite]
  have w1 : mixAheadQuotient 2684354560 1 1 = F32.finite 2684354560 := by
    unfold mixAheadQuotient
    norm_num [b1, r1, f32div_finite]
  have w2 : mixAheadQuotient 2684354560 1 2 = F32.finite 1073741824 := by
    unfold mixAheadQuotient
    norm_num [b2, r1, f32div_finite]
  have w3 : mixAheadQuotient 2684354560 1 3 = F32.finite 3758096384 := by
    unfold mixAheadQuotient
    norm_num [b3, r1, f32div_finite]
  have hB : createDevice_mixAhead 2684354560 1 (F32.finite 3000000000) 4 = some 3 := by
    refine mixAheadLoop_reaches 2684354560 1 _ 3 (by norm_num) ?_ ?_ 3 0 4 (by norm_num)
      (by norm_num)
    · rw [w3]; simp only [f32le]; norm_num
    · intro m hm
      interval_cases m
      · rw [w0]; simp only [f32le]; norm_num
      · rw [w1]; simp only [f32le]; norm_num
      · rw [w2]; simp only [f32le]; norm_num
  exact ⟨⟨⟨by norm_num, by norm_num, by norm_num⟩, roundF32_one_hundredth, hA, by norm_num⟩,
    ⟨⟨by norm_num, by norm_num, by norm_num, by norm_num⟩, bL, hB, by norm_num⟩⟩

/-- C9, amended.  `createDevice` computes the smallest `n` whose quotient as
the code forms it, `(float)(n*blockSize mod 2^32) / (float)sampleRate` in
binary32, exceeds `startLatency`: if the test `<=` fails at `n < 2^32` and
holds at every smaller count, the loop stops, with mix-ahead `n`.  While the
product and the sample rate are below `2^24`, so that they convert without
rounding, the loop does not stop at a count whose exact duration
`n*blockSize/sampleRate` is at most a binary32 latency: the result is never
less than the exact least count.  And it is at most one more: if `n` is the
least count with `n*blockSize/sampleRate > startLatency` in exact arithmetic
and `(n+1)*blockSize` is below `2^24`, the mix-ahead is `n` or `n + 1`. -/
theorem C9_mixAhead_is_least_block_count (blockSize sr : Nat) (L : F32) :
    (∀ n : Nat, n < 2 ^ 32 →
      f32le (mixAheadQuotient blockSize sr n) L = false →
      (∀ m : Nat, m < n → f32le (mixAheadQuotient blockSize sr m) L = true) →
      ∀ fuel, n < fuel → createDevice_mixAhead blockSize sr L fuel = some n) ∧
    (∀ (m : Nat) (l : ℚ), L = F32.finite l → roundF32 l = F32.finite l →
      1 ≤ sr → sr < 2 ^ 24 → m * blockSize < 2 ^ 24 →
      ((m * blockSize : Nat) : ℚ) / (sr : ℚ) ≤ l →
      f32le (mixAheadQuotient blockSize sr m) L = true) ∧
    (∀ (n : Nat) (l : ℚ), L = F32.finite l → roundF32 l = F32.finite l →
      1 ≤ blockSize → 1 ≤ sr → sr < 2 ^ 24 → (n + 1) * blockSize < 2 ^ 24 →
      l < ((n * blockSize : Nat) : ℚ) / (sr : ℚ) →
      (∀ m : Nat, m < n → ((m * blockSize : Nat) : ℚ) / (sr : ℚ) ≤ l) →
      ∀ fuel, n + 1 < fuel →
        createDevice_mixAhead blockSize sr L fuel = some n ∨
        createDevice_mixAhead blockSize sr L fuel = some (n + 1)) := by
  refine ⟨fun n hfit hn hmin fuel hf => ?_, fun m l hL hl hs1 hs hm hle => ?_,
    fun n l hL hl hb1 hs1 hs hm hgt hmin fuel hf => ?_⟩
  · exact mixAheadLoop_reaches blockSize sr L n hfit hn hmin n 0 fuel (by omega) hf
  · rw [hL]
    exact mixAheadQuotient_le_of_exact_le blockSize sr m l hl hs1 hs hm hle
  · have hn1 : n + 1 ≤ (n + 1) * blockSize := Nat.le_mul_of_pos_right _ hb1
    have hbelow : ∀ m : Nat, m < n → f32le (mixAheadQuotient blockSize sr m) L = true := by
      intro m hmn
      rw [hL]
      have hmb : m * blockSize ≤ (n + 1) * blockSize :=
        Nat.mul_le_mul_right _ (by omega)
      exact mixAheadQuotient_le_of_exact_le blockSize sr m l hl hs1 hs (by omega) (hmin m hmn)
    cases hcase : f32le (mixAheadQuotient blockSize sr n) L with
    | false =>
      left
      exact mixAheadLoop_reaches blockSize sr L n (by omega) hcase hbelow n 0 fuel (by omega)
        (by omega)
    | true =>
      right
      have hstop : f32le (mixAheadQuotient blockSize sr (n + 1)) L = false := by
        rw [hL]
        exact mixAheadQuotient_gt_of_exact_gt blockSize sr n l hb1 hs1 hs hm hgt
      refine mixAheadLoop_reaches blockSize sr L (n + 1) (by omega) hstop ?_ (n + 1) 0 fuel
        (by omega) hf
      intro m hmn
      rcases Nat.lt_succ_iff_lt_or_eq.mp hmn with h | h
      · exact hbelow m h
      · rw [h]; exact hcase

/-- C9 at `blockSize = 256`, `sampleRate = 44100`, `startLatency = 0.02f`: the
mix-ahead is 4. -/
theorem C9_mixAhead_is_least_block_count_witness :
    roundF32 (1 / 50) = F32.finite (5368709 / 268435456) ∧
    ∀ fuel, 4 < fuel →
      createDevice_mixAhead 256 44100 (F32.finite (5368709 / 268435456)) fuel = some 4 := by
  have hthm := C9_mixAhead_is_least_block_count 256 44100 (F32.finite (5368709 / 268435456))
  have hL : roundF32 (5368709 / 268435456) = F32.finite (5368709 / 268435456) := by
    have := roundF32_eval (5368709 / 268435456) (-6) 10737418 (by norm_num) (by norm_num)
      (by norm_num) (by norm_num) (by norm_num) (by norm_num)
    rw [this]; norm_num
  have r1024 : roundF32 (1024 : ℚ) = F32.finite 1024 := by
    simpa using roundF32_small_natCast 1024 (by norm_num)
  have r44100 : roundF32 (44100 : ℚ) = F32.finite 44100 := by
    simpa using roundF32_small_natCast 44100 (by norm_num)
  have q4 : mixAheadQuotient 256 44100 4 = F32.finite (6233059 / 268435456) := by
    unfold mixAheadQuotient
    norm_num [r1024, r44100, f32div_finite]
    have := roundF32_eval (256 / 11025) (-6) 12466118 (by norm_num) (by norm_num)
      (by norm_num) (by norm_num) (by norm_num) (by norm_num)
    rw [this]; norm_num
  refine ⟨roundF32_one_fiftieth, fun fuel hf => hthm.1 4 (by norm_num) ?_ ?_ fuel hf⟩
  · rw [q4]; simp only [f32le]; norm_num
  · intro m hm
    refine hthm.2.1 m _ rfl hL (by norm_num) (by norm_num) (by omega) ?_
    interval_cases m <;> norm_num

end mixAheadClaims

/-! ## Stopping -/

section stopping

/-- C17.  A second call of `stop` leaves the state the first call produced and
performs neither the flag write nor the join, only the log line; the same holds
for the destructor run after an explicit `stop`. -/
theorem C17_stop_idempotent (s : ThreadState) :
    (WinmmOutputDevice.stop (WinmmOutputDevice.stop s).1).1 = (WinmmOutputDevice.stop s).1 ∧
    (WinmmOutputDevice.stop (WinmmOutputDevice.stop s).1).2 = [StopAction.logInfo] ∧
    (WinmmOutputDevice.destructor (WinmmOutputDevice.stop s).1).1
      = (WinmmOutputDevice.stop s).1 ∧
    (WinmmOutputDevice.destructor (WinmmOutputDevice.stop s).1).2 = [StopAction.logInfo] ∧
    (WinmmOutputDevice.stop s).1.joinable = false := by
  obtain ⟨j, f⟩ := s
  cases j <;> simp [WinmmOutputDevice.stop, WinmmOutputDevice.destructor]

end stopping

/-! ## The device factory -/

section factory

/-- The three lists `scan` builds: entry `i` comes from the probe of device `i`. -/
theorem scan_lists (P : Platform) (n : Nat) :
    forLoop 0 n (fun i (st : List Int × List String × List Nat) =>
        (st.1 ++ [((getWinmmCapabilities P i).channels : Int)],
          st.2.1 ++ [(getWinmmCapabilities P i).name],
          st.2.2 ++ [(getWinmmCapabilities P i).sr])) ([], [], [])
      = ((List.range n).map (fun i => ((getWinmmCapabilities P i).channels : Int)),
          (List.range n).map (fun i => (getWinmmCapabilities P i).name),
          (List.range n).map (fun i => (getWinmmCapabilities P i).sr)) := by
  refine forLoop_inv (fun m (st : List Int × List String × List Nat) => st
      = ((List.range m).map (fun i => ((getWinmmCapabilities P i).channels : Int)),
          (List.range m).map (fun i => (getWinmmCapabilities P i).name),
          (List.range m).map (fun i => (getWinmmCapabilities P i).sr)))
    0 n _ _ (Nat.zero_le n) rfl ?_
  intro j t _ _ ht
  subst ht
  simp [List.range_succ]

theorem scan_eq (P : Platform) (self : WinmmOutputDeviceFactory) :
    WinmmOutputDeviceFactory.scan P self
      = ({ names := (List.range P.waveOutGetNumDevs).map
              (fun i => (getWinmmCapabilities P i).name),
           max_channels := (List.range P.waveOutGetNumDevs).map
              (fun i => ((getWinmmCapabilities P i).channels : Int)),
           srs := (List.range P.waveOutGetNumDevs).map
              (fun i => (getWinmmCapabilities P i).sr),
           mapper_max_channels := (getWinmmCapabilities P WAVE_MAPPER).channels,
           mapper_sr := (getWinmmCapabilities P WAVE_MAPPER).sr }, true) := by
  unfold WinmmOutputDeviceFactory.scan
  simp only [scan_lists]

/-- C18.  After `scan` the three descriptor lists have one entry per device
the platform reported, which is what `getOutputCount` returns; entry `i` of
each is what the probe of device `i` found; and the result does not depend on
what the factory held before. -/
theorem C18_scan_lists_parallel (P : Platform) (self : WinmmOutputDeviceFactory) :
    (WinmmOutputDeviceFactory.scan P self).1.getOutputCount = P.waveOutGetNumDevs ∧
    (WinmmOutputDeviceFactory.scan P self).1.getOutputNames.length = P.waveOutGetNumDevs ∧
    (WinmmOutputDeviceFactory.scan P self).1.getOutputMaxChannels.length
      = P.waveOutGetNumDevs ∧
    (WinmmOutputDeviceFactory.scan P self).1.srs.length = P.waveOutGetNumDevs ∧
    (∀ i, i < P.waveOutGetNumDevs →
      (WinmmOutputDeviceFactory.scan P self).1.getOutputNames[i]?
        = some (getWinmmCapabilities P i).name ∧
      (WinmmOutputDeviceFactory.scan P self).1.getOutputMaxChannels[i]?
        = some ((getWinmmCapabilities P i).channels : Int) ∧
      (WinmmOutputDeviceFactory.scan P self).1.srs[i]?
        = some (getWinmmCapabilities P i).sr) ∧
    (∀ other : WinmmOutputDeviceFactory,
      WinmmOutputDeviceFactory.scan P other = WinmmOutputDeviceFactory.scan P self) := by
  rw [scan_eq]
  refine ⟨by simp [WinmmOutputDeviceFactory.getOutputCount],
    by simp [WinmmOutputDeviceFactory.getOutputNames],
    by simp [WinmmOutputDeviceFactory.getOutputMaxChannels], by simp, ?_, ?_⟩
  · intro i hi
    simp [WinmmOutputDeviceFactory.getOutputNames,
      WinmmOutputDeviceFactory.getOutputMaxChannels, List.getElem?_range hi]
  · intro other
    rw [scan_eq]

end factory

/-! ## Agreement of the two remix entry points -/

section agreement

/-- C19.  For at least one input channel, `remixAudioUnInterleaved` run on the
planar form of an interleaved input produces, in channel `c` at frame `i`,
exactly the sample `remixAudioInterleaved` produces at offset
`i * outputChannels + c`, on the matrix, mono and fallback paths alike. -/
theorem C19_entry_points_agree {R : Type} [CommSemiring R] (M : MixingMatrices R)
    (frames inputChannels outputChannels : Nat) (input output : Buffer R)
    (outputs : Planar R) (hpos : 1 ≤ inputChannels) (i c : Nat) (hi : i < frames)
    (hc : c < outputChannels) :
    remixAudioUnInterleaved M frames inputChannels (deinterleave inputChannels input)
        outputChannels outputs c i
      = remixAudioInterleaved M frames inputChannels input outputChannels output
          (i * outputChannels + c) := by
  obtain ⟨h3, h4, h5⟩ := interleaved_index outputChannels i c frames hi hc
  by_cases hk : (inputChannels, outputChannels) ∈ knownPairs
  · obtain ⟨m, hm⟩ := forPair_isSome_of_mem M _ _ hk
    rw [remixAudioUnInterleaved_known M frames _ _ _ outputs m hm,
      remixAudioInterleaved_known M frames _ _ input output m hm,
      applyMixingMatrixUninterleaved_apply, if_pos ⟨hc, hi⟩,
      applyMixingMatrixInterleaved_apply _ _ _ _ _ _ (by omega), if_pos h3, h4, h5]
    exact Finset.sum_congr rfl (fun col _ => by simp only [deinterleave]; ring)
  · by_cases h1 : inputChannels = 1
    · subst h1
      rw [remixAudioUnInterleaved_mono M frames _ _ outputs hk,
        remixAudioInterleaved_mono M frames _ input output hk,
        upmixMonoUninterleaved_apply, if_pos ⟨hc, hi⟩, upmixMonoInterleaved_apply,
        if_pos h3, h4]
      simp [deinterleave]
    · rw [remixAudioUnInterleaved_fallback M frames _ _ _ outputs h1 hk,
        remixAudioInterleaved_fallback M frames _ _ input output h1 hk,
        mixUnrecognizedUninterleaved_apply, if_pos ⟨hc, hi⟩,
        mixUnrecognizedInterleaved_apply _ _ _ _ _ (by omega), if_pos h3, h4, h5]
      rfl

end agreement

/-! ## `makeFormat` -/

section formats

/-- The constructor consults the platform only on formats `makeFormat` built
for 2, 6 or 8 channels. -/
theorem openExtendedLoop_congr (w1 w2 : WAVEFORMATEXTENSIBLE → Bool)
    (needed maxChannels targetSr : Nat) :
    ∀ (l : List Nat),
      (∀ c, c ∈ l → w1 (makeFormat c targetSr true) = w2 (makeFormat c targetSr true)) →
      openExtendedLoop w1 needed maxChannels targetSr l
        = openExtendedLoop w2 needed maxChannels targetSr l := by
  intro l
  induction l with
  | nil => intro _; rfl
  | cons x rest ih =>
    intro h
    have hrest := ih (fun c hc => h c (List.mem_cons_of_mem _ hc))
    rw [openExtendedLoop, openExtendedLoop, hrest, h x (List.mem_cons_self _ _)]

theorem probeRates_congr (q1 q2 : WAVEFORMATEXTENSIBLE → Bool) (c : Nat) :
    ∀ (srs : List Nat),
      (∀ sr, q1 (makeFormat c sr true) = q2 (makeFormat c sr true)) →
      probeRates q1 c srs = probeRates q2 c srs := by
  intro srs h
  induction srs with
  | nil => rfl
  | cons sr rest ih => rw [probeRates, probeRates, ih, h sr]

theorem probeChannels_congr (q1 q2 : WAVEFORMATEXTENSIBLE → Bool) (srs : List Nat) :
    ∀ (cs : List Nat),
      (∀ c, c ∈ cs → ∀ sr, q1 (makeFormat c sr true) = q2 (makeFormat c sr true)) →
      probeChannels q1 srs cs = probeChannels q2 srs cs := by
  intro cs
  induction cs with
  | nil => intro _; rfl
  | cons c rest ih =>
    intro h
    rw [probeChannels, probeChannels, ih (fun c hc => h c (List.mem_cons_of_mem _ hc)),
      probeRates_congr q1 q2 c srs (h c (List.mem_cons_self _ _))]

/-- C20.  For 2, 6 and 8 channels the index into the nine-entry `chanmasks`
table is in bounds, the mask read has exactly `channels` bits set,
`nBlockAlign` is `2 * channels` and `nAvgBytesPerSec` is `nBlockAlign * sr` as
a `DWORD` (exactly that product whenever it is below `2^32`).  The constructor
and `getWinmmCapabilities` pass `makeFormat` only 2, 6 or 8 channels: their
results depend on the platform's verdict for such formats alone. -/
theorem C20_makeFormat_mask_in_bounds (channels sr : Nat) (isExtended : Bool)
    (hc : channels ∈ [2, 6, 8]) :
    (chanmasks.length = 9 ∧ channels < chanmasks.length ∧
      ∃ mask, (makeFormat channels sr isExtended).dwChannelMask = some mask ∧
        popCount mask = channels) ∧
    (makeFormat channels sr isExtended).nBlockAlign = 2 * channels ∧
    (makeFormat channels sr isExtended).nAvgBytesPerSec
      = (makeFormat channels sr isExtended).nBlockAlign * sr % 2 ^ 32 ∧
    ((makeFormat channels sr isExtended).nBlockAlign * sr < 2 ^ 32 →
      (makeFormat channels sr isExtended).nAvgBytesPerSec
        = (makeFormat channels sr isExtended).nBlockAlign * sr) ∧
    (∀ (w1 w2 : WAVEFORMATEXTENSIBLE → Bool) (ev : Bool) (req maxChannels targetSr : Nat),
      (∀ c, c ∈ [2, 6, 8] → ∀ e, w1 (makeFormat c targetSr e) = w2 (makeFormat c targetSr e)) →
      WinmmOutputDevice.WinmmOutputDevice ev w1 req maxChannels targetSr
        = WinmmOutputDevice.WinmmOutputDevice ev w2 req maxChannels targetSr) ∧
    (∀ (P1 P2 : Platform) (index : Nat), P1.szPname index = P2.szPname index →
      (∀ c, c ∈ [2, 6, 8] → ∀ r,
        P1.waveOutOpenQuery index (makeFormat c r true)
          = P2.waveOutOpenQuery index (makeFormat c r true)) →
      getWinmmCapabilities P1 index = getWinmmCapabilities P2 index) := by
  have h3 : channels = 2 ∨ channels = 6 ∨ channels = 8 := by simpa using hc
  refine ⟨?_, ?_, ?_, ?_, ?_, ?_⟩
  · rcases h3 with rfl | rfl | rfl
    · exact ⟨rfl, by decide, _, rfl, by decide⟩
    · exact ⟨rfl, by decide, _, rfl, by decide⟩
    · exact ⟨rfl, by decide, _, rfl, by decide⟩
  · rcases h3 with rfl | rfl | rfl <;> rfl
  · have hb : (makeFormat channels sr isExtended).nBlockAlign = channels * 2 := by
      rcases h3 with rfl | rfl | rfl <;> rfl
    rw [hb]
    rfl
  · intro hlt
    have hb : (makeFormat channels sr isExtended).nBlockAlign = channels * 2 := by
      rcases h3 with rfl | rfl | rfl <;> rfl
    rw [hb] at hlt ⊢
    exact Nat.mod_eq_of_lt hlt
  · intro w1 w2 ev req maxChannels targetSr hagree
    have hloop := openExtendedLoop_congr w1 w2 (if req < 2 then 2 else req) maxChannels
      targetSr [8, 6, 2] (fun c hmem => hagree c (by
        have : c = 8 ∨ c = 6 ∨ c = 2 := by simpa using hmem
        rcases this with rfl | rfl | rfl <;> simp) true)
    unfold WinmmOutputDevice.WinmmOutputDevice
    simp only [hloop, hagree 2 (by simp) false]
  · intro P1 P2 index hname hagree
    have hloop := probeChannels_congr (P1.waveOutOpenQuery index) (P2.waveOutOpenQuery index)
      [48000, 44100, 22050] [8, 6, 2] (fun c hmem r => hagree c (by
        have : c = 8 ∨ c = 6 ∨ c = 2 := by simpa using hmem
        rcases this with rfl | rfl | rfl <;> simp) r)
    unfold getWinmmCapabilities
    rw [hloop, hname]

end formats

/-! ## Concrete runs of the backend -/

section witnesses2

/-- C12 on a ring of two headers after one pass of the mixing thread: one
header is queued, within the ring size of two. -/
theorem C12_queued_at_most_ring_size_witness :
    RingReachable 1 1 [⟨[some 0], 2, 0⟩, ⟨[none], 2, WHDR_DONE⟩] ∧
    ([⟨[some 0], 2, 0⟩, ⟨[none], 2, WHDR_DONE⟩] : List WAVEHDR).length = (1 + 1) % 2 ^ 32 ∧
    queuedCount [⟨[some 0], 2, 0⟩, ⟨[none], 2, WHDR_DONE⟩] ≤ 1 + 1 :=
  have hq : quantizeSample (F32.finite 0) = some 0 := by
    simp [quantizeSample, f32mul, roundF32, toShort, truncate]
  have h1 : winmm_mixer_iteration 1 (fun _ => F32.finite 0) (WinmmOutputDevice.initialHeaders 1 1)
      = some [⟨[some 0], 2, 0⟩, ⟨[none], 2, WHDR_DONE⟩] := by
    simp [winmm_mixer_iteration, WinmmOutputDevice.initialHeaders, firstDone, WHDR_DONE,
      writeStage, updateHeader, fillBuffer, markQueued, forLoop, forLoopAux, hq,
      List.replicate]
  have hr : RingReachable 1 1 [⟨[some 0], 2, 0⟩, ⟨[none], 2, WHDR_DONE⟩] :=
    Relation.ReflTransGen.single (RingStep.mixer _ _ _ h1)
  ⟨hr, C12_queued_at_most_ring_size 1 1 _ hr⟩

/-- C19 at the fallback pair 3 -> 2, two frames: channel 1 of frame 1. -/
theorem C19_entry_points_agree_witness :
    (1 ≤ 3 ∧ 1 < 2 ∧ 1 < 2) ∧
    remixAudioUnInterleaved (MixingMatrices.const (1 : ℤ)) 2 3
        (deinterleave 3 (fun q => (q : ℤ) + 5)) 2 (fun _ _ => 0) 1 1
      = remixAudioInterleaved (MixingMatrices.const (1 : ℤ)) 2 3 (fun q => (q : ℤ) + 5) 2
          (fun _ => 0) (1 * 2 + 1) :=
  ⟨by decide, C19_entry_points_agree (MixingMatrices.const (1 : ℤ)) 2 3 2
    (fun q => (q : ℤ) + 5) (fun _ => 0) (fun _ _ => 0) (by decide) 1 1 (by decide)
    (by decide)⟩

/-- C20 at 6 channels, 48000 Hz, extended format: the mask has six bits, the
block alignment is 12 and the byte rate 576000. -/
theorem C20_makeFormat_mask_in_bounds_witness :
    (6 ∈ [2, 6, 8]) ∧
    ((chanmasks.length = 9 ∧ 6 < chanmasks.length ∧
      ∃ mask, (makeFormat 6 48000 true).dwChannelMask = some mask ∧ popCount mask = 6) ∧
    (makeFormat 6 48000 true).nBlockAlign = 2 * 6 ∧
    (makeFormat 6 48000 true).nAvgBytesPerSec
      = (makeFormat 6 48000 true).nBlockAlign * 48000 % 2 ^ 32 ∧
    ((makeFormat 6 48000 true).nBlockAlign * 48000 < 2 ^ 32 →
      (makeFormat 6 48000 true).nAvgBytesPerSec
        = (makeFormat 6 48000 true).nBlockAlign * 48000) ∧
    (∀ (w1 w2 : WAVEFORMATEXTENSIBLE → Bool) (ev : Bool) (req maxChannels targetSr : Nat),
      (∀ c, c ∈ [2, 6, 8] → ∀ e, w1 (makeFormat c targetSr e) = w2 (makeFormat c targetSr e)) →
      WinmmOutputDevice.WinmmOutputDevice ev w1 req maxChannels targetSr
        = WinmmOutputDevice.WinmmOutputDevice ev w2 req maxChannels targetSr) ∧
    (∀ (P1 P2 : Platform) (index : Nat), P1.szPname index = P2.szPname index →
      (∀ c, c ∈ [2, 6, 8] → ∀ r,
        P1.waveOutOpenQuery index (makeFormat c r true)
          = P2.waveOutOpenQuery index (makeFormat c r true)) →
      getWinmmCapabilities P1 index = getWinmmCapabilities P2 index)) :=
  ⟨by decide, C20_makeFormat_mask_in_bounds 6 48000 true (by decide)⟩

end witnesses2

end audio_out
